import Mathlib

/-!
Verification development for the rlvideo timeline engine
(`src/rlvideolib/domain/{region,cut,section,source,project}.py`).

The Python code is embedded shallowly:

* Python `int` is `Int`; Python `//` (floor division) is `Int.fdiv`;
  Python numbers produced by true division (`/`) are `Rat`.
* Python `dict` (insertion ordered) is an association list `List (k × v)`
  with Python's update semantics: assigning to an existing key keeps its
  position, assigning a fresh key appends (`Pydict.set`).
* Python identifiers (`cut.id`, `source.id`) may be `None` or a string,
  so ids are `Option String`.
* Code that can raise returns `Except String`; the error strings are
  abbreviations of the Python messages.
* `@timeit` decorators, printing, GUI and MLT (media engine) calls are
  external effects outside the embedded core and are dropped.
* Python's `sorted` is a stable sort; since a stable sort's output is
  uniquely determined, it is embedded as `List.insertionSort` with the
  reflexive (`≤`-style) comparison on the sort key, which is stable.
* The Python field and property `end` (on `Region`, `Cut`, `Cuts`) is a
  Lean keyword and is rendered `stop` throughout.
-/

/-! ### Python dictionaries as insertion-ordered association lists -/

/-- `d[key]` lookup: first (and, for dicts, only) binding of `key`. -/
def Pydict.lookup [DecidableEq κ] : List (κ × ν) → κ → Option ν
  | [], _ => none
  | (a, b) :: rest, key => if a = key then some b else Pydict.lookup rest key

/-- `d[key] = val`: replace in place if present, else append (Python dict order). -/
def Pydict.set [DecidableEq κ] : List (κ × ν) → κ → ν → List (κ × ν)
  | [], key, val => [(key, val)]
  | (a, b) :: rest, key, val =>
    if a = key then (a, val) :: rest else (a, b) :: Pydict.set rest key val

/-- `del d[key]`: drop the binding of `key` (Python raises `KeyError` when
absent; callers in this development only delete present keys). -/
def Pydict.del [DecidableEq κ] : List (κ × ν) → κ → List (κ × ν)
  | [], _ => []
  | (a, b) :: rest, key => if a = key then rest else (a, b) :: Pydict.del rest key

/-- `d.values()` in insertion order. -/
def Pydict.values (d : List (κ × ν)) : List ν := d.map Prod.snd

/-- `d.keys()` in insertion order. -/
def Pydict.keys (d : List (κ × ν)) : List κ := d.map Prod.fst

/-- `itertools.combinations(l, 2)` in Python's order. -/
def pairsOf : List α → List (α × α)
  | [] => []
  | x :: xs => xs.map (fun y => (x, y)) ++ pairsOf xs

/-! ### Region (`rlvideolib/domain/region.py`) -/

/-- Python ids (`Cut.id`, `Source.id`): `None` or a string. -/
abbrev CutId := Option String

/-- `Region(start, end)`: a half-open frame interval.  The Python class is a
`namedtuple`; the field `end` is rendered `stop`.  The raw structure carries
no invariant because `namedtuple._replace` (used by `resize_to`,
`shorten_left`, `move_end`, `scale`, …) bypasses `Region.__init__` and hence
its validation; only direct construction (`Region.mk?`) validates. -/
structure Region where
  start : Int
  stop : Int
deriving DecidableEq, Repr

/-- Direct construction `Region(start, end)`, which runs `__init__` and
raises `ValueError` when `start >= end`. -/
def Region.mk? (start stop : Int) : Except String Region :=
  if start ≥ stop then Except.error "Invalid region: start >= end."
  else Except.ok ⟨start, stop⟩

/-- The `__init__` invariant: `start < end`. -/
def Region.valid (r : Region) : Prop := r.start < r.stop

instance (r : Region) : Decidable r.valid := by unfold Region.valid; infer_instance

def Region.length (r : Region) : Int := r.stop - r.start

/-- `Region.get_groups(group_size)`: the bucket indices
`set(range(start//size, ((end-1)//size)+1))`, as the ascending list. -/
def Region.get_groups (r : Region) (group_size : Int) : List Int :=
  (List.range (((r.stop - 1).fdiv group_size + 1) - r.start.fdiv group_size).toNat).map
    (fun (i : Nat) => r.start.fdiv group_size + (i : Int))

/-- `Region.union`: one region when overlapping or adjacent, else both in
original order. -/
def Region.union (r region : Region) : List Region :=
  if region.stop < r.start ∨ region.start > r.stop then [r, region]
  else [⟨min r.start region.start, max r.stop region.stop⟩]

/-- `Region.get_overlap`: `None` when the interiors are disjoint. -/
def Region.get_overlap (r region : Region) : Option Region :=
  if region.stop ≤ r.start ∨ region.start ≥ r.stop then none
  else some ⟨max r.start region.start, min r.stop region.stop⟩

/-- `Region.resize_to(size)`: `_replace(end=start+size)` (no validation). -/
def Region.resize_to (r : Region) (size : Int) : Region := ⟨r.start, r.start + size⟩

/-- `Region.shorten_left(amount)`: `_replace(start=start+amount)` (no validation). -/
def Region.shorten_left (r : Region) (amount : Int) : Region := ⟨r.start + amount, r.stop⟩

/-- `Region.move_end(amount)`: `_replace(end=end+amount)` (no validation; the
source's own doctest shows `Region(0, 1).move_end(-1) == Region(0, 0)` with
the comment "TODO: why no exception?"). -/
def Region.move_end (r : Region) (amount : Int) : Region := ⟨r.start, r.stop + amount⟩

/-- Python `int(q)`: truncation toward zero. -/
def ratTrunc (q : Rat) : Int := q.num.tdiv (q.den : Int)

/-- `Region.scale(factor)`: endpoints multiplied and truncated (no validation). -/
def Region.scale (r : Region) (factor : Rat) : Region :=
  ⟨ratTrunc ((r.start : Rat) * factor), ratTrunc ((r.stop : Rat) * factor)⟩

/-! ### Cut (`rlvideolib/domain/cut.py`) -/

/-- A `Cut` namedtuple.  Python's `Cut.source` holds either a `CutSource`
(a one-field namedtuple naming a media source) or — for the nested cuts
produced by `create_cut` — another `Cut`.  Both classes are embedded into a
single inductive: `Cut.src sid` is the `CutSource(source_id=sid)` leaf and
`Cut.mk` is a genuine cut record.  Collections only ever store `mk` nodes;
the well-formedness predicates below guarantee it. -/
inductive Cut where
  | src (source_id : CutId)
  | mk (source : Cut) (in_out : Region) (position : Int) (id : CutId)
      (mix_strategy : String) (volume : Int) (speed : Rat)
deriving DecidableEq, Repr

/-- `cut.source`.  On a `CutSource` leaf (where Python has no such
attribute) it returns the leaf itself; no embedded code path reads it there. -/
def Cut.source : Cut → Cut
  | .src s => .src s
  | .mk s _ _ _ _ _ _ => s

/-- `cut.in_out` (junk `⟨0, 0⟩` — an invalid region — on a `CutSource` leaf,
which Python never queries). -/
def Cut.in_out : Cut → Region
  | .src _ => ⟨0, 0⟩
  | .mk _ io _ _ _ _ _ => io

def Cut.position : Cut → Int
  | .src _ => 0
  | .mk _ _ p _ _ _ _ => p

def Cut.id : Cut → CutId
  | .src _ => none
  | .mk _ _ _ i _ _ _ => i

def Cut.mix_strategy : Cut → String
  | .src _ => "under"
  | .mk _ _ _ _ m _ _ => m

def Cut.volume : Cut → Int
  | .src _ => 0
  | .mk _ _ _ _ _ v _ => v

def Cut.speed : Cut → Rat
  | .src _ => 1
  | .mk _ _ _ _ _ _ sp => sp

/-- `Cut.length` property: `in_out.length`. -/
def Cut.length (c : Cut) : Int := c.in_out.length

/-- `Cut.start` property: `position`. -/
def Cut.start (c : Cut) : Int := c.position

/-- `Cut.stop` models the Python property `Cut.end`: `position + length`. -/
def Cut.stop (c : Cut) : Int := c.position + c.length

/-- `Cut.region` property: `Region(start=position, end=position+length)`.
The Python property constructs through the validating `Region` constructor,
so it raises for a cut of non-positive length; the structure literal is used
here and validity (`0 < length`) is tracked by the callers' invariants. -/
def Cut.region (c : Cut) : Region := ⟨c.position, c.position + c.length⟩

/-- `Cut.get_region_groups(group_size)`: `region.get_groups(group_size)`. -/
def Cut.get_region_groups (c : Cut) (group_size : Int) : List Int :=
  c.region.get_groups group_size

def Cut.with_id (c : Cut) (id : CutId) : Cut :=
  match c with
  | .src s => .src s
  | .mk s io p _ m v sp => .mk s io p id m v sp

def Cut.with_mix_strategy (c : Cut) (mix_strategy : String) : Cut :=
  match c with
  | .src s => .src s
  | .mk s io p i _ v sp => .mk s io p i mix_strategy v sp

def Cut.with_volume (c : Cut) (volume : Int) : Cut :=
  match c with
  | .src s => .src s
  | .mk s io p i m _ sp => .mk s io p i m volume sp

/-- `Cut.move(delta)`: `position = max(0, position + delta)`. -/
def Cut.move (c : Cut) (delta : Int) : Cut :=
  match c with
  | .src s => .src s
  | .mk s io p i m v sp => .mk s io (max 0 (p + delta)) i m v sp

/-- `Cut.move_left(amount)`: slips the head, clamped so `in_out.start ≥ 0`,
`position ≥ 0` and the cut keeps length at least 1. -/
def Cut.move_left (c : Cut) (amount : Int) : Cut :=
  match c with
  | .src s => .src s
  | .mk s io p i m v sp =>
    let amount := max amount (-io.start)
    let amount := max amount (-p)
    let amount := min amount (io.length - 1)
    .mk s ⟨io.start + amount, io.stop⟩ (p + amount) i m v sp

/-- `Cut.move_right`: unimplemented (`print("TODO: implement move_right!")`
then `return self`); the print is an external effect. -/
def Cut.move_right (c : Cut) (amount : Int) : Cut := c

/-- `Cut.resize_left`: unimplemented (`print("TODO: implement resize_left!")`
then `return self`); the print is an external effect. -/
def Cut.resize_left (c : Cut) (amount : Int) : Cut := c

/-- `Cut.resize_right(amount)`: timewarp — rescale `in_out` and compensate
`speed`.  Python computes with floats; embedded over `Rat` (division by a
zero-length region, a `ZeroDivisionError` in Python, yields Lean's `0`). -/
def Cut.resize_right (c : Cut) (amount : Int) : Cut :=
  match c with
  | .src s => .src s
  | .mk s io p i m v sp =>
    let speed_change : Rat := (io.length : Rat) / ((io.move_end amount).length : Rat)
    .mk s (io.scale (1 / speed_change)) p i m v (sp * speed_change)

/-- `Cut.split(position)`: the two halves.  Python gives both halves fresh
`uuid4` ids via `with_unique_id`; the generated ids are passed in as `id1`,
`id2`. -/
def Cut.split (c : Cut) (position : Int) (id1 id2 : CutId) : List Cut :=
  match c with
  | .src s => [(Cut.src s).with_id id1, (Cut.src s).with_id id2]
  | .mk s io p i m v sp =>
    let delta := position - (Cut.mk s io p i m v sp).start
    [Cut.mk s (io.resize_to delta) p id1 m v sp,
     Cut.mk s (io.shorten_left delta) (p + delta) id2 m v sp]

/-- `Cut.get_source_cut`: chase nested-cut sources to the root cut. -/
def Cut.get_source_cut : Cut → Cut
  | .mk (.mk s io p i m v sp) _ _ _ _ _ _ => Cut.get_source_cut (.mk s io p i m v sp)
  | c => c

/-- `Cut.get_overlap(other)`: `region.get_overlap(other.region)`. -/
def Cut.get_overlap (c other : Cut) : Option Region :=
  c.region.get_overlap other.region

/-- `Cut.create_cut(region)`: project the cut onto a window.  Returns the
cut itself when the overlap covers it, a nested cut for a partial overlap,
`none` for no overlap.  (The `in_out` of the nested cut is built through the
validating constructor in Python; it is always valid — see
`Cut.create_cut_region`.)  A `CutSource` leaf has no `create_cut` of this
shape in Python; the embedding returns `none` there (unreachable from
well-formed collections). -/
def Cut.create_cut (c : Cut) (region : Region) : Option Cut :=
  match c with
  | .src _ => none
  | .mk s io p i m v sp =>
    let self := Cut.mk s io p i m v sp
    match self.region.get_overlap region with
    | none => none
    | some overlap =>
      if overlap.start = self.start ∧ overlap.stop = self.stop then some self
      else some (Cut.mk self
        ⟨io.start + overlap.start - self.start, io.stop - self.stop + overlap.stop⟩
        overlap.start i m v sp)

/-! ### RegionToCuts: the region-bucket index -/

/-- `RegionToCuts`: `bucket number → list of cut ids`, a Python dict. -/
structure RegionToCuts where
  region_number_to_cut_ids : List (Int × List CutId)
deriving DecidableEq, Repr

def RegionToCuts.empty : RegionToCuts := ⟨[]⟩

/-- `get_cuts_in_region(n)`: `dict.get(n, [])`. -/
def RegionToCuts.get_cuts_in_region (rc : RegionToCuts) (n : Int) : List CutId :=
  (Pydict.lookup rc.region_number_to_cut_ids n).getD []

/-- `iter_groups()`: the bucket lists in dict (insertion) order. -/
def RegionToCuts.iter_groups (rc : RegionToCuts) : List (List CutId) :=
  rc.region_number_to_cut_ids.map Prod.snd

/-- `add_cut_to_regions(cut_id, group_numbers)`: append `cut_id` to every
listed bucket (if not already there). -/
def RegionToCuts.add_cut_to_regions (rc : RegionToCuts) (cut_id : CutId)
    (group_numbers : List Int) : RegionToCuts :=
  ⟨group_numbers.foldl (fun d n =>
    let new_ids := (Pydict.lookup d n).getD []
    let new_ids := if cut_id ∈ new_ids then new_ids else new_ids ++ [cut_id]
    Pydict.set d n new_ids) rc.region_number_to_cut_ids⟩

/-- `remove_cut_from_regions(cut_id, group_numbers)`: drop the first
occurrence of `cut_id` from every listed bucket.  Python raises `KeyError` /
`ValueError` when the bucket or the id is absent; the collections' index
invariants (`Cuts.WF`) make those branches unreachable, and the embedding
leaves the absent bucket or id alone. -/
def RegionToCuts.remove_cut_from_regions (rc : RegionToCuts) (cut_id : CutId)
    (group_numbers : List Int) : RegionToCuts :=
  ⟨group_numbers.foldl (fun d n =>
    Pydict.set d n (((Pydict.lookup d n).getD []).erase cut_id))
    rc.region_number_to_cut_ids⟩

/-! ### Cuts (`rlvideolib/domain/cut.py`, class `Cuts`) -/

/-- `DEFAULT_REGION_GROUP_SIZE`. -/
def DEFAULT_REGION_GROUP_SIZE : Int := 100

/-- The `Cuts` namedtuple: insertion-ordered id map plus region index. -/
structure Cuts where
  cut_map : List (CutId × Cut)
  region_to_cuts : RegionToCuts
  region_group_size : Int
deriving DecidableEq, Repr

def Cuts.empty : Cuts :=
  { cut_map := [], region_to_cuts := RegionToCuts.empty,
    region_group_size := DEFAULT_REGION_GROUP_SIZE }

/-- `Cuts.get(id)`: `cut_map[id]`, `KeyError` when absent. -/
def Cuts.get (cuts : Cuts) (id : CutId) : Except String Cut :=
  match Pydict.lookup cuts.cut_map id with
  | some c => Except.ok c
  | none => Except.error "KeyError"

/-- One step of `Cuts.add`: raise on a duplicate id, then compute the
region groups — whose `cut.region` property raises `ValueError` for a cut
of non-positive length (the validity check is hoisted here) — and extend
map and index. -/
def Cuts.add1 (cuts : Cuts) (cut : Cut) : Except String Cuts :=
  if (Pydict.lookup cuts.cut_map cut.id).isSome then
    Except.error "Cut with id already exists."
  else if cut.region.stop ≤ cut.region.start then
    Except.error "Invalid region: start >= end."
  else Except.ok
    { cuts with
      cut_map := Pydict.set cuts.cut_map cut.id cut,
      region_to_cuts := cuts.region_to_cuts.add_cut_to_regions cut.id
        (cut.get_region_groups cuts.region_group_size) }

/-- `Cuts.add(*cuts)`: sequential `add1`. -/
def Cuts.add (cuts : Cuts) (new : List Cut) : Except String Cuts :=
  new.foldlM Cuts.add1 cuts

/-- `Cuts.remove(cut_id)`: `KeyError` on a missing id (and, like `add1`,
the old cut's `region` property would raise for a non-positive length). -/
def Cuts.remove (cuts : Cuts) (cut_id : CutId) : Except String Cuts :=
  match Pydict.lookup cuts.cut_map cut_id with
  | none => Except.error "KeyError"
  | some old_cut =>
    if old_cut.region.stop ≤ old_cut.region.start then
      Except.error "Invalid region: start >= end."
    else Except.ok
      { cuts with
        cut_map := Pydict.del cuts.cut_map cut_id,
        region_to_cuts := cuts.region_to_cuts.remove_cut_from_regions cut_id
          (old_cut.get_region_groups cuts.region_group_size) }

/-- `Cuts.modify(cut_id, fn)`: `ValueError` on a missing id; the index entry
for the old cut is removed and one for `fn(old)` is added (both via the
`region` property, which raises for non-positive lengths, checked in
evaluation order). -/
def Cuts.modify (cuts : Cuts) (cut_id : CutId) (fn : Cut → Cut) : Except String Cuts :=
  match Pydict.lookup cuts.cut_map cut_id with
  | none => Except.error "cut with id does not exist."
  | some old_cut =>
    let new_cut := fn old_cut
    if old_cut.region.stop ≤ old_cut.region.start then
      Except.error "Invalid region: start >= end."
    else if new_cut.region.stop ≤ new_cut.region.start then
      Except.error "Invalid region: start >= end."
    else Except.ok
      { cuts with
        cut_map := Pydict.set cuts.cut_map cut_id new_cut,
        region_to_cuts :=
          (cuts.region_to_cuts.remove_cut_from_regions old_cut.id
            (old_cut.get_region_groups cuts.region_group_size)).add_cut_to_regions
            new_cut.id (new_cut.get_region_groups cuts.region_group_size) }

/-- `Cuts.end` (rendered `stop`): the maximal cut end, `0` when empty. -/
def Cuts.stop (cuts : Cuts) : Int :=
  match cuts.cut_map.map (fun p => p.2.stop) with
  | [] => 0
  | x :: xs => xs.foldl max x

/-- `Cuts.ripple_delete(cut_id)`: remove the cut, then shift every cut that
starts after it left by the smallest such gap.  When no remaining cut starts
after the deleted one, `diffs` is empty and Python's `min(diffs)` raises
`ValueError: min() arg is an empty sequence`. -/
def Cuts.ripple_delete (cuts : Cuts) (cut_id : CutId) : Except String Cuts := do
  let cut_to_delete ← cuts.get cut_id
  let cuts2 ← cuts.remove cut_id
  let later := (Pydict.values cuts2.cut_map).filter
    (fun cut => cut_to_delete.start < cut.start)
  let ids := later.map Cut.id
  let diffs := later.map (fun cut => cut.start - cut_to_delete.start)
  match diffs with
  | [] => Except.error "min() arg is an empty sequence"
  | d :: ds =>
    let delta := -(ds.foldl min d)
    ids.foldlM (fun cs id => cs.modify id (fun cut => cut.move delta)) cuts2

/-- `Cuts.split(cut_id, position)`: remove, then add the two halves.  The
halves' fresh `uuid4` ids are passed in as `id1`, `id2`. -/
def Cuts.split (cuts : Cuts) (cut_id : CutId) (position : Int)
    (id1 id2 : CutId) : Except String Cuts := do
  let cut_to_split ← cuts.get cut_id
  let cuts2 ← cuts.remove cut_to_split.id
  (cut_to_split.split position id1 id2).foldlM Cuts.add1 cuts2

/-- Inner loop of `yield_cuts_in_period`: walk one bucket's id list,
yielding each not-yet-seen id's cut and marking it seen.  A stale id
(missing from `cut_map`) would raise `KeyError` in Python; unreachable
under `Cuts.WF`, the embedding marks it seen without yielding. -/
def Cuts.yieldBucket (cuts : Cuts) : List CutId → List CutId → List Cut × List CutId
  | [], yielded => ([], yielded)
  | cut_id :: rest, yielded =>
    if cut_id ∈ yielded then cuts.yieldBucket rest yielded
    else
      match Pydict.lookup cuts.cut_map cut_id with
      | some cut =>
        let t := cuts.yieldBucket rest (yielded ++ [cut_id])
        (cut :: t.1, t.2)
      | none => cuts.yieldBucket rest (yielded ++ [cut_id])

/-- Outer loop of `yield_cuts_in_period`: walk the period's buckets. -/
def Cuts.yieldGroups (cuts : Cuts) : List Int → List CutId → List Cut
  | [], _ => []
  | g :: gs, yielded =>
    let t := cuts.yieldBucket (cuts.region_to_cuts.get_cuts_in_region g) yielded
    t.1 ++ cuts.yieldGroups gs t.2

/-- `Cuts.yield_cuts_in_period(period)`: every cut touching a bucket of the
period, deduplicated, in bucket-then-list order. -/
def Cuts.yield_cuts_in_period (cuts : Cuts) (period : Region) : List Cut :=
  cuts.yieldGroups (period.get_groups cuts.region_group_size) []

/-- `Cuts.create_cut(period)`: clip every cut in the period to it and
collect the clips into a fresh collection via `Cuts.empty().add(*cuts)`. -/
def Cuts.create_cut (cuts : Cuts) (period : Region) : Except String Cuts :=
  Cuts.empty.add
    ((cuts.yield_cuts_in_period period).filterMap (fun cut => cut.create_cut period))

/-- `Cuts.get_regions_with_overlap` before `UnionRegions` merging: for every
bucket, every id pair (`itertools.combinations`), the overlap of the two
cuts' regions, in iteration order.  A stale id would raise `KeyError`
(unreachable under `Cuts.WF`); the embedding skips the pair. -/
def Cuts.overlap_regions_raw (cuts : Cuts) : List Region :=
  cuts.region_to_cuts.iter_groups.flatMap (fun cut_ids =>
    (pairsOf cut_ids).filterMap (fun p =>
      match Pydict.lookup cuts.cut_map p.1, Pydict.lookup cuts.cut_map p.2 with
      | some c1, some c2 => c1.get_overlap c2
      | _, _ => none))

/-- One iteration of `UnionRegions.__iter__`'s while loop:
`merged.extend(merged.pop(-1).union(region))` (or `append` when empty). -/
def unionStep (merged : List Region) (region : Region) : List Region :=
  if merged.isEmpty then [region]
  else merged.dropLast ++ (merged.getLastD ⟨0, 0⟩).union region

/-- `UnionRegions.__iter__`: sort the added regions by `start` (Python's
`sorted` is stable) and fold-merge adjacent/overlapping ones. -/
def UnionRegions.merged (regions : List Region) : List Region :=
  (List.insertionSort (fun a b => a.start ≤ b.start) regions).foldl unionStep []

/-- `Cuts.get_regions_with_overlap()` as iterated by `split_into_sections`. -/
def Cuts.get_regions_with_overlap (cuts : Cuts) : List Region :=
  UnionRegions.merged cuts.overlap_regions_raw

/-! ### Sections (`rlvideolib/domain/section.py`) -/

/-- A part of a `PlaylistSection`: a `SpaceCut` or a `Cut`. -/
inductive PlaylistPart where
  | space (length : Int)
  | cut (c : Cut)
deriving DecidableEq, Repr

def PlaylistPart.length : PlaylistPart → Int
  | .space n => n
  | .cut c => c.length

structure PlaylistSection where
  length : Int
  parts : List PlaylistPart
deriving DecidableEq, Repr

/-- `PlaylistSection.__init__`, whose
`assert length == sum(part.length for part in parts)` becomes an error. -/
def PlaylistSection.mk? (length : Int) (parts : List PlaylistPart) :
    Except String PlaylistSection :=
  if length = (parts.map PlaylistPart.length).sum then Except.ok ⟨length, parts⟩
  else Except.error "PlaylistSection length assertion"

structure MixSection where
  length : Int
  playlists : List PlaylistSection
deriving DecidableEq, Repr

/-- `MixSection.__init__`, whose `assert playlist.length == length` becomes
an error. -/
def MixSection.mk? (length : Int) (playlists : List PlaylistSection) :
    Except String MixSection :=
  if playlists.all (fun p => p.length == length) then Except.ok ⟨length, playlists⟩
  else Except.error "MixSection length assertion"

/-- A section as stored by `Sections`: a `PlaylistSection` or a `MixSection`. -/
inductive TimelineSection where
  | playlist (s : PlaylistSection)
  | mix (s : MixSection)
deriving DecidableEq, Repr

def TimelineSection.length : TimelineSection → Int
  | .playlist s => s.length
  | .mix s => s.length

/-- The `Sections` container (its `length` property is the sum of the
section lengths). -/
structure Sections where
  sections : List TimelineSection
deriving DecidableEq, Repr

def Sections.length (s : Sections) : Int :=
  (s.sections.map TimelineSection.length).sum

/-! ### Section extraction (`Cuts.extract_*`, `Cuts.split_into_sections`) -/

/-- The cursor sweep of `extract_playlist_section` over the clipped cuts
sorted by `start`, with the final space/`"Cut overlaps end"` handling of the
code after the loop folded into the nil case. -/
def playlistLoop (region_stop : Int) : Int → List Cut → Except String (List PlaylistPart)
  | start, [] =>
    if region_stop > start then Except.ok [PlaylistPart.space (region_stop - start)]
    else if region_stop < start then Except.error "Cut overlaps end"
    else Except.ok []
  | start, cut :: rest =>
    if cut.start > start then do
      let parts ← playlistLoop region_stop cut.stop rest
      Except.ok (PlaylistPart.space (cut.start - start) :: PlaylistPart.cut cut :: parts)
    else if cut.start < start then Except.error "Cut overlaps start"
    else do
      let parts ← playlistLoop region_stop cut.stop rest
      Except.ok (PlaylistPart.cut cut :: parts)

/-- `Cuts.extract_playlist_section(region)`. -/
def Cuts.extract_playlist_section (cuts : Cuts) (region : Region) :
    Except String PlaylistSection := do
  let clipped ← cuts.create_cut region
  let sorted := List.insertionSort (fun a b => a.start ≤ b.start)
    (Pydict.values clipped.cut_map)
  let parts ← playlistLoop region.stop region.start sorted
  PlaylistSection.mk? region.length parts

/-- `Cuts.sort_cuts(cuts)`: stable sort by the source cut's
`(start, end)`, then `over` cuts promoted to the front (the `else` branch's
`assert cut.mix_strategy == "under"` holds for well-formed cuts and is not
modelled). -/
def Cuts.sort_cuts (cuts_list : List Cut) : List Cut :=
  (List.insertionSort (fun a b =>
      a.get_source_cut.start < b.get_source_cut.start ∨
      (a.get_source_cut.start = b.get_source_cut.start ∧
        a.get_source_cut.stop ≤ b.get_source_cut.stop)) cuts_list).foldl
    (fun sorted_cuts cut =>
      if cut.mix_strategy = "over" then cut :: sorted_cuts else sorted_cuts ++ [cut]) []

/-- `Cuts.extract_mix_section(region)`: one single-cut playlist per clipped
cut, in `sort_cuts` order. -/
def Cuts.extract_mix_section (cuts : Cuts) (region : Region) :
    Except String MixSection := do
  let clipped ← cuts.create_cut region
  let playlists ← (Cuts.sort_cuts (Pydict.values clipped.cut_map)).mapM (fun cut => do
    let single ← Cuts.add1 Cuts.empty cut
    single.extract_playlist_section region)
  MixSection.mk? region.length playlists

/-- The loop of `split_into_sections` over the merged overlap regions, with
the trailing `if self.end > start` playlist folded into the nil case.  The
gap windows `Region(start, overlap.start)` and `Region(start, cuts.end)` are
only constructed under the guards that make them valid, so the structure
literal matches the validating Python constructor. -/
def Cuts.sectionsLoop (cuts : Cuts) : Int → List Region → Except String (List TimelineSection)
  | start, [] =>
    if cuts.stop > start then do
      let ps ← cuts.extract_playlist_section ⟨start, cuts.stop⟩
      Except.ok [TimelineSection.playlist ps]
    else Except.ok []
  | start, overlap :: rest => do
    let first ←
      if overlap.start > start then do
        let ps ← cuts.extract_playlist_section ⟨start, overlap.start⟩
        Except.ok [TimelineSection.playlist ps]
      else Except.ok []
    let m ← cuts.extract_mix_section overlap
    let tail ← cuts.sectionsLoop overlap.stop rest
    Except.ok (first ++ TimelineSection.mix m :: tail)

/-- `Cuts.split_into_sections()`. -/
def Cuts.split_into_sections (cuts : Cuts) : Except String Sections := do
  let secs ← cuts.sectionsLoop 0 cuts.get_regions_with_overlap
  Except.ok ⟨secs⟩

/-! ### Well-formedness of a `Cuts` collection

Established by the constructors and preserved by the operations (which
either maintain it or raise); the claims about whole-collection algorithms
assume it. -/

/-- Map/index consistency of a `Cuts` value: positive bucket size; no
duplicate keys; every stored cut is a real cut (`Cut.mk`) recorded under its
own id, has a valid `in_out` (the `region` property would otherwise have
raised when it was added) and a documented mix strategy, and appears in
every bucket its region spans; every bucket list is duplicate-free and only
names stored cuts. -/
def Cuts.WF (cuts : Cuts) : Prop :=
  0 < cuts.region_group_size ∧
  (cuts.cut_map.map Prod.fst).Nodup ∧
  (∀ p ∈ cuts.cut_map, p.2.id = p.1 ∧ (∃ s io pos i m v sp, p.2 = Cut.mk s io pos i m v sp) ∧
    p.2.in_out.start < p.2.in_out.stop ∧
    (p.2.mix_strategy = "over" ∨ p.2.mix_strategy = "under") ∧
    ∀ b ∈ p.2.get_region_groups cuts.region_group_size,
      p.1 ∈ cuts.region_to_cuts.get_cuts_in_region b) ∧
  (cuts.region_to_cuts.region_number_to_cut_ids.map Prod.fst).Nodup ∧
  (∀ q ∈ cuts.region_to_cuts.region_number_to_cut_ids, q.2.Nodup ∧
    ∀ k ∈ q.2, (Pydict.lookup cuts.cut_map k).isSome)

instance (cuts : Cuts) : Decidable cuts.WF := by
  unfold Cuts.WF
  have : ∀ c : Cut, Decidable (∃ s io pos i m v sp, c = Cut.mk s io pos i m v sp) := by
    intro c
    cases c with
    | src s => exact isFalse (by rintro ⟨s, io, pos, i, m, v, sp, h⟩; cases h)
    | mk s io pos i m v sp => exact isTrue ⟨s, io, pos, i, m, v, sp, rfl⟩
  infer_instance

/-! ### Sources (`rlvideolib/domain/source.py`) -/

/-- `FileSource` / `TextSource`.  The checked-in `source.py` names the file
length field `number_of_frames_at_project_fps`, while its callers in
`project.py` construct `FileSource(..., length=...)` and read `.length`
(the repository's `limit_in_out`/`length` source revision is not under
`src/`); the spec's data model calls it the source's length, and the field
is named `length` here. -/
inductive Source where
  | file (id : CutId) (path : String) (length : Int)
  | text (id : CutId) (text : String)
deriving DecidableEq, Repr

def Source.id : Source → CutId
  | .file i _ _ => i
  | .text i _ => i

/-- `FileSource.create_cut(start, end)` / `TextSource.create_cut(start, end)`:
bounds-checked for file sources, then `Cut.new` with a validated region.
The fresh `uuid4` id from `with_unique_id` is passed in as `cid`. -/
def Source.create_cut (s : Source) (start stop : Int) (cid : CutId) : Except String Cut :=
  match s with
  | .file sid _ len =>
    if start < 0 ∨ stop > len then Except.error "Invalid cut."
    else do
      let io ← Region.mk? start stop
      Except.ok (Cut.mk (.src sid) io 0 cid "under" 0 1)
  | .text sid _ => do
    let io ← Region.mk? start stop
    Except.ok (Cut.mk (.src sid) io 0 cid "under" 0 1)

/-- Modelled from the spec: `Source.limit_in_out` is called by
`ProjectData.adjust_cut_in_out` but is absent from the checked-in `src/`
tree (only its caller is present).  Per the spec — "cuts whose `in_out` now
exceeds their source's limit are clamped automatically", file sources
"impose `in_out.end ≤ length`" while "`Text` sources have no inherent
length" — a file source clamps the cut's out point to its length and a text
source leaves the cut unchanged (matching the `ProjectData.add_cut` doctest
`Region(start=0, end=10) ↦ Region(start=0, end=5)` for a length-5 source). -/
def Source.limit_in_out (s : Source) (cut : Cut) : Cut :=
  match s, cut with
  | _, .src c => .src c
  | .text _ _, c => c
  | .file _ _ len, .mk cs io p i m v sp => .mk cs ⟨io.start, min io.stop len⟩ p i m v sp

/-- The `Sources` namedtuple: id map of sources. -/
structure Sources where
  id_to_source : List (CutId × Source)
deriving DecidableEq, Repr

def Sources.empty : Sources := ⟨[]⟩

/-- `Sources.add`: `ValueError` on a duplicate id, else append. -/
def Sources.add (sources : Sources) (source : Source) : Except String Sources :=
  if (Pydict.lookup sources.id_to_source source.id).isSome then
    Except.error "Source with id already exists."
  else Except.ok ⟨Pydict.set sources.id_to_source source.id source⟩

/-- `Sources.get(id)`: `KeyError` when absent. -/
def Sources.get (sources : Sources) (id : CutId) : Except String Source :=
  match Pydict.lookup sources.id_to_source id with
  | some s => Except.ok s
  | none => Except.error "KeyError"

/-! ### ProjectData (`rlvideolib/domain/project.py`) -/

/-- The immutable `(sources, cuts)` snapshot. -/
structure ProjectData where
  sources : Sources
  cuts : Cuts
deriving DecidableEq, Repr

def ProjectData.empty : ProjectData := ⟨Sources.empty, Cuts.empty⟩

/-- `ProjectData.cuts_end` property. -/
def ProjectData.cuts_end (pd : ProjectData) : Int := pd.cuts.stop

def ProjectData.add_source (pd : ProjectData) (source : Source) :
    Except String ProjectData := do
  let sources ← pd.sources.add source
  Except.ok { pd with sources := sources }

/-- `ProjectData.adjust_cut_in_out(cut)`:
`get_source(cut.source.source_id).limit_in_out(cut)`.  Reading `source_id`
off a nested-cut source is an `AttributeError` in Python and a missing
source id a `KeyError`; both become errors. -/
def ProjectData.adjust_cut_in_out (pd : ProjectData) (cut : Cut) : Except String Cut :=
  match cut.source with
  | .src sid =>
    match Pydict.lookup pd.sources.id_to_source sid with
    | some s => Except.ok (s.limit_in_out cut)
    | none => Except.error "KeyError"
  | .mk _ _ _ _ _ _ _ => Except.error "AttributeError: source_id"

def ProjectData.add_cut (pd : ProjectData) (cut : Cut) : Except String ProjectData := do
  let adjusted ← pd.adjust_cut_in_out cut
  let cuts ← pd.cuts.add1 adjusted
  Except.ok { pd with cuts := cuts }

/-- `ProjectData.modify_cut(cut_id, fn)` =
`cuts.modify(cut_id, lambda cut: adjust_cut_in_out(fn(cut)))`.  `Cuts.modify`
validates the id before invoking the lambda, so the embedding looks the cut
up first, adjusts `fn(old)` (errors propagate in the same order) and then
performs the map/index update with the adjusted cut. -/
def ProjectData.modify_cut (pd : ProjectData) (cut_id : CutId) (fn : Cut → Cut) :
    Except String ProjectData :=
  match Pydict.lookup pd.cuts.cut_map cut_id with
  | none => Except.error "cut with id does not exist."
  | some old => do
    let adjusted ← pd.adjust_cut_in_out (fn old)
    let cuts ← pd.cuts.modify cut_id (fun _ => adjusted)
    Except.ok { pd with cuts := cuts }

def ProjectData.ripple_delete (pd : ProjectData) (cut_id : CutId) :
    Except String ProjectData := do
  let cuts ← pd.cuts.ripple_delete cut_id
  Except.ok { pd with cuts := cuts }

def ProjectData.split (pd : ProjectData) (cut_id : CutId) (position : Int)
    (id1 id2 : CutId) : Except String ProjectData := do
  let cuts ← pd.cuts.split cut_id position id1 id2
  Except.ok { pd with cuts := cuts }

/-! ### Persistence (`to_json` / `from_json`, `Project.save` / `ProjectData.load`)

The on-disk document (`json.dump`/`json.load`) is embedded structurally as a
`Json` tree; the byte-level serialization is external.  Python serializes a
`None` dict key as the string `"null"`, which `jsonKey` reproduces. -/

inductive Json where
  | null
  | str (s : String)
  | int (n : Int)
  | num (q : Rat)
  | obj (fields : List (String × Json))

def Json.getField (j : Json) (key : String) : Except String Json :=
  match j with
  | .obj fields =>
    match Pydict.lookup fields key with
    | some v => Except.ok v
    | none => Except.error "KeyError"
  | _ => Except.error "TypeError"

/-- `json.get(key, default)` for `Json.obj`. -/
def Json.getFieldD (j : Json) (key : String) : Option Json :=
  match j with
  | .obj fields => Pydict.lookup fields key
  | _ => none

def Json.asInt (j : Json) : Except String Int :=
  match j with
  | .int n => Except.ok n
  | _ => Except.error "TypeError: not an int"

def Json.asStr (j : Json) : Except String String :=
  match j with
  | .str s => Except.ok s
  | _ => Except.error "TypeError: not a str"

/-- `json.dump` of a Python dict key that may be `None`. -/
def jsonKey : CutId → String
  | some s => s
  | none => "null"

def Region.to_json (r : Region) : Json :=
  .obj [("start", .int r.start), ("end", .int r.stop)]

/-- `Region.from_json`: reads the fields and constructs through the
validating `Region` constructor. -/
def Region.from_json (j : Json) : Except String Region := do
  let s ← (← j.getField "start").asInt
  let e ← (← j.getField "end").asInt
  Region.mk? s e

/-- `Cut.to_json`: `assert isinstance(self.source, CutSource)` becomes an
error on a nested-cut source. -/
def Cut.to_json (c : Cut) : Except String Json :=
  match c with
  | .src _ => Except.error "AttributeError"
  | .mk (.mk _ _ _ _ _ _ _) _ _ _ _ _ _ => Except.error "AssertionError"
  | .mk (.src sid) io p _ m v sp =>
    Except.ok (.obj
      [("source", match sid with | some s => .str s | none => .null),
       ("in_out", io.to_json),
       ("position", .int p),
       ("mix_strategy", .str m),
       ("volume", .int v),
       ("speed", .num sp)])

/-- `Cut.from_json(id, json)`; `volume` defaults to `0` and `speed` to `1`
via `json.get`. -/
def Cut.from_json (id : CutId) (j : Json) : Except String Cut := do
  let sourceJ ← j.getField "source"
  let sid ← match sourceJ with
    | .str s => Except.ok (some s)
    | .null => Except.ok (none : CutId)
    | _ => Except.error "TypeError: bad source"
  let io ← Region.from_json (← j.getField "in_out")
  let p ← (← j.getField "position").asInt
  let m ← (← j.getField "mix_strategy").asStr
  let v ← match j.getFieldD "volume" with
    | some (.int n) => Except.ok n
    | none => Except.ok (0 : Int)
    | some _ => Except.error "TypeError: bad volume"
  let sp ← match j.getFieldD "speed" with
    | some (.num q) => Except.ok q
    | some (.int n) => Except.ok (n : Rat)
    | none => Except.ok (1 : Rat)
    | some _ => Except.error "TypeError: bad speed"
  Except.ok (Cut.mk (.src sid) io p id m v sp)

def Cuts.to_json (cuts : Cuts) : Except String Json := do
  let fields ← cuts.cut_map.mapM (fun p => do
    let cj ← p.2.to_json
    Except.ok (jsonKey p.1, cj))
  Except.ok (Json.obj fields)

/-- `Cuts.from_json`: rebuild via `Cuts.empty().add(...)` in document order
(JSON object keys are strings, so every loaded id is a string). -/
def Cuts.from_json (j : Json) : Except String Cuts :=
  match j with
  | .obj fields =>
    fields.foldlM (fun cuts p => do
      let cut ← Cut.from_json (some p.1) p.2
      cuts.add1 cut) Cuts.empty
  | _ => Except.error "TypeError"

def Source.to_json (s : Source) : Json :=
  match s with
  | .file _ path len =>
    .obj [("type", .str "file"), ("path", .str path),
      ("number_of_frames_at_project_fps", .int len)]
  | .text _ txt => .obj [("type", .str "text"), ("text", .str txt)]

/-- `Source.from_json(id, json)`: dispatch on `"type"`. -/
def Source.from_json (id : CutId) (j : Json) : Except String Source := do
  let t ← (← j.getField "type").asStr
  if t = "text" then do
    let text ← (← j.getField "text").asStr
    Except.ok (.text id text)
  else if t = "file" then do
    let path ← (← j.getField "path").asStr
    let len ← (← j.getField "number_of_frames_at_project_fps").asInt
    Except.ok (.file id path len)
  else Except.error "unknown source type"

def Sources.to_json (sources : Sources) : Json :=
  .obj (sources.id_to_source.map (fun p => (jsonKey p.1, p.2.to_json)))

def Sources.from_json (j : Json) : Except String Sources :=
  match j with
  | .obj fields =>
    fields.foldlM (fun sources p => do
      let s ← Source.from_json (some p.1) p.2
      sources.add s) Sources.empty
  | _ => Except.error "TypeError"

def ProjectData.to_json (pd : ProjectData) : Except String Json := do
  let cj ← pd.cuts.to_json
  Except.ok (Json.obj [("sources", pd.sources.to_json), ("cuts", cj)])

def ProjectData.from_json (j : Json) : Except String ProjectData := do
  let sources ← Sources.from_json (← j.getField "sources")
  let cuts ← Cuts.from_json (← j.getField "cuts")
  Except.ok ⟨sources, cuts⟩

/-- `Project.save` followed by `ProjectData.load` on the same path: the
document written is the document read back (the atomic tmp-file rename and
byte serialization are external), so the round trip is
`from_json ∘ to_json`. -/
def ProjectData.save_load (pd : ProjectData) : Except String ProjectData := do
  ProjectData.from_json (← pd.to_json)

/-! ### Project and Transaction (`rlvideolib/domain/project.py`) -/

/-- The mutable `Project` state the transaction protocol touches:
`project_data` and the in-progress transaction's captured `initial_data`
(`current_transaction is None` ⟺ `none`).  Events, the proxy loader and
disk writes are external effects. -/
structure Project where
  project_data : ProjectData
  current_transaction : Option ProjectData
deriving DecidableEq, Repr

def Project.new (pd : ProjectData) : Project := ⟨pd, none⟩

/-- `Project.new_transaction`: `ValueError` when one is in progress;
otherwise the new transaction captures `initial_data = project_data`. -/
def Project.new_transaction (p : Project) : Except String Project :=
  match p.current_transaction with
  | some _ => Except.error "transaction already in progress"
  | none => Except.ok { p with current_transaction := some p.project_data }

/-- `Transaction.reset`: `set_project_data(initial_data)` (modelled only
with a transaction in progress; after release Python's `initial_data` is
`None` and the call would fail). -/
def Project.reset (p : Project) : Project :=
  match p.current_transaction with
  | some init => { p with project_data := init }
  | none => p

/-- `Transaction.rollback`: `reset` then release via `cleanup`. -/
def Project.rollback (p : Project) : Project :=
  { p.reset with current_transaction := none }

/-- `Transaction.commit`: keep the current data, release via `cleanup`
(proxy reconciliation, events and `Project.save` are external effects). -/
def Project.commit (p : Project) : Project :=
  { p with current_transaction := none }

/-- A mutating transaction operation.  `add_clip(path)` computes the clip
length through the media engine and `add_text_clip(text, length)` takes it
as an argument; both then run `add_source(source, length)` — embedded as
`addSourceOp` carrying the built source, the length, and the `uuid4` cut id.
`splitOp` carries the two halves' `uuid4` ids. -/
inductive TransOp where
  | modifyOp (cut_id : CutId) (fn : Cut → Cut)
  | addSourceOp (source : Source) (length : Int) (cid : CutId)
  | rippleDeleteOp (cut_id : CutId)
  | splitOp (cut_id : CutId) (position : Int) (id1 id2 : CutId)

/-- `Transaction.add_source(source, length)` on the data: add the source,
then `source.create_cut(0, length).move(cuts_end)`, then `add_cut`.  Each
`set_project_data` that Python reached before an exception is kept. -/
def ProjectData.transaction_add_source (pd : ProjectData) (source : Source)
    (length : Int) (cid : CutId) : ProjectData :=
  match pd.add_source source with
  | .error _ => pd
  | .ok d1 =>
    match source.create_cut 0 length cid with
    | .error _ => d1
    | .ok cut0 =>
      match d1.add_cut (cut0.move d1.cuts_end) with
      | .error _ => d1
      | .ok d2 => d2

/-- One transaction operation on the project data; an operation that raises
leaves the data at whatever the last successful `set_project_data` stored. -/
def applyTransOpData (pd : ProjectData) (op : TransOp) : ProjectData :=
  match op with
  | .modifyOp cut_id fn =>
    match pd.modify_cut cut_id fn with
    | .ok d => d
    | .error _ => pd
  | .addSourceOp source length cid => pd.transaction_add_source source length cid
  | .rippleDeleteOp cut_id =>
    match pd.ripple_delete cut_id with
    | .ok d => d
    | .error _ => pd
  | .splitOp cut_id position id1 id2 =>
    match pd.split cut_id position id1 id2 with
    | .ok d => d
    | .error _ => pd

/-- A transaction operation on the project: only `project_data` changes. -/
def applyTransOp (p : Project) (op : TransOp) : Project :=
  { p with project_data := applyTransOpData p.project_data op }

/-- A whole sequence of transaction operations. -/
def applyTransOps (p : Project) (ops : List TransOp) : Project :=
  ops.foldl applyTransOp p

/-! ### Association-list (Python dict) lemmas -/

theorem Pydict.lookup_set_self [DecidableEq κ] (d : List (κ × ν)) (k : κ) (v : ν) :
    Pydict.lookup (Pydict.set d k v) k = some v := by
  induction d with
  | nil => simp [Pydict.set, Pydict.lookup]
  | cons p rest ih =>
    by_cases h : p.1 = k
    · simp [Pydict.set, Pydict.lookup, h]
    · simpa [Pydict.set, Pydict.lookup, h] using ih

theorem Pydict.lookup_set_ne [DecidableEq κ] (d : List (κ × ν)) (k k' : κ) (v : ν)
    (h : k' ≠ k) : Pydict.lookup (Pydict.set d k v) k' = Pydict.lookup d k' := by
  induction d with
  | nil => simp [Pydict.set, Pydict.lookup, Ne.symm h]
  | cons p rest ih =>
    obtain ⟨a, b⟩ := p
    by_cases hp : a = k
    · subst hp
      simp [Pydict.set, Pydict.lookup, Ne.symm h]
    · by_cases hp' : a = k'
      · simp [Pydict.set, Pydict.lookup, hp, hp', h]
      · simpa [Pydict.set, Pydict.lookup, hp, hp'] using ih

theorem Pydict.set_eq_of_lookup [DecidableEq κ] (d : List (κ × ν)) (k : κ) (v : ν)
    (h : Pydict.lookup d k = some v) : Pydict.set d k v = d := by
  induction d with
  | nil => simp [Pydict.lookup] at h
  | cons p rest ih =>
    obtain ⟨a, b⟩ := p
    by_cases hp : a = k
    · subst hp
      simp only [Pydict.lookup, if_pos] at h
      cases h
      simp [Pydict.set]
    · simp only [Pydict.lookup, hp, if_false] at h
      simp [Pydict.set, hp, ih h]

theorem Pydict.lookup_mem [DecidableEq κ] {d : List (κ × ν)} {k : κ} {v : ν}
    (h : Pydict.lookup d k = some v) : (k, v) ∈ d := by
  induction d with
  | nil => simp [Pydict.lookup] at h
  | cons p rest ih =>
    obtain ⟨a, b⟩ := p
    by_cases hp : a = k
    · subst hp
      simp only [Pydict.lookup, if_pos] at h
      cases h
      exact List.mem_cons_self _ _
    · simp only [Pydict.lookup, hp, if_false] at h
      exact List.mem_cons_of_mem _ (ih h)

theorem Pydict.mem_lookup [DecidableEq κ] {d : List (κ × ν)} {k : κ} {v : ν}
    (hnd : (d.map Prod.fst).Nodup) (h : (k, v) ∈ d) : Pydict.lookup d k = some v := by
  induction d with
  | nil => simp at h
  | cons p rest ih =>
    simp only [List.map_cons, List.nodup_cons] at hnd
    rcases List.mem_cons.mp h with h | h
    · subst h
      simp [Pydict.lookup]
    · have hne : p.1 ≠ k := by
        intro he
        exact hnd.1 (he ▸ List.mem_map.mpr ⟨(k, v), h, rfl⟩)
      simp only [Pydict.lookup, hne, if_neg, if_false]
      exact ih hnd.2 h

theorem Pydict.lookup_isSome_iff [DecidableEq κ] (d : List (κ × ν)) (k : κ) :
    (Pydict.lookup d k).isSome ↔ k ∈ d.map Prod.fst := by
  induction d with
  | nil => simp [Pydict.lookup]
  | cons p rest ih =>
    by_cases hp : p.1 = k
    · simp [Pydict.lookup, hp]
    · simp [Pydict.lookup, hp, ih, Ne.symm hp]

theorem Pydict.lookup_eq_none_iff [DecidableEq κ] (d : List (κ × ν)) (k : κ) :
    Pydict.lookup d k = none ↔ k ∉ d.map Prod.fst := by
  rw [← Pydict.lookup_isSome_iff]
  cases Pydict.lookup d k <;> simp

theorem Pydict.set_fresh [DecidableEq κ] (d : List (κ × ν)) (k : κ) (v : ν)
    (h : Pydict.lookup d k = none) : Pydict.set d k v = d ++ [(k, v)] := by
  induction d with
  | nil => simp [Pydict.set]
  | cons p rest ih =>
    by_cases hp : p.1 = k
    · simp [Pydict.lookup, hp] at h
    · simp only [Pydict.lookup, hp, if_neg, if_false] at h
      simp [Pydict.set, hp, ih h]

/-! ### pairsOf (itertools.combinations) lemmas -/

theorem pairsOf_complete {l : List α} {a b : α} (hab : a ≠ b)
    (ha : a ∈ l) (hb : b ∈ l) : (a, b) ∈ pairsOf l ∨ (b, a) ∈ pairsOf l := by
  induction l with
  | nil => simp at ha
  | cons x xs ih =>
    rcases List.mem_cons.mp ha with rfl | ha'
    · have hb' : b ∈ xs := by
        rcases List.mem_cons.mp hb with rfl | hb'
        · exact absurd rfl hab
        · exact hb'
      exact Or.inl (List.mem_append.mpr (Or.inl (List.mem_map.mpr ⟨b, hb', rfl⟩)))
    · rcases List.mem_cons.mp hb with rfl | hb'
      · exact Or.inr (List.mem_append.mpr (Or.inl (List.mem_map.mpr ⟨a, ha', rfl⟩)))
      · rcases ih ha' hb' with h | h
        · exact Or.inl (List.mem_append.mpr (Or.inr h))
        · exact Or.inr (List.mem_append.mpr (Or.inr h))

/-! ### Region lemmas -/

theorem Region.length_pos_iff (r : Region) : 0 < r.length ↔ r.valid := by
  simp only [Region.length, Region.valid]
  omega

theorem Region.mem_get_groups {r : Region} {g b : Int} :
    b ∈ r.get_groups g ↔ r.start.fdiv g ≤ b ∧ b ≤ (r.stop - 1).fdiv g := by
  unfold Region.get_groups
  rw [List.mem_map]
  constructor
  · rintro ⟨i, hi, rfl⟩
    rw [List.mem_range] at hi
    omega
  · rintro ⟨h1, h2⟩
    exact ⟨(b - r.start.fdiv g).toNat, by rw [List.mem_range]; omega, by omega⟩

theorem Int.fdiv_le_fdiv_of_le {a b g : Int} (hg : 0 < g) (h : a ≤ b) :
    a.fdiv g ≤ b.fdiv g := by
  rw [Int.fdiv_eq_ediv _ (le_of_lt hg), Int.fdiv_eq_ediv _ (le_of_lt hg)]
  exact Int.ediv_le_ediv hg h

/-- Bucket monotonicity: a valid region inside a larger one only touches
buckets the larger one touches. -/
theorem Region.get_groups_subset {r m : Region} {g : Int} (hg : 0 < g)
    (hv : r.valid) (h1 : m.start ≤ r.start) (h2 : r.stop ≤ m.stop) :
    ∀ b ∈ r.get_groups g, b ∈ m.get_groups g := by
  intro b hb
  rw [Region.mem_get_groups] at hb ⊢
  constructor
  · exact le_trans (Int.fdiv_le_fdiv_of_le hg h1) hb.1
  · exact le_trans hb.2 (Int.fdiv_le_fdiv_of_le hg (by omega))

theorem Region.get_groups_nonempty {r : Region} {g : Int} (hg : 0 < g)
    (hv : r.valid) : r.start.fdiv g ∈ r.get_groups g := by
  rw [Region.mem_get_groups]
  refine ⟨le_refl _, Int.fdiv_le_fdiv_of_le hg ?_⟩
  have : r.start < r.stop := hv
  omega

theorem Region.get_overlap_eq_none_iff (r w : Region) :
    r.get_overlap w = none ↔ w.stop ≤ r.start ∨ r.stop ≤ w.start := by
  simp only [Region.get_overlap, ge_iff_le]
  by_cases h : w.stop ≤ r.start ∨ r.stop ≤ w.start
  · rw [if_pos h]
    simp [h]
  · rw [if_neg h]
    simp [h]

theorem Region.get_overlap_eq_some {r w o : Region} (h : r.get_overlap w = some o) :
    o = ⟨max r.start w.start, min r.stop w.stop⟩ ∧ r.start < w.stop ∧ w.start < r.stop := by
  simp only [Region.get_overlap] at h
  by_cases hc : w.stop ≤ r.start ∨ w.start ≥ r.stop
  · simp [hc] at h
  · simp only [hc, if_neg, if_false, Option.some.injEq] at h
    simp only [ge_iff_le] at hc
    exact ⟨h.symm, by omega⟩

theorem Region.get_overlap_valid {r w o : Region} (hr : r.valid) (hw : w.valid)
    (h : r.get_overlap w = some o) : o.valid := by
  obtain ⟨rfl, h1, h2⟩ := Region.get_overlap_eq_some h
  simp only [Region.valid] at hr hw ⊢
  simp only [lt_min_iff, max_lt_iff]
  omega

theorem Region.get_overlap_comm (r w : Region) : r.get_overlap w = w.get_overlap r := by
  simp only [Region.get_overlap, ge_iff_le]
  by_cases h1 : w.stop ≤ r.start ∨ r.stop ≤ w.start
  · have h2 : r.stop ≤ w.start ∨ w.stop ≤ r.start := h1.symm
    rw [if_pos h1, if_pos h2]
  · have h2 : ¬(r.stop ≤ w.start ∨ w.stop ≤ r.start) := fun hc => h1 hc.symm
    rw [if_neg h1, if_neg h2, max_comm, min_comm]

/-- The overlap of two regions is contained in each. -/
theorem Region.get_overlap_subset {r w o : Region} (h : r.get_overlap w = some o) :
    r.start ≤ o.start ∧ o.stop ≤ r.stop ∧ w.start ≤ o.start ∧ o.stop ≤ w.stop := by
  obtain ⟨rfl, _, _⟩ := Region.get_overlap_eq_some h
  simp only
  omega

/-- Full-containment characterization used by `Cut.create_cut`. -/
theorem Region.get_overlap_of_subset {r w : Region} (hr : r.valid)
    (h1 : w.start ≤ r.start) (h2 : r.stop ≤ w.stop) : r.get_overlap w = some r := by
  simp only [Region.get_overlap, ge_iff_le]
  have hv := hr
  simp only [Region.valid] at hv
  have : ¬(w.stop ≤ r.start ∨ r.stop ≤ w.start) := by omega
  simp only [ge_iff_le, this, if_neg, if_false, Option.some.injEq]
  have : max r.start w.start = r.start := by omega
  have h' : min r.stop w.stop = r.stop := by omega
  simp [this, h']

/-! ### UnionRegions merge lemmas -/

instance : IsTotal Region (fun a b => a.start ≤ b.start) :=
  ⟨fun a b => le_total a.start b.start⟩

instance : IsTrans Region (fun a b => a.start ≤ b.start) :=
  ⟨fun _ _ _ h1 h2 => le_trans h1 h2⟩

/-- The recursion underlying the `UnionRegions.__iter__` fold: `cur` is the
region currently growing at the end of `merged`. -/
def unionGo (cur : Region) : List Region → List Region
  | [] => [cur]
  | r :: rest =>
    if r.stop < cur.start ∨ r.start > cur.stop then cur :: unionGo r rest
    else unionGo ⟨min cur.start r.start, max cur.stop r.stop⟩ rest

theorem foldl_unionStep (rest : List Region) : ∀ (done : List Region) (cur : Region),
    rest.foldl unionStep (done ++ [cur]) = done ++ unionGo cur rest := by
  induction rest with
  | nil =>
    intro done cur
    simp [unionGo]
  | cons r rs ih =>
    intro done cur
    show rs.foldl unionStep (unionStep (done ++ [cur]) r) = _
    have hstep : unionStep (done ++ [cur]) r = done ++ cur.union r := by
      have h1 : (done ++ [cur]).isEmpty = false := by simp
      have h2 : (done ++ [cur]).dropLast = done := by simp
      have h3 : (done ++ [cur]).getLastD ⟨0, 0⟩ = cur := by
        simp [List.getLastD_concat]
      simp [unionStep, h1, h2, h3]
    rw [hstep]
    unfold Region.union
    by_cases h : r.stop < cur.start ∨ r.start > cur.stop
    · rw [if_pos h]
      have : done ++ [cur, r] = (done ++ [cur]) ++ [r] := by simp
      rw [this, ih (done ++ [cur]) r]
      simp [unionGo, h]
    · rw [if_neg h]
      rw [ih done ⟨min cur.start r.start, max cur.stop r.stop⟩]
      simp [unionGo, h]

theorem UnionRegions.merged_eq (regions : List Region) :
    UnionRegions.merged regions =
      match List.insertionSort (fun a b => a.start ≤ b.start) regions with
      | [] => []
      | r :: rest => unionGo r rest := by
  unfold UnionRegions.merged
  cases h : List.insertionSort (fun a b => a.start ≤ b.start) regions with
  | nil => simp
  | cons r rest =>
    show (r :: rest).foldl unionStep [] = _
    have : (r :: rest).foldl unionStep [] = rest.foldl unionStep ([] ++ [r]) := by
      simp [unionStep]
    rw [this, foldl_unionStep]
    simp

theorem unionGo_start_ge : ∀ (rest : List Region) (cur : Region),
    (cur :: rest).Pairwise (fun a b => a.start ≤ b.start) →
    ∀ m ∈ unionGo cur rest, cur.start ≤ m.start := by
  intro rest
  induction rest with
  | nil =>
    intro cur _ m hm
    simp [unionGo] at hm
    simp [hm]
  | cons r rs ih =>
    intro cur hp m hm
    have hcr : cur.start ≤ r.start := (List.pairwise_cons.mp hp).1 r (List.mem_cons_self _ _)
    have hcrs : ∀ x ∈ rs, cur.start ≤ x.start := fun x hx =>
      (List.pairwise_cons.mp hp).1 x (List.mem_cons_of_mem _ hx)
    have htail : (r :: rs).Pairwise (fun a b => a.start ≤ b.start) :=
      (List.pairwise_cons.mp hp).2
    unfold unionGo at hm
    by_cases h : r.stop < cur.start ∨ r.start > cur.stop
    · rw [if_pos h] at hm
      rcases List.mem_cons.mp hm with rfl | hm'
      · exact le_refl _
      · exact le_trans hcr (ih r htail m hm')
    · rw [if_neg h] at hm
      have hmin : (Region.mk (min cur.start r.start) (max cur.stop r.stop)).start = cur.start := by
        simp only
        omega
      have hp' : ((⟨min cur.start r.start, max cur.stop r.stop⟩ : Region) :: rs).Pairwise
          (fun a b => a.start ≤ b.start) := by
        rw [List.pairwise_cons]
        refine ⟨fun x hx => ?_, htail.tail⟩
        simp only
        exact le_trans (by omega) (hcrs x hx)
      have := ih _ hp' m hm
      omega

theorem unionGo_valid : ∀ (rest : List Region) (cur : Region), cur.valid →
    (∀ r ∈ rest, r.valid) → ∀ m ∈ unionGo cur rest, m.valid := by
  intro rest
  induction rest with
  | nil =>
    intro cur hc _ m hm
    simp [unionGo] at hm
    simp [hm, hc]
  | cons r rs ih =>
    intro cur hc hv m hm
    have hr : r.valid := hv r (List.mem_cons_self _ _)
    have hrs : ∀ x ∈ rs, x.valid := fun x hx => hv x (List.mem_cons_of_mem _ hx)
    unfold unionGo at hm
    by_cases h : r.stop < cur.start ∨ r.start > cur.stop
    · rw [if_pos h] at hm
      rcases List.mem_cons.mp hm with rfl | hm'
      · exact hc
      · exact ih r hr hrs m hm'
    · rw [if_neg h] at hm
      refine ih _ ?_ hrs m hm
      have h1 : cur.start < cur.stop := hc
      show min cur.start r.start < max cur.stop r.stop
      omega

theorem unionGo_pairwise : ∀ (rest : List Region) (cur : Region),
    (cur :: rest).Pairwise (fun a b => a.start ≤ b.start) → cur.valid →
    (∀ r ∈ rest, r.valid) →
    (unionGo cur rest).Pairwise (fun a b => a.stop < b.start) := by
  intro rest
  induction rest with
  | nil =>
    intro cur _ _ _
    simp [unionGo]
  | cons r rs ih =>
    intro cur hp hc hv
    have hcr : cur.start ≤ r.start := (List.pairwise_cons.mp hp).1 r (List.mem_cons_self _ _)
    have hcrs : ∀ x ∈ rs, cur.start ≤ x.start := fun x hx =>
      (List.pairwise_cons.mp hp).1 x (List.mem_cons_of_mem _ hx)
    have htail : (r :: rs).Pairwise (fun a b => a.start ≤ b.start) :=
      (List.pairwise_cons.mp hp).2
    have hr : r.valid := hv r (List.mem_cons_self _ _)
    have hrs : ∀ x ∈ rs, x.valid := fun x hx => hv x (List.mem_cons_of_mem _ hx)
    unfold unionGo
    by_cases h : r.stop < cur.start ∨ r.start > cur.stop
    · rw [if_pos h]
      have hlt : cur.stop < r.start := by
        have h1 : cur.start < cur.stop := hc
        have h2 : r.start < r.stop := hr
        rcases h with h | h
        · omega
        · omega
      rw [List.pairwise_cons]
      refine ⟨fun m hm => ?_, ih r htail hr hrs⟩
      exact lt_of_lt_of_le hlt (unionGo_start_ge rs r htail m hm)
    · rw [if_neg h]
      refine ih _ ?_ ?_ hrs
      · rw [List.pairwise_cons]
        refine ⟨fun x hx => ?_, htail.tail⟩
        show min cur.start r.start ≤ x.start
        exact le_trans (by omega) (hcrs x hx)
      · have h1 : cur.start < cur.stop := hc
        show min cur.start r.start < max cur.stop r.stop
        omega

theorem unionGo_bounds : ∀ (rest : List Region) (cur : Region) (lo hi : Int),
    lo ≤ cur.start → cur.stop ≤ hi → (∀ r ∈ rest, lo ≤ r.start ∧ r.stop ≤ hi) →
    ∀ m ∈ unionGo cur rest, lo ≤ m.start ∧ m.stop ≤ hi := by
  intro rest
  induction rest with
  | nil =>
    intro cur lo hi h1 h2 _ m hm
    simp [unionGo] at hm
    subst hm
    exact ⟨h1, h2⟩
  | cons r rs ih =>
    intro cur lo hi h1 h2 hv m hm
    have hr := hv r (List.mem_cons_self _ _)
    have hrs : ∀ x ∈ rs, lo ≤ x.start ∧ x.stop ≤ hi := fun x hx =>
      hv x (List.mem_cons_of_mem _ hx)
    unfold unionGo at hm
    by_cases h : r.stop < cur.start ∨ r.start > cur.stop
    · rw [if_pos h] at hm
      rcases List.mem_cons.mp hm with rfl | hm'
      · exact ⟨h1, h2⟩
      · exact ih r lo hi hr.1 hr.2 hrs m hm'
    · rw [if_neg h] at hm
      refine ih _ lo hi ?_ ?_ hrs m hm
      · show lo ≤ min cur.start r.start
        omega
      · show max cur.stop r.stop ≤ hi
        omega

theorem unionGo_covers_cur : ∀ (rest : List Region) (cur : Region),
    ∃ m ∈ unionGo cur rest, m.start ≤ cur.start ∧ cur.stop ≤ m.stop := by
  intro rest
  induction rest with
  | nil =>
    intro cur
    exact ⟨cur, by simp [unionGo], le_refl _, le_refl _⟩
  | cons r rs ih =>
    intro cur
    unfold unionGo
    by_cases h : r.stop < cur.start ∨ r.start > cur.stop
    · rw [if_pos h]
      exact ⟨cur, List.mem_cons_self _ _, le_refl _, le_refl _⟩
    · rw [if_neg h]
      obtain ⟨m, hm, hms, hmt⟩ := ih ⟨min cur.start r.start, max cur.stop r.stop⟩
      refine ⟨m, hm, ?_, ?_⟩
      · calc m.start ≤ min cur.start r.start := hms
          _ ≤ cur.start := by omega
      · calc cur.stop ≤ max cur.stop r.stop := by omega
          _ ≤ m.stop := hmt

theorem unionGo_covers : ∀ (rest : List Region) (cur : Region),
    (cur :: rest).Pairwise (fun a b => a.start ≤ b.start) →
    ∀ x ∈ cur :: rest, ∃ m ∈ unionGo cur rest, m.start ≤ x.start ∧ x.stop ≤ m.stop := by
  intro rest
  induction rest with
  | nil =>
    intro cur _ x hx
    rcases List.mem_cons.mp hx with rfl | hx'
    · exact ⟨x, by simp [unionGo], le_refl _, le_refl _⟩
    · simp at hx'
  | cons r rs ih =>
    intro cur hp x hx
    have hcr : cur.start ≤ r.start := (List.pairwise_cons.mp hp).1 r (List.mem_cons_self _ _)
    have hcrs : ∀ y ∈ rs, cur.start ≤ y.start := fun y hy =>
      (List.pairwise_cons.mp hp).1 y (List.mem_cons_of_mem _ hy)
    have htail : (r :: rs).Pairwise (fun a b => a.start ≤ b.start) :=
      (List.pairwise_cons.mp hp).2
    unfold unionGo
    by_cases h : r.stop < cur.start ∨ r.start > cur.stop
    · rw [if_pos h]
      rcases List.mem_cons.mp hx with rfl | hx'
      · exact ⟨x, List.mem_cons_self _ _, le_refl _, le_refl _⟩
      · obtain ⟨m, hm, h1, h2⟩ := ih r htail x hx'
        exact ⟨m, List.mem_cons_of_mem _ hm, h1, h2⟩
    · rw [if_neg h]
      have hp' : ((⟨min cur.start r.start, max cur.stop r.stop⟩ : Region) :: rs).Pairwise
          (fun a b => a.start ≤ b.start) := by
        rw [List.pairwise_cons]
        refine ⟨fun y hy => ?_, htail.tail⟩
        exact le_trans (by show min cur.start r.start ≤ cur.start; omega) (hcrs y hy)
      rcases List.mem_cons.mp hx with rfl | hx'
      · obtain ⟨m, hm, h1, h2⟩ := unionGo_covers_cur rs ⟨min x.start r.start, max x.stop r.stop⟩
        refine ⟨m, hm, le_trans h1 (by show min x.start r.start ≤ x.start; omega), ?_⟩
        exact le_trans (by show x.stop ≤ max x.stop r.stop; omega) h2
      · rcases List.mem_cons.mp hx' with rfl | hx''
        · obtain ⟨m, hm, h1, h2⟩ := unionGo_covers_cur rs ⟨min cur.start x.start, max cur.stop x.stop⟩
          refine ⟨m, hm, le_trans h1 (by show min cur.start x.start ≤ x.start; omega), ?_⟩
          exact le_trans (by show x.stop ≤ max cur.stop x.stop; omega) h2
        · obtain ⟨m, hm, h1, h2⟩ := ih _ hp' x (List.mem_cons_of_mem _ hx'')
          exact ⟨m, hm, h1, h2⟩

/-- Packaged facts about `UnionRegions.merged` on a list of valid regions:
every output region is valid; outputs are strictly separated in order; they
stay within any bounds the inputs satisfy; and every input region is covered
by some output region. -/
theorem UnionRegions.merged_spec (regions : List Region)
    (hv : ∀ r ∈ regions, r.valid) :
    (∀ m ∈ UnionRegions.merged regions, m.valid) ∧
    (UnionRegions.merged regions).Pairwise (fun a b => a.stop < b.start) ∧
    (∀ lo hi : Int, (∀ r ∈ regions, lo ≤ r.start ∧ r.stop ≤ hi) →
      ∀ m ∈ UnionRegions.merged regions, lo ≤ m.start ∧ m.stop ≤ hi) ∧
    (∀ r ∈ regions, ∃ m ∈ UnionRegions.merged regions,
      m.start ≤ r.start ∧ r.stop ≤ m.stop) := by
  have hperm := List.perm_insertionSort (fun a b => a.start ≤ b.start) regions
  have hsorted := List.sorted_insertionSort (fun a b => a.start ≤ b.start) regions
  rw [UnionRegions.merged_eq]
  cases hs : List.insertionSort (fun a b => a.start ≤ b.start) regions with
  | nil =>
    have : regions = [] := by
      have := hperm.symm
      rw [hs] at this
      exact this.symm.nil_eq.symm
    subst this
    refine ⟨by simp, by simp, by simp, by simp⟩
  | cons r rest =>
    rw [hs] at hperm hsorted
    have hvs : ∀ x ∈ r :: rest, x.valid := fun x hx => hv x (hperm.mem_iff.mp hx)
    have hr : r.valid := hvs r (List.mem_cons_self _ _)
    have hrest : ∀ x ∈ rest, x.valid := fun x hx => hvs x (List.mem_cons_of_mem _ hx)
    refine ⟨unionGo_valid rest r hr hrest, unionGo_pairwise rest r hsorted hr hrest,
      ?_, ?_⟩
    · intro lo hi hb
      have hb' : ∀ x ∈ r :: rest, lo ≤ x.start ∧ x.stop ≤ hi := fun x hx =>
        hb x (hperm.mem_iff.mp hx)
      exact unionGo_bounds rest r lo hi (hb' r (List.mem_cons_self _ _)).1
        (hb' r (List.mem_cons_self _ _)).2
        (fun x hx => hb' x (List.mem_cons_of_mem _ hx))
    · intro x hx
      exact unionGo_covers rest r hsorted x (hperm.mem_iff.mpr hx)

/-! ### Cut-level clipping lemmas -/

instance : IsTotal Cut (fun a b => a.start ≤ b.start) :=
  ⟨fun a b => le_total a.start b.start⟩

instance : IsTrans Cut (fun a b => a.start ≤ b.start) :=
  ⟨fun _ _ _ h1 h2 => le_trans h1 h2⟩

theorem Cut.region_start (c : Cut) : c.region.start = c.start := rfl

theorem Cut.region_stop (c : Cut) : c.region.stop = c.stop := rfl

theorem Cut.region_valid_iff (c : Cut) : c.region.valid ↔ c.in_out.start < c.in_out.stop := by
  show c.position < c.position + c.length ↔ _
  have : c.length = c.in_out.stop - c.in_out.start := rfl
  omega

/-- `Cut.create_cut` on a real cut never returns a `CutSource` leaf and
clips exactly to the overlap with the window, preserving id, mix strategy,
volume and speed. -/
theorem Cut.create_cut_some {s : Cut} {io : Region} {p : Int} {i : CutId}
    {m : String} {v : Int} {sp : Rat} {w : Region} {sub : Cut}
    (h : (Cut.mk s io p i m v sp).create_cut w = some sub) :
    ∃ o, (Cut.mk s io p i m v sp).region.get_overlap w = some o ∧
      sub.region = o ∧ sub.id = i ∧ sub.mix_strategy = m ∧
      ∃ s2 io2, sub = Cut.mk s2 io2 o.start i m v sp := by
  unfold Cut.create_cut at h
  simp only at h
  cases ho : (Cut.mk s io p i m v sp).region.get_overlap w with
  | none => rw [ho] at h; cases h
  | some o =>
    rw [ho] at h
    replace h : (if o.start = (Cut.mk s io p i m v sp).start ∧
        o.stop = (Cut.mk s io p i m v sp).stop then some (Cut.mk s io p i m v sp)
      else some (Cut.mk (Cut.mk s io p i m v sp)
        ⟨io.start + o.start - (Cut.mk s io p i m v sp).start,
          io.stop - (Cut.mk s io p i m v sp).stop + o.stop⟩
        o.start i m v sp)) = some sub := h
    by_cases hc : o.start = (Cut.mk s io p i m v sp).start ∧
        o.stop = (Cut.mk s io p i m v sp).stop
    · rw [if_pos hc] at h
      cases h
      refine ⟨o, rfl, ?_, rfl, rfl, s, io, ?_⟩
      · have h1 : o.start = p := hc.1
        have h2 : o.stop = p + ((Cut.mk s io p i m v sp).length) := hc.2
        show (⟨p, p + (Cut.mk s io p i m v sp).length⟩ : Region) = o
        cases o
        simp only at h1 h2
        simp [h1, h2]
      · have h1 : o.start = p := hc.1
        simp [h1.symm]
    · rw [if_neg hc] at h
      cases h
      refine ⟨o, rfl, ?_, rfl, rfl, _, _, rfl⟩
      show (⟨o.start, o.start + (io.stop - (Cut.mk s io p i m v sp).stop + o.stop -
        (io.start + o.start - (Cut.mk s io p i m v sp).start))⟩ : Region) = o
      have hst : (Cut.mk s io p i m v sp).stop = p + (io.stop - io.start) := rfl
      have hsa : (Cut.mk s io p i m v sp).start = p := rfl
      rw [hst, hsa]
      cases o
      simp only
      congr 1
      omega

theorem Cut.create_cut_none_iff {s : Cut} {io : Region} {p : Int} {i : CutId}
    {m : String} {v : Int} {sp : Rat} {w : Region} :
    (Cut.mk s io p i m v sp).create_cut w = none ↔
      (Cut.mk s io p i m v sp).region.get_overlap w = none := by
  unfold Cut.create_cut
  simp only
  cases ho : (Cut.mk s io p i m v sp).region.get_overlap w with
  | none => simp
  | some o =>
    show (if o.start = (Cut.mk s io p i m v sp).start ∧
        o.stop = (Cut.mk s io p i m v sp).stop then some (Cut.mk s io p i m v sp)
      else some (Cut.mk (Cut.mk s io p i m v sp)
        ⟨io.start + o.start - (Cut.mk s io p i m v sp).start,
          io.stop - (Cut.mk s io p i m v sp).stop + o.stop⟩
        o.start i m v sp)) = none ↔ some o = none
    by_cases hc : o.start = (Cut.mk s io p i m v sp).start ∧
        o.stop = (Cut.mk s io p i m v sp).stop
    · rw [if_pos hc]
      simp
    · rw [if_neg hc]
      simp

/-- A cut whose region sits inside the window is returned unchanged. -/
theorem Cut.create_cut_of_subset {s : Cut} {io : Region} {p : Int} {i : CutId}
    {m : String} {v : Int} {sp : Rat} {w : Region}
    (hv : (Cut.mk s io p i m v sp).region.valid)
    (h1 : w.start ≤ (Cut.mk s io p i m v sp).region.start)
    (h2 : (Cut.mk s io p i m v sp).region.stop ≤ w.stop) :
    (Cut.mk s io p i m v sp).create_cut w = some (Cut.mk s io p i m v sp) := by
  unfold Cut.create_cut
  simp only
  rw [Region.get_overlap_of_subset hv h1 h2]
  show (if (Cut.mk s io p i m v sp).region.start = (Cut.mk s io p i m v sp).start ∧
      (Cut.mk s io p i m v sp).region.stop = (Cut.mk s io p i m v sp).stop
    then some (Cut.mk s io p i m v sp)
    else some (Cut.mk (Cut.mk s io p i m v sp)
      ⟨io.start + (Cut.mk s io p i m v sp).region.start - (Cut.mk s io p i m v sp).start,
        io.stop - (Cut.mk s io p i m v sp).stop + (Cut.mk s io p i m v sp).region.stop⟩
      (Cut.mk s io p i m v sp).region.start i m v sp)) = some (Cut.mk s io p i m v sp)
  rw [if_pos ⟨rfl, rfl⟩]

/-! ### Fold-max helper for `Cuts.stop` -/

theorem le_foldl_max (xs : List Int) : ∀ x0 : Int,
    x0 ≤ xs.foldl max x0 ∧ ∀ x ∈ xs, x ≤ xs.foldl max x0 := by
  induction xs with
  | nil => intro x0; exact ⟨le_refl _, by simp⟩
  | cons x xs ih =>
    intro x0
    have h := ih (max x0 x)
    constructor
    · exact le_trans (le_max_left _ _) h.1
    · intro y hy
      rcases List.mem_cons.mp hy with rfl | hy'
      · exact le_trans (le_max_right _ _) h.1
      · exact h.2 y hy'

/-- Every stored cut ends at or before `Cuts.end`. -/
theorem Cuts.stop_ge (cuts : Cuts) : ∀ p ∈ cuts.cut_map, p.2.stop ≤ cuts.stop := by
  intro p hp
  unfold Cuts.stop
  cases hm : cuts.cut_map.map (fun p => p.2.stop) with
  | nil =>
    exfalso
    have : p.2.stop ∈ cuts.cut_map.map (fun p => p.2.stop) := List.mem_map.mpr ⟨p, hp, rfl⟩
    rw [hm] at this
    simp at this
  | cons x xs =>
    have : p.2.stop ∈ cuts.cut_map.map (fun p => p.2.stop) := List.mem_map.mpr ⟨p, hp, rfl⟩
    rw [hm] at this
    rcases List.mem_cons.mp this with h | h
    · rw [h]
      exact (le_foldl_max xs x).1
    · exact (le_foldl_max xs x).2 _ h

/-- With every cut at a nonnegative position and a valid length,
`Cuts.end` is nonnegative. -/
theorem Cuts.stop_nonneg (cuts : Cuts) (hWF : cuts.WF)
    (hpos : ∀ p ∈ cuts.cut_map, 0 ≤ p.2.position) : 0 ≤ cuts.stop := by
  cases hm : cuts.cut_map with
  | nil => unfold Cuts.stop; rw [hm]; simp
  | cons q rest =>
    have hq : q ∈ cuts.cut_map := by rw [hm]; exact List.mem_cons_self _ _
    have h1 := Cuts.stop_ge cuts q hq
    have h2 := hpos q hq
    have h3 := (hWF.2.2.1 q hq).2.2.1
    have h4 : q.2.stop = q.2.position + (q.2.in_out.stop - q.2.in_out.start) := rfl
    omega

/-! ### `yield_cuts_in_period` lemmas -/

theorem Cuts.yieldBucket_spec (cuts : Cuts)
    (hid : ∀ k c, Pydict.lookup cuts.cut_map k = some c → c.id = k) :
    ∀ (l y : List CutId), ∃ K : List CutId,
      (cuts.yieldBucket l y).2 = y ++ K ∧ K.Nodup ∧
      (∀ k ∈ K, k ∉ y ∧ k ∈ l) ∧
      ((cuts.yieldBucket l y).1.map Cut.id).Sublist K ∧
      (∀ c ∈ (cuts.yieldBucket l y).1, Pydict.lookup cuts.cut_map c.id = some c) ∧
      (∀ k ∈ l, ∀ c, Pydict.lookup cuts.cut_map k = some c →
        c ∈ (cuts.yieldBucket l y).1 ∨ k ∈ y) := by
  intro l
  induction l with
  | nil =>
    intro y
    refine ⟨[], by simp [Cuts.yieldBucket], List.nodup_nil, by simp, ?_, ?_, ?_⟩
    · simp [Cuts.yieldBucket]
    · simp [Cuts.yieldBucket]
    · simp
  | cons k l' ih =>
    intro y
    by_cases hky : k ∈ y
    · obtain ⟨K, h1, h2, h3, h4, h5, h6⟩ := ih y
      have hr : cuts.yieldBucket (k :: l') y = cuts.yieldBucket l' y := by
        show (if k ∈ y then cuts.yieldBucket l' y
          else match Pydict.lookup cuts.cut_map k with
          | some cut => (cut :: (cuts.yieldBucket l' (y ++ [k])).1,
              (cuts.yieldBucket l' (y ++ [k])).2)
          | none => cuts.yieldBucket l' (y ++ [k])) = cuts.yieldBucket l' y
        rw [if_pos hky]
      refine ⟨K, by rw [hr]; exact h1, h2, ?_, by rw [hr]; exact h4,
        by rw [hr]; exact h5, ?_⟩
      · exact fun x hx => ⟨(h3 x hx).1, List.mem_cons_of_mem _ (h3 x hx).2⟩
      · intro k' hk' c hc
        rcases List.mem_cons.mp hk' with rfl | hk''
        · exact Or.inr hky
        · rw [hr]
          exact h6 k' hk'' c hc
    · cases hlook : Pydict.lookup cuts.cut_map k with
      | some cut =>
        obtain ⟨K', h1, h2, h3, h4, h5, h6⟩ := ih (y ++ [k])
        have hr : cuts.yieldBucket (k :: l') y =
            (cut :: (cuts.yieldBucket l' (y ++ [k])).1, (cuts.yieldBucket l' (y ++ [k])).2) := by
          show (if k ∈ y then cuts.yieldBucket l' y
            else match Pydict.lookup cuts.cut_map k with
            | some cut => (cut :: (cuts.yieldBucket l' (y ++ [k])).1,
                (cuts.yieldBucket l' (y ++ [k])).2)
            | none => cuts.yieldBucket l' (y ++ [k])) = _
          rw [if_neg hky, hlook]
        have hcid : cut.id = k := hid k cut hlook
        refine ⟨k :: K', ?_, ?_, ?_, ?_, ?_, ?_⟩
        · rw [hr]
          simp only
          rw [h1, List.append_cons, List.append_assoc]
          simp
        · rw [List.nodup_cons]
          refine ⟨fun hk => ?_, h2⟩
          exact (h3 k hk).1 (List.mem_append.mpr (Or.inr (List.mem_singleton.mpr rfl)))
        · intro x hx
          rcases List.mem_cons.mp hx with rfl | hx'
          · exact ⟨hky, List.mem_cons_self _ _⟩
          · have := h3 x hx'
            refine ⟨fun hxy => this.1 (List.mem_append.mpr (Or.inl hxy)),
              List.mem_cons_of_mem _ this.2⟩
        · rw [hr]
          simp only [List.map_cons, hcid]
          exact List.Sublist.cons₂ _ h4
        · rw [hr]
          intro c hc
          rcases List.mem_cons.mp hc with rfl | hc'
          · rw [hcid]
            exact hlook
          · exact h5 c hc'
        · intro k' hk' c hc
          rcases List.mem_cons.mp hk' with rfl | hk''
          · rw [hlook] at hc
            cases hc
            rw [hr]
            exact Or.inl (List.mem_cons_self _ _)
          · rcases h6 k' hk'' c hc with h | h
            · rw [hr]
              exact Or.inl (List.mem_cons_of_mem _ h)
            · rcases List.mem_append.mp h with h | h
              · exact Or.inr h
              · rw [List.mem_singleton.mp h] at hc
                rw [hlook] at hc
                cases hc
                rw [hr]
                exact Or.inl (List.mem_cons_self _ _)
      | none =>
        obtain ⟨K', h1, h2, h3, h4, h5, h6⟩ := ih (y ++ [k])
        have hr : cuts.yieldBucket (k :: l') y = cuts.yieldBucket l' (y ++ [k]) := by
          show (if k ∈ y then cuts.yieldBucket l' y
            else match Pydict.lookup cuts.cut_map k with
            | some cut => (cut :: (cuts.yieldBucket l' (y ++ [k])).1,
                (cuts.yieldBucket l' (y ++ [k])).2)
            | none => cuts.yieldBucket l' (y ++ [k])) = _
          rw [if_neg hky, hlook]
        refine ⟨k :: K', ?_, ?_, ?_, ?_, by rw [hr]; exact h5, ?_⟩
        · rw [hr, h1, List.append_cons, List.append_assoc]
          simp
        · rw [List.nodup_cons]
          refine ⟨fun hk => ?_, h2⟩
          exact (h3 k hk).1 (List.mem_append.mpr (Or.inr (List.mem_singleton.mpr rfl)))
        · intro x hx
          rcases List.mem_cons.mp hx with rfl | hx'
          · exact ⟨hky, List.mem_cons_self _ _⟩
          · have := h3 x hx'
            refine ⟨fun hxy => this.1 (List.mem_append.mpr (Or.inl hxy)),
              List.mem_cons_of_mem _ this.2⟩
        · rw [hr]
          exact List.Sublist.trans h4 (List.sublist_cons_self _ _)
        · intro k' hk' c hc
          rcases List.mem_cons.mp hk' with rfl | hk''
          · rw [hlook] at hc
            cases hc
          · rcases h6 k' hk'' c hc with h | h
            · rw [hr]
              exact Or.inl h
            · rcases List.mem_append.mp h with h | h
              · exact Or.inr h
              · rw [List.mem_singleton.mp h] at hc
                rw [hlook] at hc
                cases hc

theorem Cuts.yieldGroups_spec (cuts : Cuts)
    (hid : ∀ k c, Pydict.lookup cuts.cut_map k = some c → c.id = k) :
    ∀ (gs : List Int) (y : List CutId),
      (∀ c ∈ cuts.yieldGroups gs y, Pydict.lookup cuts.cut_map c.id = some c) ∧
      (∃ K : List CutId, K.Nodup ∧ (∀ k ∈ K, k ∉ y) ∧
        ((cuts.yieldGroups gs y).map Cut.id).Sublist K) ∧
      (∀ g ∈ gs, ∀ k ∈ cuts.region_to_cuts.get_cuts_in_region g, ∀ c,
        Pydict.lookup cuts.cut_map k = some c → c ∈ cuts.yieldGroups gs y ∨ k ∈ y) := by
  intro gs
  induction gs with
  | nil =>
    intro y
    refine ⟨by simp [Cuts.yieldGroups], ⟨[], List.nodup_nil, by simp, by simp [Cuts.yieldGroups]⟩,
      by simp⟩
  | cons g gs' ih =>
    intro y
    obtain ⟨K1, hb1, hb2, hb3, hb4, hb5, hb6⟩ :=
      cuts.yieldBucket_spec hid (cuts.region_to_cuts.get_cuts_in_region g) y
    obtain ⟨ih1, ⟨K2, hn2, hy2, hs2⟩, ih3⟩ :=
      ih (cuts.yieldBucket (cuts.region_to_cuts.get_cuts_in_region g) y).2
    have hr : cuts.yieldGroups (g :: gs') y =
        (cuts.yieldBucket (cuts.region_to_cuts.get_cuts_in_region g) y).1 ++
          cuts.yieldGroups gs'
            (cuts.yieldBucket (cuts.region_to_cuts.get_cuts_in_region g) y).2 := rfl
    refine ⟨?_, ⟨K1 ++ K2, ?_, ?_, ?_⟩, ?_⟩
    · rw [hr]
      intro c hc
      rcases List.mem_append.mp hc with h | h
      · exact hb5 c h
      · exact ih1 c h
    · rw [List.nodup_append]
      refine ⟨hb2, hn2, fun x hx1 hx2 => ?_⟩
      exact hy2 x hx2 (by rw [hb1]; exact List.mem_append.mpr (Or.inr hx1))
    · intro x hx
      rcases List.mem_append.mp hx with h | h
      · exact (hb3 x h).1
      · intro hxy
        exact hy2 x h (by rw [hb1]; exact List.mem_append.mpr (Or.inl hxy))
    · rw [hr, List.map_append]
      exact List.Sublist.append hb4 hs2
    · intro g' hg' k hk c hc
      rcases List.mem_cons.mp hg' with rfl | hg''
      · rcases hb6 k hk c hc with h | h
        · rw [hr]
          exact Or.inl (List.mem_append.mpr (Or.inl h))
        · exact Or.inr h
      · rcases ih3 g' hg'' k hk c hc with h | h
        · rw [hr]
          exact Or.inl (List.mem_append.mpr (Or.inr h))
        · rw [hb1] at h
          rcases List.mem_append.mp h with h | h
          · exact Or.inr h
          · have hkl : k ∈ cuts.region_to_cuts.get_cuts_in_region g := (hb3 k h).2
            rcases hb6 k hkl c hc with h2 | h2
            · rw [hr]
              exact Or.inl (List.mem_append.mpr (Or.inl h2))
            · exact Or.inr h2

/-- Soundness of `yield_cuts_in_period`: every yielded cut is stored under
its own id. -/
theorem Cuts.yield_sound (cuts : Cuts)
    (hid : ∀ k c, Pydict.lookup cuts.cut_map k = some c → c.id = k) (period : Region) :
    ∀ c ∈ cuts.yield_cuts_in_period period, Pydict.lookup cuts.cut_map c.id = some c :=
  (cuts.yieldGroups_spec hid (period.get_groups cuts.region_group_size) []).1

/-- The yielded cuts carry pairwise-distinct ids. -/
theorem Cuts.yield_nodup (cuts : Cuts)
    (hid : ∀ k c, Pydict.lookup cuts.cut_map k = some c → c.id = k) (period : Region) :
    ((cuts.yield_cuts_in_period period).map Cut.id).Nodup := by
  obtain ⟨_, ⟨K, hK, _, hs⟩, _⟩ :=
    cuts.yieldGroups_spec hid (period.get_groups cuts.region_group_size) []
  exact hs.nodup hK

/-- Completeness of `yield_cuts_in_period`: a stored cut listed in some
bucket of the period is yielded. -/
theorem Cuts.yield_complete (cuts : Cuts)
    (hid : ∀ k c, Pydict.lookup cuts.cut_map k = some c → c.id = k) (period : Region)
    {g : Int} (hg : g ∈ period.get_groups cuts.region_group_size)
    {k : CutId} (hk : k ∈ cuts.region_to_cuts.get_cuts_in_region g)
    {c : Cut} (hc : Pydict.lookup cuts.cut_map k = some c) :
    c ∈ cuts.yield_cuts_in_period period := by
  rcases (cuts.yieldGroups_spec hid (period.get_groups cuts.region_group_size) []).2.2
      g hg k hk c hc with h | h
  · exact h
  · simp at h

/-! ### Region-index update lemmas -/

theorem Region.get_groups_nodup (r : Region) (g : Int) : (r.get_groups g).Nodup := by
  unfold Region.get_groups
  refine (List.nodup_range _).map ?_
  intro a b hab
  have h : r.start.fdiv g + (a : Int) = r.start.fdiv g + (b : Int) := hab
  omega

theorem Pydict.lookup_append [DecidableEq κ] (d1 d2 : List (κ × ν)) (k : κ) :
    Pydict.lookup (d1 ++ d2) k =
      match Pydict.lookup d1 k with
      | some v => some v
      | none => Pydict.lookup d2 k := by
  induction d1 with
  | nil => simp [Pydict.lookup]
  | cons p rest ih =>
    obtain ⟨a, b⟩ := p
    by_cases hp : a = k
    · simp [Pydict.lookup, hp]
    · simpa [Pydict.lookup, hp] using ih

theorem RegionToCuts.get_add_aux (k : CutId) (gl : List Int) :
    ∀ (d : List (Int × List CutId)) (b : Int),
      (Pydict.lookup (gl.foldl (fun d n =>
        let new_ids := (Pydict.lookup d n).getD []
        let new_ids := if k ∈ new_ids then new_ids else new_ids ++ [k]
        Pydict.set d n new_ids) d) b).getD [] =
      if b ∈ gl ∧ k ∉ (Pydict.lookup d b).getD [] then (Pydict.lookup d b).getD [] ++ [k]
      else (Pydict.lookup d b).getD [] := by
  induction gl with
  | nil =>
    intro d b
    simp
  | cons n gl' ih =>
    intro d b
    set ids := (Pydict.lookup d n).getD [] with hids
    set ids' := if k ∈ ids then ids else ids ++ [k] with hids'
    have hstep : (n :: gl').foldl (fun d n =>
        let new_ids := (Pydict.lookup d n).getD []
        let new_ids := if k ∈ new_ids then new_ids else new_ids ++ [k]
        Pydict.set d n new_ids) d =
        gl'.foldl (fun d n =>
        let new_ids := (Pydict.lookup d n).getD []
        let new_ids := if k ∈ new_ids then new_ids else new_ids ++ [k]
        Pydict.set d n new_ids) (Pydict.set d n ids') := rfl
    rw [hstep, ih]
    have hk_ids' : k ∈ ids' := by
      rw [hids']
      by_cases hk : k ∈ ids
      · rw [if_pos hk]; exact hk
      · rw [if_neg hk]; exact List.mem_append.mpr (Or.inr (List.mem_singleton.mpr rfl))
    by_cases hb : b = n
    · subst hb
      rw [Pydict.lookup_set_self]
      simp only [Option.getD_some]
      rw [if_neg (by simp [hk_ids'])]
      rw [← hids]
      by_cases hk : k ∈ ids
      · have h1 : ids' = ids := by rw [hids', if_pos hk]
        rw [h1, if_neg (by simp [hk])]
      · have h1 : ids' = ids ++ [k] := by rw [hids', if_neg hk]
        rw [h1, if_pos ⟨List.mem_cons_self _ _, hk⟩]
    · rw [Pydict.lookup_set_ne _ _ _ _ hb]
      by_cases hbg : b ∈ gl'
      · simp [hbg, hb]
      · simp [hbg, hb]

/-- Characterization of `add_cut_to_regions` on each bucket. -/
theorem RegionToCuts.get_add_cut_to_regions (rc : RegionToCuts) (k : CutId)
    (gl : List Int) (b : Int) :
    (rc.add_cut_to_regions k gl).get_cuts_in_region b =
      if b ∈ gl ∧ k ∉ rc.get_cuts_in_region b then rc.get_cuts_in_region b ++ [k]
      else rc.get_cuts_in_region b :=
  RegionToCuts.get_add_aux k gl rc.region_number_to_cut_ids b

theorem RegionToCuts.get_remove_aux (k : CutId) (gl : List Int) (hnd : gl.Nodup) :
    ∀ (d : List (Int × List CutId)) (b : Int),
      (Pydict.lookup (gl.foldl (fun d n =>
        Pydict.set d n (((Pydict.lookup d n).getD []).erase k)) d) b).getD [] =
      if b ∈ gl then ((Pydict.lookup d b).getD []).erase k
      else (Pydict.lookup d b).getD [] := by
  induction gl with
  | nil =>
    intro d b
    simp
  | cons n gl' ih =>
    intro d b
    rw [List.nodup_cons] at hnd
    have hstep : (n :: gl').foldl (fun d n =>
        Pydict.set d n (((Pydict.lookup d n).getD []).erase k)) d =
        gl'.foldl (fun d n => Pydict.set d n (((Pydict.lookup d n).getD []).erase k))
          (Pydict.set d n (((Pydict.lookup d n).getD []).erase k)) := rfl
    rw [hstep, ih hnd.2]
    by_cases hb : b = n
    · subst hb
      rw [Pydict.lookup_set_self]
      simp only [Option.getD_some]
      rw [if_neg hnd.1, if_pos (List.mem_cons_self _ _)]
    · rw [Pydict.lookup_set_ne _ _ _ _ hb]
      by_cases hbg : b ∈ gl'
      · simp [hbg, hb]
      · simp [hbg, hb]

/-- Characterization of `remove_cut_from_regions` on each bucket (for a
duplicate-free group list, as produced by `get_groups`). -/
theorem RegionToCuts.get_remove_cut_from_regions (rc : RegionToCuts) (k : CutId)
    (gl : List Int) (hnd : gl.Nodup) (b : Int) :
    (rc.remove_cut_from_regions k gl).get_cuts_in_region b =
      if b ∈ gl then (rc.get_cuts_in_region b).erase k
      else rc.get_cuts_in_region b :=
  RegionToCuts.get_remove_aux k gl hnd rc.region_number_to_cut_ids b

/-! ### WF accessors and preservation under `add1` -/

theorem Cuts.WF.hid {cuts : Cuts} (hWF : cuts.WF) :
    ∀ k c, Pydict.lookup cuts.cut_map k = some c → c.id = k :=
  fun _ c h => (hWF.2.2.1 _ (Pydict.lookup_mem h)).1

theorem Cuts.WF.valid_of_lookup {cuts : Cuts} (hWF : cuts.WF) :
    ∀ k c, Pydict.lookup cuts.cut_map k = some c → c.region.valid := by
  intro k c h
  rw [Cut.region_valid_iff]
  exact (hWF.2.2.1 _ (Pydict.lookup_mem h)).2.2.1

theorem Cuts.WF.mix_of_lookup {cuts : Cuts} (hWF : cuts.WF) :
    ∀ k c, Pydict.lookup cuts.cut_map k = some c →
      c.mix_strategy = "over" ∨ c.mix_strategy = "under" :=
  fun _ c h => (hWF.2.2.1 _ (Pydict.lookup_mem h)).2.2.2.1

theorem Cuts.WF.mk_of_lookup {cuts : Cuts} (hWF : cuts.WF) :
    ∀ k c, Pydict.lookup cuts.cut_map k = some c →
      ∃ s io pos i m v sp, c = Cut.mk s io pos i m v sp :=
  fun _ c h => (hWF.2.2.1 _ (Pydict.lookup_mem h)).2.1

/-- Per-bucket facts derived from `WF`: duplicate-free bucket lists naming
only stored cuts. -/
theorem Cuts.WF.bucket {cuts : Cuts} (hWF : cuts.WF) (b : Int) :
    (cuts.region_to_cuts.get_cuts_in_region b).Nodup ∧
    ∀ k ∈ cuts.region_to_cuts.get_cuts_in_region b,
      (Pydict.lookup cuts.cut_map k).isSome := by
  unfold RegionToCuts.get_cuts_in_region
  cases hl : Pydict.lookup cuts.region_to_cuts.region_number_to_cut_ids b with
  | none => simp
  | some l =>
    simp only [Option.getD_some]
    exact hWF.2.2.2.2 (b, l) (Pydict.lookup_mem hl)

theorem Pydict.keys_set [DecidableEq κ] (d : List (κ × ν)) (k : κ) (v : ν) :
    (Pydict.set d k v).map Prod.fst = d.map Prod.fst ∨
    (Pydict.set d k v).map Prod.fst = d.map Prod.fst ++ [k] := by
  induction d with
  | nil => right; simp [Pydict.set]
  | cons p rest ih =>
    obtain ⟨a, b⟩ := p
    by_cases hp : a = k
    · left; simp [Pydict.set, hp]
    · rcases ih with h | h
      · left; simp [Pydict.set, hp, h]
      · right; simp [Pydict.set, hp, h]

theorem Pydict.keys_nodup_set [DecidableEq κ] (d : List (κ × ν)) (k : κ) (v : ν)
    (h : (d.map Prod.fst).Nodup) : ((Pydict.set d k v).map Prod.fst).Nodup := by
  induction d with
  | nil => simp [Pydict.set]
  | cons p rest ih =>
    obtain ⟨a, b⟩ := p
    simp only [List.map_cons, List.nodup_cons] at h
    by_cases hp : a = k
    · simp only [Pydict.set, hp, if_pos]
      simp only [List.map_cons, List.nodup_cons]
      exact ⟨by simpa [hp] using h.1, h.2⟩
    · simp only [Pydict.set, hp, if_false]
      simp only [List.map_cons, List.nodup_cons]
      refine ⟨fun hc => ?_, ih h.2⟩
      rcases Pydict.keys_set rest k v with he | he
      · rw [he] at hc
        exact h.1 hc
      · rw [he] at hc
        rcases List.mem_append.mp hc with hc | hc
        · exact h.1 hc
        · exact hp (List.mem_singleton.mp hc)

theorem RegionToCuts.keys_nodup_add (rc : RegionToCuts) (k : CutId) (gl : List Int)
    (h : (rc.region_number_to_cut_ids.map Prod.fst).Nodup) :
    ((rc.add_cut_to_regions k gl).region_number_to_cut_ids.map Prod.fst).Nodup := by
  unfold RegionToCuts.add_cut_to_regions
  simp only
  induction gl generalizing rc with
  | nil => exact h
  | cons n gl' ih =>
    have step : ∀ d : List (Int × List CutId),
        (n :: gl').foldl (fun d n =>
          let new_ids := (Pydict.lookup d n).getD []
          let new_ids := if k ∈ new_ids then new_ids else new_ids ++ [k]
          Pydict.set d n new_ids) d =
        gl'.foldl (fun d n =>
          let new_ids := (Pydict.lookup d n).getD []
          let new_ids := if k ∈ new_ids then new_ids else new_ids ++ [k]
          Pydict.set d n new_ids)
          (Pydict.set d n (let new_ids := (Pydict.lookup d n).getD []
            if k ∈ new_ids then new_ids else new_ids ++ [k])) := fun _ => rfl
    rw [step]
    exact ih ⟨Pydict.set rc.region_number_to_cut_ids n _⟩
      (Pydict.keys_nodup_set _ _ _ h)

theorem RegionToCuts.keys_nodup_remove (rc : RegionToCuts) (k : CutId) (gl : List Int)
    (h : (rc.region_number_to_cut_ids.map Prod.fst).Nodup) :
    ((rc.remove_cut_from_regions k gl).region_number_to_cut_ids.map Prod.fst).Nodup := by
  unfold RegionToCuts.remove_cut_from_regions
  simp only
  induction gl generalizing rc with
  | nil => exact h
  | cons n gl' ih =>
    have step : ∀ d : List (Int × List CutId),
        (n :: gl').foldl (fun d n =>
          Pydict.set d n (((Pydict.lookup d n).getD []).erase k)) d =
        gl'.foldl (fun d n => Pydict.set d n (((Pydict.lookup d n).getD []).erase k))
          (Pydict.set d n (((Pydict.lookup d n).getD []).erase k)) := fun _ => rfl
    rw [step]
    exact ih ⟨Pydict.set rc.region_number_to_cut_ids n _⟩
      (Pydict.keys_nodup_set _ _ _ h)

/-- Successful `add1`, characterized. -/
theorem Cuts.add1_ok {cuts : Cuts} {cut : Cut}
    (h1 : Pydict.lookup cuts.cut_map cut.id = none) (h2 : cut.region.valid) :
    cuts.add1 cut = Except.ok
      { cut_map := cuts.cut_map ++ [(cut.id, cut)],
        region_to_cuts := cuts.region_to_cuts.add_cut_to_regions cut.id
          (cut.get_region_groups cuts.region_group_size),
        region_group_size := cuts.region_group_size } := by
  unfold Cuts.add1
  rw [h1]
  simp only [Option.isSome_none, Bool.false_eq_true, if_false]
  have hv : ¬(cut.region.stop ≤ cut.region.start) := by
    have := h2
    simp only [Region.valid] at this
    omega
  rw [if_neg hv]
  rw [Pydict.set_fresh _ _ _ h1]

/-- Conversely, a successful `add1` implies the id was fresh and the region
valid, and pins the result. -/
theorem Cuts.add1_ok_inv {cuts : Cuts} {cut : Cut} {C' : Cuts}
    (h : cuts.add1 cut = Except.ok C') :
    Pydict.lookup cuts.cut_map cut.id = none ∧ cut.region.valid ∧
    C' = { cut_map := cuts.cut_map ++ [(cut.id, cut)],
           region_to_cuts := cuts.region_to_cuts.add_cut_to_regions cut.id
             (cut.get_region_groups cuts.region_group_size),
           region_group_size := cuts.region_group_size } := by
  unfold Cuts.add1 at h
  by_cases hl : (Pydict.lookup cuts.cut_map cut.id).isSome
  · rw [if_pos hl] at h
    cases h
  · rw [if_neg hl] at h
    by_cases hv : cut.region.stop ≤ cut.region.start
    · rw [if_pos hv] at h
      cases h
    · rw [if_neg hv] at h
      cases h
      have h1 : Pydict.lookup cuts.cut_map cut.id = none := by
        cases hlk : Pydict.lookup cuts.cut_map cut.id with
        | none => rfl
        | some c => rw [hlk] at hl; simp at hl
      refine ⟨h1, by simp only [Region.valid]; omega, ?_⟩
      rw [Pydict.set_fresh _ _ _ h1]

/-- `Cuts.add1` preserves well-formedness (for cuts with a documented mix
strategy). -/
theorem Cuts.WF_add1 {cuts : Cuts} {cut : Cut} {C' : Cuts} (hWF : cuts.WF)
    (hmix : cut.mix_strategy = "over" ∨ cut.mix_strategy = "under")
    (h : cuts.add1 cut = Except.ok C') : C'.WF := by
  obtain ⟨h1, h2, rfl⟩ := Cuts.add1_ok_inv h
  obtain ⟨hgs, hnd, hentries, hidxnd, hbuckets⟩ := hWF
  have hfresh : cut.id ∉ cuts.cut_map.map Prod.fst := by
    rw [← Pydict.lookup_eq_none_iff]
    exact h1
  have hlook' : ∀ k, (Pydict.lookup cuts.cut_map k).isSome →
      (Pydict.lookup (cuts.cut_map ++ [(cut.id, cut)]) k).isSome := by
    intro k hk
    rw [Pydict.lookup_append]
    cases hl : Pydict.lookup cuts.cut_map k with
    | none => rw [hl] at hk; simp at hk
    | some c => simp
  have hbget : ∀ b, (cuts.region_to_cuts.add_cut_to_regions cut.id
      (cut.get_region_groups cuts.region_group_size)).get_cuts_in_region b =
      cuts.region_to_cuts.get_cuts_in_region b ++ [cut.id] ∨
      (cuts.region_to_cuts.add_cut_to_regions cut.id
      (cut.get_region_groups cuts.region_group_size)).get_cuts_in_region b =
      cuts.region_to_cuts.get_cuts_in_region b := by
    intro b
    rw [RegionToCuts.get_add_cut_to_regions]
    by_cases hc : b ∈ cut.get_region_groups cuts.region_group_size ∧
        cut.id ∉ cuts.region_to_cuts.get_cuts_in_region b
    · rw [if_pos hc]; exact Or.inl rfl
    · rw [if_neg hc]; exact Or.inr rfl
  refine ⟨hgs, ?_, ?_, ?_, ?_⟩
  · rw [List.map_append, List.nodup_append]
    exact ⟨hnd, by simp, fun x hx hx' => hfresh (by
      rw [List.mem_map] at hx'
      obtain ⟨q, hq, rfl⟩ := hx'
      rcases List.mem_singleton.mp hq with rfl
      exact hx)⟩
  · intro p hp
    rcases List.mem_append.mp hp with hp' | hp'
    · obtain ⟨e1, e2, e3, e4, e5⟩ := hentries p hp'
      refine ⟨e1, e2, e3, e4, fun b hb => ?_⟩
      rcases hbget b with he | he
      · rw [he]; exact List.mem_append.mpr (Or.inl (e5 b hb))
      · rw [he]; exact e5 b hb
    · rcases List.mem_singleton.mp hp' with rfl
      have hmk : ∃ s io pos i m v sp, cut = Cut.mk s io pos i m v sp := by
        cases cut with
        | src s =>
          exfalso
          have : (Cut.src s).region.valid := h2
          simp [Cut.region, Cut.position, Cut.length, Cut.in_out, Region.length,
            Region.valid] at this
        | mk s io pos i m v sp => exact ⟨s, io, pos, i, m, v, sp, rfl⟩
      refine ⟨rfl, hmk, (Cut.region_valid_iff cut).mp h2, hmix, fun b hb => ?_⟩
      rw [RegionToCuts.get_add_cut_to_regions]
      by_cases hc : b ∈ cut.get_region_groups cuts.region_group_size ∧
          cut.id ∉ cuts.region_to_cuts.get_cuts_in_region b
      · rw [if_pos hc]
        exact List.mem_append.mpr (Or.inr (List.mem_singleton.mpr rfl))
      · rw [if_neg hc]
        rcases not_and_or.mp hc with hc' | hc'
        · exact absurd hb hc'
        · exact not_not.mp hc'
  · exact RegionToCuts.keys_nodup_add _ _ _ hidxnd
  · intro q hq
    have hkeys := RegionToCuts.keys_nodup_add cuts.region_to_cuts cut.id
      (cut.get_region_groups cuts.region_group_size) hidxnd
    have hlq := Pydict.mem_lookup hkeys hq
    have hget : (cuts.region_to_cuts.add_cut_to_regions cut.id
        (cut.get_region_groups cuts.region_group_size)).get_cuts_in_region q.1 = q.2 := by
      unfold RegionToCuts.get_cuts_in_region
      rw [hlq]
      rfl
    have hbn := (Cuts.WF.bucket ⟨hgs, hnd, hentries, hidxnd, hbuckets⟩ q.1).1
    have hbs := (Cuts.WF.bucket ⟨hgs, hnd, hentries, hidxnd, hbuckets⟩ q.1).2
    rw [RegionToCuts.get_add_cut_to_regions] at hget
    by_cases hc : q.1 ∈ cut.get_region_groups cuts.region_group_size ∧
        cut.id ∉ cuts.region_to_cuts.get_cuts_in_region q.1
    · rw [if_pos hc] at hget
      constructor
      · rw [← hget, List.nodup_append]
        refine ⟨hbn, by simp, fun x hx hx' => ?_⟩
        rcases List.mem_singleton.mp hx' with rfl
        exact hc.2 hx
      · intro k hk
        rw [← hget] at hk
        rcases List.mem_append.mp hk with hk' | hk'
        · exact hlook' k (hbs k hk')
        · rcases List.mem_singleton.mp hk' with rfl
          show (Pydict.lookup (cuts.cut_map ++ [(cut.id, cut)]) cut.id).isSome = true
          rw [Pydict.lookup_append, h1]
          simp [Pydict.lookup]
    · rw [if_neg hc] at hget
      rw [← hget]
      exact ⟨hbn, fun k hk => hlook' k (hbs k hk)⟩

/-! ### `Cuts.add` (fold of `add1`) and `Cuts.create_cut` -/

theorem Cuts.add_nil (cuts : Cuts) : cuts.add [] = Except.ok cuts := rfl

theorem Cuts.add_cons (cuts : Cuts) (c : Cut) (cs : List Cut) :
    cuts.add (c :: cs) =
      match cuts.add1 c with
      | Except.ok c1 => c1.add cs
      | Except.error e => Except.error e := by
  show (cuts.add1 c >>= fun c1 => c1.add cs) = _
  cases cuts.add1 c <;> rfl

theorem Cuts.add_ok : ∀ (cs : List Cut) (C0 : Cuts),
    (∀ c ∈ cs, c.region.valid) → (cs.map Cut.id).Nodup →
    (∀ c ∈ cs, Pydict.lookup C0.cut_map c.id = none) →
    ∃ C, C0.add cs = Except.ok C ∧
      C.cut_map = C0.cut_map ++ cs.map (fun c => (c.id, c)) ∧
      C.region_group_size = C0.region_group_size := by
  intro cs
  induction cs with
  | nil =>
    intro C0 _ _ _
    exact ⟨C0, Cuts.add_nil C0, by simp, rfl⟩
  | cons c cs' ih =>
    intro C0 hv hnd hfresh
    have h1 := Cuts.add1_ok (hfresh c (List.mem_cons_self _ _)) (hv c (List.mem_cons_self _ _))
    rw [List.map_cons, List.nodup_cons] at hnd
    obtain ⟨C, hC, hmap, hgs⟩ := ih
      { cut_map := C0.cut_map ++ [(c.id, c)],
        region_to_cuts := C0.region_to_cuts.add_cut_to_regions c.id
          (c.get_region_groups C0.region_group_size),
        region_group_size := C0.region_group_size }
      (fun x hx => hv x (List.mem_cons_of_mem _ hx)) hnd.2
      (fun x hx => by
        show Pydict.lookup (C0.cut_map ++ [(c.id, c)]) x.id = none
        rw [Pydict.lookup_append]
        rw [hfresh x (List.mem_cons_of_mem _ hx)]
        simp only
        show Pydict.lookup [(c.id, c)] x.id = none
        have hne : c.id ≠ x.id := fun he => hnd.1 (he ▸ List.mem_map.mpr ⟨x, hx, rfl⟩)
        simp [Pydict.lookup, hne])
    refine ⟨C, ?_, ?_, ?_⟩
    · rw [Cuts.add_cons, h1]
      exact hC
    · rw [hmap]
      simp
    · rw [hgs]

theorem Cuts.WF_empty : Cuts.empty.WF := by
  refine ⟨by norm_num [Cuts.empty, DEFAULT_REGION_GROUP_SIZE], by simp [Cuts.empty], ?_, ?_, ?_⟩
  · intro p hp
    simp [Cuts.empty] at hp
  · simp [Cuts.empty, RegionToCuts.empty]
  · intro q hq
    simp [Cuts.empty, RegionToCuts.empty] at hq

theorem Cuts.WF_add : ∀ (cs : List Cut) (C0 : Cuts) (C : Cuts), C0.WF →
    (∀ c ∈ cs, c.mix_strategy = "over" ∨ c.mix_strategy = "under") →
    C0.add cs = Except.ok C → C.WF := by
  intro cs
  induction cs with
  | nil =>
    intro C0 C hWF _ h
    rw [Cuts.add_nil] at h
    cases h
    exact hWF
  | cons c cs' ih =>
    intro C0 C hWF hmix h
    rw [Cuts.add_cons] at h
    cases h1 : C0.add1 c with
    | error e => rw [h1] at h; cases h
    | ok C1 =>
      rw [h1] at h
      exact ih C1 C (Cuts.WF_add1 hWF (hmix c (List.mem_cons_self _ _)) h1)
        (fun x hx => hmix x (List.mem_cons_of_mem _ hx)) h

theorem filterMap_id_sublist (f : Cut → Option Cut) :
    ∀ l : List Cut, (∀ x ∈ l, ∀ sub, f x = some sub → sub.id = x.id) →
    ((l.filterMap f).map Cut.id).Sublist (l.map Cut.id) := by
  intro l
  induction l with
  | nil => intro _; simp
  | cons x l' ih =>
    intro hf
    cases hx : f x with
    | none =>
      rw [List.filterMap_cons_none hx]
      exact (ih (fun y hy => hf y (List.mem_cons_of_mem _ hy))).trans
        (List.sublist_cons_self _ _)
    | some sub =>
      rw [List.filterMap_cons_some hx]
      simp only [List.map_cons]
      rw [hf x (List.mem_cons_self _ _) sub hx]
      exact List.Sublist.cons₂ _ (ih (fun y hy => hf y (List.mem_cons_of_mem _ hy)))

/-- The clipped-cut list built by `Cuts.create_cut`: each clip is a stored
cut projected onto the window, carrying its original id and mix strategy and
occupying exactly the overlap region; the ids are pairwise distinct. -/
theorem Cuts.clip_list_spec (cuts : Cuts) (hWF : cuts.WF) (w : Region) :
    (∀ c' ∈ (cuts.yield_cuts_in_period w).filterMap (fun c => c.create_cut w),
      ∃ orig o, Pydict.lookup cuts.cut_map c'.id = some orig ∧
        orig.region.get_overlap w = some o ∧ c'.region = o ∧
        c'.mix_strategy = orig.mix_strategy) ∧
    (((cuts.yield_cuts_in_period w).filterMap (fun c => c.create_cut w)).map Cut.id).Nodup := by
  have hid := Cuts.WF.hid hWF
  constructor
  · intro c' hc'
    rw [List.mem_filterMap] at hc'
    obtain ⟨c, hcmem, hclip⟩ := hc'
    have hlook := cuts.yield_sound hid w c hcmem
    obtain ⟨s, io, pos, i, m, v, sp, rfl⟩ := Cuts.WF.mk_of_lookup hWF _ _ hlook
    obtain ⟨o, ho, hreg, hcid, hcmix, _⟩ := Cut.create_cut_some hclip
    refine ⟨Cut.mk s io pos i m v sp, o, ?_, ho, hreg, ?_⟩
    · rw [hcid]
      exact hlook
    · rw [hcmix]
      rfl
  · have hsub : (((cuts.yield_cuts_in_period w).filterMap
        (fun c => c.create_cut w)).map Cut.id).Sublist
        ((cuts.yield_cuts_in_period w).map Cut.id) := by
      refine filterMap_id_sublist _ _ ?_
      intro x hx sub hsub
      have hlook := cuts.yield_sound hid w x hx
      obtain ⟨s, io, pos, i, m, v, sp, rfl⟩ := Cuts.WF.mk_of_lookup hWF _ _ hlook
      obtain ⟨o, _, _, hcid, _, _⟩ := Cut.create_cut_some hsub
      exact hcid
    exact hsub.nodup (cuts.yield_nodup hid w)

theorem Pydict.values_pairing (L : List Cut) :
    Pydict.values (L.map (fun c => (c.id, c))) = L := by
  induction L with
  | nil => rfl
  | cons c l ih => simpa [Pydict.values] using ih

/-- Successful `Cuts.create_cut` on a well-formed collection. -/
theorem Cuts.create_cut_ok (cuts : Cuts) (hWF : cuts.WF) (w : Region) (hw : w.valid) :
    ∃ clipped, cuts.create_cut w = Except.ok clipped ∧
      clipped.cut_map = ((cuts.yield_cuts_in_period w).filterMap
        (fun c => c.create_cut w)).map (fun c => (c.id, c)) ∧
      clipped.region_group_size = DEFAULT_REGION_GROUP_SIZE := by
  obtain ⟨hspec, hnd⟩ := cuts.clip_list_spec hWF w
  have hv : ∀ c' ∈ (cuts.yield_cuts_in_period w).filterMap (fun c => c.create_cut w),
      c'.region.valid := by
    intro c' hc'
    obtain ⟨orig, o, hlook, ho, hreg, _⟩ := hspec c' hc'
    rw [hreg]
    exact Region.get_overlap_valid (Cuts.WF.valid_of_lookup hWF _ _ hlook) hw ho
  obtain ⟨C, hC, hmap, hgs⟩ := Cuts.add_ok _ Cuts.empty hv hnd
    (fun c _ => by simp [Cuts.empty, Pydict.lookup])
  refine ⟨C, hC, ?_, hgs⟩
  rw [hmap]
  rfl

/-! ### The playlist sweep -/

theorem Cut.start_lt_stop {c : Cut} (h : c.region.valid) : c.start < c.stop := h

theorem Cut.stop_eq (c : Cut) : c.stop = c.start + c.length := rfl

theorem playlistLoop_ok (wstop : Int) : ∀ (l : List Cut) (s : Int),
    s ≤ wstop →
    (∀ c ∈ l, s ≤ c.start) →
    (∀ c ∈ l, c.stop ≤ wstop) →
    (∀ c ∈ l, c.region.valid) →
    l.Pairwise (fun a b => a.start ≤ b.start) →
    l.Pairwise (fun a b => a.stop ≤ b.start ∨ b.stop ≤ a.start) →
    ∃ parts, playlistLoop wstop s l = Except.ok parts ∧
      (parts.map PlaylistPart.length).sum = wstop - s := by
  intro l
  induction l with
  | nil =>
    intro s hsw _ _ _ _ _
    by_cases h : wstop > s
    · refine ⟨[PlaylistPart.space (wstop - s)], ?_, by simp [PlaylistPart.length]⟩
      show (if wstop > s then Except.ok [PlaylistPart.space (wstop - s)]
        else if wstop < s then Except.error "Cut overlaps end"
        else Except.ok []) = _
      rw [if_pos h]
    · have heq : wstop = s := by omega
      refine ⟨[], ?_, by simp; omega⟩
      show (if wstop > s then Except.ok [PlaylistPart.space (wstop - s)]
        else if wstop < s then Except.error "Cut overlaps end"
        else Except.ok []) = _
      rw [if_neg h, if_neg (by omega)]
  | cons c rest ih =>
    intro s hsw hstart hstop hvalid hsorted hdisj
    have hcs : s ≤ c.start := hstart c (List.mem_cons_self _ _)
    have hcw : c.stop ≤ wstop := hstop c (List.mem_cons_self _ _)
    have hcv : c.start < c.stop := Cut.start_lt_stop (hvalid c (List.mem_cons_self _ _))
    have hrest_start : ∀ r ∈ rest, c.stop ≤ r.start := by
      intro r hr
      have h1 := (List.pairwise_cons.mp hsorted).1 r hr
      have h2 := (List.pairwise_cons.mp hdisj).1 r hr
      have h3 : r.start < r.stop :=
        Cut.start_lt_stop (hvalid r (List.mem_cons_of_mem _ hr))
      rcases h2 with h2 | h2
      · exact h2
      · omega
    obtain ⟨parts', hok, hsum⟩ := ih c.stop hcw hrest_start
      (fun r hr => hstop r (List.mem_cons_of_mem _ hr))
      (fun r hr => hvalid r (List.mem_cons_of_mem _ hr))
      (List.pairwise_cons.mp hsorted).2 (List.pairwise_cons.mp hdisj).2
    have hclen : c.stop = c.start + c.length := rfl
    by_cases hgt : c.start > s
    · refine ⟨PlaylistPart.space (c.start - s) :: PlaylistPart.cut c :: parts', ?_, ?_⟩
      · show (if c.start > s then do
            let parts ← playlistLoop wstop c.stop rest
            Except.ok (PlaylistPart.space (c.start - s) :: PlaylistPart.cut c :: parts)
          else if c.start < s then Except.error "Cut overlaps start"
          else do
            let parts ← playlistLoop wstop c.stop rest
            Except.ok (PlaylistPart.cut c :: parts)) = _
        rw [if_pos hgt, hok]
        rfl
      · simp only [List.map_cons, List.sum_cons, PlaylistPart.length, hsum]
        omega
    · have heq : c.start = s := by omega
      refine ⟨PlaylistPart.cut c :: parts', ?_, ?_⟩
      · show (if c.start > s then do
            let parts ← playlistLoop wstop c.stop rest
            Except.ok (PlaylistPart.space (c.start - s) :: PlaylistPart.cut c :: parts)
          else if c.start < s then Except.error "Cut overlaps start"
          else do
            let parts ← playlistLoop wstop c.stop rest
            Except.ok (PlaylistPart.cut c :: parts)) = _
        rw [if_neg hgt, if_neg (by omega), hok]
        rfl
      · simp only [List.map_cons, List.sum_cons, PlaylistPart.length, hsum]
        omega

/-- Pairwise disjointness of the clipped cuts in a window no pairwise
overlap of the stored cuts meets. -/
theorem Cuts.clip_list_disjoint (cuts : Cuts) (hWF : cuts.WF) (w : Region)
    (hw : w.valid)
    (hsafe : ∀ k1 c1 k2 c2, Pydict.lookup cuts.cut_map k1 = some c1 →
      Pydict.lookup cuts.cut_map k2 = some c2 → k1 ≠ k2 →
      ∀ o, c1.region.get_overlap c2.region = some o →
        o.stop ≤ w.start ∨ w.stop ≤ o.start) :
    ((cuts.yield_cuts_in_period w).filterMap (fun c => c.create_cut w)).Pairwise
      (fun a b => a.stop ≤ b.start ∨ b.stop ≤ a.start) := by
  obtain ⟨hspec, hnd⟩ := cuts.clip_list_spec hWF w
  have hpair : ((cuts.yield_cuts_in_period w).filterMap
      (fun c => c.create_cut w)).Pairwise (fun a b => a.id ≠ b.id) :=
    List.pairwise_map.mp hnd
  refine hpair.imp_of_mem ?_
  intro a b ha hb hab
  obtain ⟨origa, oa, hla, hoa, hra, _⟩ := hspec a ha
  obtain ⟨origb, ob, hlb, hob, hrb, _⟩ := hspec b hb
  have hva := Cuts.WF.valid_of_lookup hWF _ _ hla
  have hvb := Cuts.WF.valid_of_lookup hWF _ _ hlb
  have hoav : oa.start < oa.stop := Region.get_overlap_valid hva hw hoa
  have hobv : ob.start < ob.stop := Region.get_overlap_valid hvb hw hob
  obtain ⟨sa1, sa2, sa3, sa4⟩ := Region.get_overlap_subset hoa
  obtain ⟨sb1, sb2, sb3, sb4⟩ := Region.get_overlap_subset hob
  have ea1 : a.start = oa.start := by rw [← hra]; rfl
  have ea2 : a.stop = oa.stop := by rw [← hra]; rfl
  have eb1 : b.start = ob.start := by rw [← hrb]; rfl
  have eb2 : b.stop = ob.stop := by rw [← hrb]; rfl
  by_contra hc
  push_neg at hc
  obtain ⟨hc1, hc2⟩ := hc
  rw [eb1, ea2] at hc1
  rw [ea1, eb2] at hc2
  cases hover : origa.region.get_overlap origb.region with
  | none =>
    rw [Region.get_overlap_eq_none_iff] at hover
    rcases hover with h | h
    · omega
    · omega
  | some o =>
    have heq := (Region.get_overlap_eq_some hover).1
    have ho2 : o.stop = min origa.region.stop origb.region.stop := by rw [heq]
    have ho1 : o.start = max origa.region.start origb.region.start := by rw [heq]
    rcases hsafe _ _ _ _ hla hlb hab o hover with h | h
    · rw [ho2] at h
      rcases min_le_iff.mp h with h | h
      · omega
      · omega
    · rw [ho1] at h
      rcases le_max_iff.mp h with h | h
      · omega
      · omega

/-- `extract_playlist_section` succeeds — with the stored section length —
whenever no pairwise overlap of the stored cuts meets the window. -/
theorem Cuts.extract_playlist_ok (cuts : Cuts) (hWF : cuts.WF) (w : Region)
    (hw : w.valid)
    (hsafe : ∀ k1 c1 k2 c2, Pydict.lookup cuts.cut_map k1 = some c1 →
      Pydict.lookup cuts.cut_map k2 = some c2 → k1 ≠ k2 →
      ∀ o, c1.region.get_overlap c2.region = some o →
        o.stop ≤ w.start ∨ w.stop ≤ o.start) :
    ∃ ps, cuts.extract_playlist_section w = Except.ok ps ∧ ps.length = w.length := by
  obtain ⟨clipped, hC, hmap, _⟩ := cuts.create_cut_ok hWF w hw
  obtain ⟨hspec, hnd⟩ := cuts.clip_list_spec hWF w
  have hvals : Pydict.values clipped.cut_map =
      (cuts.yield_cuts_in_period w).filterMap (fun c => c.create_cut w) := by
    rw [hmap, Pydict.values_pairing]
  have hin : ∀ c ∈ (cuts.yield_cuts_in_period w).filterMap (fun c => c.create_cut w),
      w.start ≤ c.start ∧ c.stop ≤ w.stop ∧ c.region.valid := by
    intro c hc
    obtain ⟨orig, o, hlo, ho, hreg, _⟩ := hspec c hc
    obtain ⟨_, _, h3, h4⟩ := Region.get_overlap_subset ho
    have hcv : c.region.valid := by
      rw [hreg]
      exact Region.get_overlap_valid (Cuts.WF.valid_of_lookup hWF _ _ hlo) hw ho
    refine ⟨?_, ?_, hcv⟩
    · have e1 : c.start = c.region.start := rfl
      rw [e1, hreg]
      exact h3
    · have e2 : c.stop = c.region.stop := rfl
      rw [e2, hreg]
      exact h4
  set L := (cuts.yield_cuts_in_period w).filterMap (fun c => c.create_cut w) with hL
  have hperm := List.perm_insertionSort (fun a b => a.start ≤ b.start) L
  have hsorted := List.sorted_insertionSort (fun a b => a.start ≤ b.start) L
  have hdisjL := cuts.clip_list_disjoint hWF w hw hsafe
  have hdisjS : (List.insertionSort (fun a b => a.start ≤ b.start) L).Pairwise
      (fun a b => a.stop ≤ b.start ∨ b.stop ≤ a.start) := by
    refine (List.Perm.pairwise_iff ?_ hperm).mpr hdisjL
    intro x y h
    exact h.symm
  obtain ⟨parts, hok, hsum⟩ := playlistLoop_ok w.stop
    (List.insertionSort (fun a b => a.start ≤ b.start) L) w.start
    (le_of_lt hw)
    (fun c hc => (hin c (hperm.mem_iff.mp hc)).1)
    (fun c hc => (hin c (hperm.mem_iff.mp hc)).2.1)
    (fun c hc => (hin c (hperm.mem_iff.mp hc)).2.2)
    hsorted hdisjS
  refine ⟨⟨w.length, parts⟩, ?_, rfl⟩
  show (cuts.create_cut w >>= fun clipped => (playlistLoop w.stop w.start
    (List.insertionSort (fun a b => a.start ≤ b.start) (Pydict.values clipped.cut_map)) >>=
      fun parts => PlaylistSection.mk? w.length parts)) = _
  rw [hC]
  show (playlistLoop w.stop w.start
    (List.insertionSort (fun a b => a.start ≤ b.start) (Pydict.values clipped.cut_map)) >>=
      fun parts => PlaylistSection.mk? w.length parts) = _
  rw [hvals, hok]
  show PlaylistSection.mk? w.length parts = _
  unfold PlaylistSection.mk?
  rw [if_pos (by rw [hsum]; show w.stop - w.start = _; rfl)]

/-! ### Mix-section lemmas -/

theorem Pydict.lookup_singleton {a : κ} {b : ν} {k : κ} {v : ν} [DecidableEq κ]
    (h : Pydict.lookup [(a, b)] k = some v) : k = a ∧ v = b := by
  by_cases ha : a = k
  · subst ha
    simp only [Pydict.lookup, if_pos] at h
    cases h
    exact ⟨rfl, rfl⟩
  · simp [Pydict.lookup, ha] at h

/-- A single valid cut's one-cut playlist over any valid window succeeds
with the window's length. -/
theorem Cuts.single_extract_ok (cut : Cut) (hv : cut.region.valid)
    (hmix : cut.mix_strategy = "over" ∨ cut.mix_strategy = "under")
    (w : Region) (hw : w.valid) :
    ∃ ps, (Cuts.add1 Cuts.empty cut >>=
        fun single => single.extract_playlist_section w) = Except.ok ps ∧
      ps.length = w.length := by
  have h1 := @Cuts.add1_ok Cuts.empty cut rfl hv
  have hWFs := Cuts.WF_add1 Cuts.WF_empty hmix h1
  have hsafe : ∀ k1 c1 k2 c2,
      Pydict.lookup (Cuts.empty.cut_map ++ [(cut.id, cut)]) k1 = some c1 →
      Pydict.lookup (Cuts.empty.cut_map ++ [(cut.id, cut)]) k2 = some c2 → k1 ≠ k2 →
      ∀ o, c1.region.get_overlap c2.region = some o →
        o.stop ≤ w.start ∨ w.stop ≤ o.start := by
    intro k1 c1 k2 c2 hl1 hl2 hne o _
    exfalso
    have e1 : Pydict.lookup [(cut.id, cut)] k1 = some c1 := hl1
    have e2 : Pydict.lookup [(cut.id, cut)] k2 = some c2 := hl2
    obtain ⟨rfl, _⟩ := Pydict.lookup_singleton e1
    obtain ⟨rfl, _⟩ := Pydict.lookup_singleton e2
    exact hne rfl
  obtain ⟨ps, hok, hlen⟩ := Cuts.extract_playlist_ok _ hWFs w hw hsafe
  refine ⟨ps, ?_, hlen⟩
  rw [h1]
  exact hok

theorem foldl_overUnder_perm : ∀ (xs acc : List Cut),
    (xs.foldl (fun sorted_cuts cut =>
      if cut.mix_strategy = "over" then cut :: sorted_cuts
      else sorted_cuts ++ [cut]) acc).Perm (acc ++ xs) := by
  intro xs
  induction xs with
  | nil => intro acc; simp
  | cons c xs' ih =>
    intro acc
    have hstep : ((if c.mix_strategy = "over" then c :: acc else acc ++ [c]) : List Cut).Perm
        (acc ++ [c]) := by
      by_cases h : c.mix_strategy = "over"
      · rw [if_pos h]
        exact (List.perm_append_singleton c acc).symm
      · rw [if_neg h]
    refine List.Perm.trans (ih _) ?_
    refine List.Perm.trans (hstep.append_right xs') ?_
    rw [List.append_assoc]
    exact List.Perm.refl _

theorem Cuts.sort_cuts_perm (l : List Cut) : (Cuts.sort_cuts l).Perm l := by
  unfold Cuts.sort_cuts
  refine List.Perm.trans (foldl_overUnder_perm _ []) ?_
  simpa using List.perm_insertionSort _ l

theorem mapM_playlist_ok (f : Cut → Except String PlaylistSection) (len : Int) :
    ∀ l : List Cut, (∀ x ∈ l, ∃ ps, f x = Except.ok ps ∧ ps.length = len) →
    ∃ pss, l.mapM f = Except.ok pss ∧ ∀ ps ∈ pss, ps.length = len := by
  intro l
  induction l with
  | nil =>
    intro _
    exact ⟨[], rfl, by simp⟩
  | cons x l' ih =>
    intro h
    obtain ⟨ps, hx, hlen⟩ := h x (List.mem_cons_self _ _)
    obtain ⟨pss, hl, hall⟩ := ih (fun y hy => h y (List.mem_cons_of_mem _ hy))
    refine ⟨ps :: pss, ?_, ?_⟩
    · rw [List.mapM_cons, hx]
      show (l'.mapM f >>= fun bs => pure (ps :: bs)) = _
      rw [hl]
      rfl
    · intro q hq
      rcases List.mem_cons.mp hq with rfl | hq'
      · exact hlen
      · exact hall q hq'

/-- `extract_mix_section` succeeds on a well-formed collection and a valid
window, with the stored section length. -/
theorem Cuts.extract_mix_ok (cuts : Cuts) (hWF : cuts.WF) (w : Region) (hw : w.valid) :
    ∃ ms, cuts.extract_mix_section w = Except.ok ms ∧ ms.length = w.length := by
  obtain ⟨clipped, hC, hmap, _⟩ := cuts.create_cut_ok hWF w hw
  obtain ⟨hspec, hnd⟩ := cuts.clip_list_spec hWF w
  have hvals : Pydict.values clipped.cut_map =
      (cuts.yield_cuts_in_period w).filterMap (fun c => c.create_cut w) := by
    rw [hmap, Pydict.values_pairing]
  have hper : ∀ cut ∈ Cuts.sort_cuts (Pydict.values clipped.cut_map),
      ∃ ps, (Cuts.add1 Cuts.empty cut >>=
        fun single => single.extract_playlist_section w) = Except.ok ps ∧
        ps.length = w.length := by
    intro cut hcut
    have hmem : cut ∈ (cuts.yield_cuts_in_period w).filterMap (fun c => c.create_cut w) := by
      rw [← hvals]
      exact (Cuts.sort_cuts_perm _).mem_iff.mp hcut
    obtain ⟨orig, o, hlo, ho, hreg, hmix⟩ := hspec cut hmem
    have hv : cut.region.valid := by
      rw [hreg]
      exact Region.get_overlap_valid (Cuts.WF.valid_of_lookup hWF _ _ hlo) hw ho
    have hm : cut.mix_strategy = "over" ∨ cut.mix_strategy = "under" := by
      rw [hmix]
      exact Cuts.WF.mix_of_lookup hWF _ _ hlo
    exact Cuts.single_extract_ok cut hv hm w hw
  obtain ⟨pss, hok, hall⟩ := mapM_playlist_ok _ w.length _ hper
  refine ⟨⟨w.length, pss⟩, ?_, rfl⟩
  show (cuts.create_cut w >>= fun clipped =>
    ((Cuts.sort_cuts (Pydict.values clipped.cut_map)).mapM (fun cut =>
        Cuts.add1 Cuts.empty cut >>= fun single => single.extract_playlist_section w) >>=
      fun playlists => MixSection.mk? w.length playlists)) = _
  rw [hC]
  show ((Cuts.sort_cuts (Pydict.values clipped.cut_map)).mapM (fun cut =>
      Cuts.add1 Cuts.empty cut >>= fun single => single.extract_playlist_section w) >>=
    fun playlists => MixSection.mk? w.length playlists) = _
  rw [hok]
  show MixSection.mk? w.length pss = _
  unfold MixSection.mk?
  rw [if_pos ?_]
  rw [List.all_eq_true]
  intro p hp
  exact beq_iff_eq.mpr (hall p hp)

/-! ### Raw overlap-region list: soundness and completeness -/

theorem Cuts.overlap_raw_sound (cuts : Cuts) :
    ∀ o ∈ cuts.overlap_regions_raw, ∃ k1 c1 k2 c2,
      Pydict.lookup cuts.cut_map k1 = some c1 ∧
      Pydict.lookup cuts.cut_map k2 = some c2 ∧
      c1.region.get_overlap c2.region = some o := by
  intro o ho
  unfold Cuts.overlap_regions_raw at ho
  rw [List.mem_flatMap] at ho
  obtain ⟨ids, _, ho⟩ := ho
  rw [List.mem_filterMap] at ho
  obtain ⟨p, _, hp⟩ := ho
  cases h1 : Pydict.lookup cuts.cut_map p.1 with
  | none => rw [h1] at hp; cases hp
  | some c1 =>
    cases h2 : Pydict.lookup cuts.cut_map p.2 with
    | none => rw [h1, h2] at hp; cases hp
    | some c2 =>
      rw [h1, h2] at hp
      exact ⟨p.1, c1, p.2, c2, h1, h2, hp⟩

theorem Cuts.overlap_raw_complete (cuts : Cuts) (hWF : cuts.WF) :
    ∀ k1 c1 k2 c2, Pydict.lookup cuts.cut_map k1 = some c1 →
      Pydict.lookup cuts.cut_map k2 = some c2 → k1 ≠ k2 →
      ∀ o, c1.region.get_overlap c2.region = some o →
        o ∈ cuts.overlap_regions_raw := by
  intro k1 c1 k2 c2 hl1 hl2 hne o ho
  have hv1 := Cuts.WF.valid_of_lookup hWF _ _ hl1
  have hv2 := Cuts.WF.valid_of_lookup hWF _ _ hl2
  have hov : o.valid := Region.get_overlap_valid hv1 hv2 ho
  obtain ⟨s1, s2, s3, s4⟩ := Region.get_overlap_subset ho
  have hgs := hWF.1
  have hb : o.start.fdiv cuts.region_group_size ∈ o.get_groups cuts.region_group_size :=
    Region.get_groups_nonempty hgs hov
  have hb1 : o.start.fdiv cuts.region_group_size ∈
      c1.region.get_groups cuts.region_group_size :=
    Region.get_groups_subset hgs hov s1 s2 _ hb
  have hb2 : o.start.fdiv cuts.region_group_size ∈
      c2.region.get_groups cuts.region_group_size :=
    Region.get_groups_subset hgs hov s3 s4 _ hb
  have he1 := (hWF.2.2.1 (k1, c1) (Pydict.lookup_mem hl1)).2.2.2.2
  have he2 := (hWF.2.2.1 (k2, c2) (Pydict.lookup_mem hl2)).2.2.2.2
  have hk1 := he1 _ hb1
  have hk2 := he2 _ hb2
  set b := o.start.fdiv cuts.region_group_size with hbdef
  unfold RegionToCuts.get_cuts_in_region at hk1 hk2
  cases hlb : Pydict.lookup cuts.region_to_cuts.region_number_to_cut_ids b with
  | none =>
    rw [hlb] at hk1
    simp at hk1
  | some l =>
    rw [hlb] at hk1 hk2
    simp only [Option.getD_some] at hk1 hk2
    have hlist : l ∈ cuts.region_to_cuts.iter_groups := by
      unfold RegionToCuts.iter_groups
      exact List.mem_map.mpr ⟨(b, l), Pydict.lookup_mem hlb, rfl⟩
    have hmem : o ∈ (pairsOf l).filterMap (fun p =>
        match Pydict.lookup cuts.cut_map p.1, Pydict.lookup cuts.cut_map p.2 with
        | some c1, some c2 => c1.get_overlap c2
        | _, _ => none) := by
      rcases pairsOf_complete hne hk1 hk2 with hp | hp
      · refine List.mem_filterMap.mpr ⟨(k1, k2), hp, ?_⟩
        show (match Pydict.lookup cuts.cut_map k1, Pydict.lookup cuts.cut_map k2 with
          | some c1, some c2 => c1.get_overlap c2
          | _, _ => none) = some o
        rw [hl1, hl2]
        exact ho
      · refine List.mem_filterMap.mpr ⟨(k2, k1), hp, ?_⟩
        show (match Pydict.lookup cuts.cut_map k2, Pydict.lookup cuts.cut_map k1 with
          | some c1, some c2 => c1.get_overlap c2
          | _, _ => none) = some o
        rw [hl1, hl2]
        show c2.region.get_overlap c1.region = some o
        rw [Region.get_overlap_comm]
        exact ho
    unfold Cuts.overlap_regions_raw
    rw [List.mem_flatMap]
    exact ⟨l, hlist, hmem⟩

/-! ### The `split_into_sections` loop -/

theorem Cuts.sectionsLoop_nil_eq (cuts : Cuts) (s : Int) :
    cuts.sectionsLoop s [] =
      (if cuts.stop > s then
        cuts.extract_playlist_section ⟨s, cuts.stop⟩ >>= fun ps =>
          Except.ok [TimelineSection.playlist ps]
      else Except.ok []) := by
  rw [Cuts.sectionsLoop]

theorem Cuts.sectionsLoop_cons_eq (cuts : Cuts) (s : Int) (m : Region)
    (M' : List Region) :
    cuts.sectionsLoop s (m :: M') =
      ((if m.start > s then
          cuts.extract_playlist_section ⟨s, m.start⟩ >>= fun ps =>
            Except.ok [TimelineSection.playlist ps]
        else Except.ok []) >>= fun first =>
        cuts.extract_mix_section m >>= fun mx =>
        cuts.sectionsLoop m.stop M' >>= fun tail =>
        Except.ok (first ++ TimelineSection.mix mx :: tail)) := by
  rw [Cuts.sectionsLoop]
  split
  · cases cuts.extract_playlist_section ⟨s, m.start⟩ <;> rfl
  · rfl

theorem Cuts.sectionsLoop_ok (cuts : Cuts) (hWF : cuts.WF) :
    ∀ (M : List Region) (s : Int),
      s ≤ cuts.stop →
      (∀ m ∈ M, m.valid ∧ s ≤ m.start ∧ m.stop ≤ cuts.stop) →
      M.Pairwise (fun a b => a.stop < b.start) →
      (∀ k1 c1 k2 c2, Pydict.lookup cuts.cut_map k1 = some c1 →
        Pydict.lookup cuts.cut_map k2 = some c2 → k1 ≠ k2 →
        ∀ o, c1.region.get_overlap c2.region = some o →
          (∃ m ∈ M, m.start ≤ o.start ∧ o.stop ≤ m.stop) ∨ o.stop ≤ s) →
      ∃ L, cuts.sectionsLoop s M = Except.ok L ∧
        (L.map TimelineSection.length).sum = cuts.stop - s := by
  intro M
  induction M with
  | nil =>
    intro s hsle hM hpw hsafe
    by_cases h : cuts.stop > s
    · have hsafe' : ∀ k1 c1 k2 c2, Pydict.lookup cuts.cut_map k1 = some c1 →
          Pydict.lookup cuts.cut_map k2 = some c2 → k1 ≠ k2 →
          ∀ o, c1.region.get_overlap c2.region = some o →
            o.stop ≤ (⟨s, cuts.stop⟩ : Region).start ∨
              (⟨s, cuts.stop⟩ : Region).stop ≤ o.start := by
        intro k1 c1 k2 c2 hl1 hl2 hne o ho
        rcases hsafe k1 c1 k2 c2 hl1 hl2 hne o ho with hcov | hstop
        · obtain ⟨m, hm, _⟩ := hcov
          simp at hm
        · exact Or.inl hstop
      obtain ⟨ps, hok, hlen⟩ := cuts.extract_playlist_ok hWF ⟨s, cuts.stop⟩ h hsafe'
      refine ⟨[TimelineSection.playlist ps], ?_, ?_⟩
      · rw [Cuts.sectionsLoop_nil_eq, if_pos h, hok]
        rfl
      · simp only [List.map_cons, List.map_nil, List.sum_cons, List.sum_nil,
          TimelineSection.length]
        rw [hlen]
        show cuts.stop - s + 0 = _
        omega
    · refine ⟨[], ?_, by simp; omega⟩
      rw [Cuts.sectionsLoop_nil_eq, if_neg h]
  | cons m M' ih =>
    intro s hsle hM hpw hsafe
    obtain ⟨hmv, hms, hmw⟩ := hM m (List.mem_cons_self _ _)
    have hmlt : ∀ m' ∈ M', m.stop < m'.start := (List.pairwise_cons.mp hpw).1
    have hmvv : m.start < m.stop := hmv
    obtain ⟨ms', hmix, hmixlen⟩ := cuts.extract_mix_ok hWF m hmv
    obtain ⟨tail, htail, htaillen⟩ := ih m.stop hmw
      (fun m' hm' => ⟨(hM m' (List.mem_cons_of_mem _ hm')).1,
        le_of_lt (hmlt m' hm'), (hM m' (List.mem_cons_of_mem _ hm')).2.2⟩)
      (List.pairwise_cons.mp hpw).2
      (fun k1 c1 k2 c2 hl1 hl2 hne o ho => by
        rcases hsafe k1 c1 k2 c2 hl1 hl2 hne o ho with hcov | hstop
        · obtain ⟨m', hm', hcov1, hcov2⟩ := hcov
          rcases List.mem_cons.mp hm' with rfl | hm''
          · exact Or.inr (le_trans hcov2 (le_refl _))
          · exact Or.inl ⟨m', hm'', hcov1, hcov2⟩
        · exact Or.inr (by omega))
    by_cases hgt : m.start > s
    · have hsafe' : ∀ k1 c1 k2 c2, Pydict.lookup cuts.cut_map k1 = some c1 →
          Pydict.lookup cuts.cut_map k2 = some c2 → k1 ≠ k2 →
          ∀ o, c1.region.get_overlap c2.region = some o →
            o.stop ≤ (⟨s, m.start⟩ : Region).start ∨
              (⟨s, m.start⟩ : Region).stop ≤ o.start := by
        intro k1 c1 k2 c2 hl1 hl2 hne o ho
        rcases hsafe k1 c1 k2 c2 hl1 hl2 hne o ho with hcov | hstop
        · obtain ⟨m', hm', hcov1, hcov2⟩ := hcov
          rcases List.mem_cons.mp hm' with rfl | hm''
          · exact Or.inr hcov1
          · refine Or.inr (le_trans ?_ hcov1)
            show m.start ≤ m'.start
            have := hmlt m' hm''
            omega
        · exact Or.inl hstop
      obtain ⟨ps, hok, hlen⟩ := cuts.extract_playlist_ok hWF ⟨s, m.start⟩ hgt hsafe'
      refine ⟨TimelineSection.playlist ps :: TimelineSection.mix ms' :: tail, ?_, ?_⟩
      · rw [Cuts.sectionsLoop_cons_eq, if_pos hgt, hok, hmix, htail]
        rfl
      · simp only [List.map_cons, List.sum_cons, TimelineSection.length]
        rw [hlen, hmixlen, htaillen]
        show m.start - s + (m.stop - m.start + (cuts.stop - m.stop)) = _
        omega
    · have heq : m.start = s := by omega
      refine ⟨TimelineSection.mix ms' :: tail, ?_, ?_⟩
      · rw [Cuts.sectionsLoop_cons_eq, if_neg hgt, hmix, htail]
        rfl
      · simp only [List.map_cons, List.sum_cons, TimelineSection.length]
        rw [hmixlen, htaillen]
        show m.stop - m.start + (cuts.stop - m.stop) = _
        omega

/-- Main correctness of `split_into_sections` on a well-formed collection
whose cuts all sit at nonnegative positions: it succeeds, the section
lengths sum to `Cuts.end`, and a collection with no cuts yields no
sections. -/
theorem Cuts.split_into_sections_spec (cuts : Cuts) (hWF : cuts.WF)
    (hpos : ∀ p ∈ cuts.cut_map, 0 ≤ p.2.position) :
    ∃ S : Sections, cuts.split_into_sections = Except.ok S ∧
      S.length = cuts.stop ∧ (cuts.cut_map = [] → S.sections = []) := by
  have hstop := cuts.stop_nonneg hWF hpos
  have hraw : ∀ o ∈ cuts.overlap_regions_raw,
      o.valid ∧ 0 ≤ o.start ∧ o.stop ≤ cuts.stop := by
    intro o ho
    obtain ⟨k1, c1, k2, c2, hl1, hl2, hov⟩ := cuts.overlap_raw_sound o ho
    have hv1 := Cuts.WF.valid_of_lookup hWF _ _ hl1
    have hv2 := Cuts.WF.valid_of_lookup hWF _ _ hl2
    obtain ⟨s1, s2, _, _⟩ := Region.get_overlap_subset hov
    have hp1 : 0 ≤ c1.position := hpos (k1, c1) (Pydict.lookup_mem hl1)
    have hst : c1.stop ≤ cuts.stop := Cuts.stop_ge cuts (k1, c1) (Pydict.lookup_mem hl1)
    have e1 : c1.region.start = c1.position := rfl
    have e2 : c1.region.stop = c1.stop := rfl
    exact ⟨Region.get_overlap_valid hv1 hv2 hov, by omega, by omega⟩
  have hMdef : cuts.get_regions_with_overlap =
      UnionRegions.merged cuts.overlap_regions_raw := rfl
  obtain ⟨hMv, hMpw, hMb, hMc⟩ := UnionRegions.merged_spec cuts.overlap_regions_raw
    (fun r hr => (hraw r hr).1)
  have hMbounds := hMb 0 cuts.stop (fun r hr => ⟨(hraw r hr).2.1, (hraw r hr).2.2⟩)
  obtain ⟨L, hok, hsum⟩ := cuts.sectionsLoop_ok hWF cuts.get_regions_with_overlap 0
    hstop
    (fun m hm => ⟨hMv m (hMdef ▸ hm), (hMbounds m (hMdef ▸ hm)).1,
      (hMbounds m (hMdef ▸ hm)).2⟩)
    (hMdef ▸ hMpw)
    (fun k1 c1 k2 c2 hl1 hl2 hne o ho => by
      have hr := cuts.overlap_raw_complete hWF k1 c1 k2 c2 hl1 hl2 hne o ho
      obtain ⟨m, hm, h1, h2⟩ := hMc o hr
      exact Or.inl ⟨m, hMdef ▸ hm, h1, h2⟩)
  refine ⟨⟨L⟩, ?_, ?_, ?_⟩
  · show (cuts.sectionsLoop 0 cuts.get_regions_with_overlap >>= fun secs =>
      Except.ok (⟨secs⟩ : Sections)) = _
    rw [hok]
    rfl
  · show (L.map TimelineSection.length).sum = cuts.stop
    omega
  · intro hemp
    have hraw0 : cuts.overlap_regions_raw = [] := by
      rw [List.eq_nil_iff_forall_not_mem]
      intro o ho
      obtain ⟨k1, c1, k2, c2, hl1, _, _⟩ := cuts.overlap_raw_sound o ho
      rw [hemp] at hl1
      simp [Pydict.lookup] at hl1
    have hM0 : cuts.get_regions_with_overlap = [] := by
      rw [hMdef, hraw0]
      rfl
    have hstop0 : cuts.stop = 0 := by
      unfold Cuts.stop
      rw [hemp]
      rfl
    have h0 : cuts.sectionsLoop 0 cuts.get_regions_with_overlap = Except.ok [] := by
      rw [hM0, Cuts.sectionsLoop_nil_eq, if_neg (by omega)]
    rw [h0] at hok
    exact (Except.ok.inj hok).symm

/-! ### Drag-action dispatch (`ResizeLeftAction` / `ResizeRightAction`) -/

/-- `ResizeLeftAction.modify_cut_on_drag(delta, cut)`: with Ctrl held,
`cut.resize_left(delta)`, otherwise `cut.move_left(delta)`. -/
def ResizeLeftAction.modify_cut_on_drag (ctrl : Bool) (delta : Int) (cut : Cut) : Cut :=
  if ctrl then cut.resize_left delta else cut.move_left delta

/-- `ResizeRightAction.modify_cut_on_drag(delta, cut)`: with Ctrl held,
`cut.resize_right(delta)`, otherwise `cut.move_right(delta)`. -/
def ResizeRightAction.modify_cut_on_drag (ctrl : Bool) (delta : Int) (cut : Cut) : Cut :=
  if ctrl then cut.resize_right delta else cut.move_right delta

/-! ### Example collections used to instantiate the whole-collection theorems -/

/-- A concrete two-cut collection — two overlapping cuts sharing bucket 0 —
with the index exactly as `Cuts.empty().add(...)` builds it. -/
def exCuts : Cuts :=
  { cut_map :=
      [(some "a", Cut.mk (.src (some "s")) ⟨0, 6⟩ 0 (some "a") "over" 0 1),
       (some "b", Cut.mk (.src (some "s")) ⟨0, 6⟩ 3 (some "b") "under" 0 1)],
    region_to_cuts := ⟨[(0, [some "a", some "b"])]⟩,
    region_group_size := 100 }

/-- A one-cut collection: after deleting its only cut no remaining cut
starts later, so `ripple_delete`'s `diffs` list is empty. -/
def c6cuts : Cuts :=
  { cut_map := [(some "a", Cut.mk (.src (some "s")) ⟨0, 5⟩ 0 (some "a") "under" 0 1)],
    region_to_cuts := ⟨[(0, [some "a"])]⟩,
    region_group_size := 100 }

/-! ### The claims -/

/-- Claim C1: for every `Cuts` collection in which every cut has
position ≥ 0 (and whose map/index satisfy the structural invariant the
constructors establish), `split_into_sections` returns a `Sections` value
whose sections' lengths sum exactly to `Cuts.end`; the empty collection
yields zero sections. -/
theorem C1_sections_sum_to_end (cuts : Cuts) (hWF : cuts.WF)
    (hpos : ∀ p ∈ cuts.cut_map, 0 ≤ p.2.position) :
    ∃ S : Sections, cuts.split_into_sections = Except.ok S ∧
      S.length = cuts.stop ∧ (cuts.cut_map = [] → S.sections = []) :=
  cuts.split_into_sections_spec hWF hpos

theorem C1_witness :
    ∃ S : Sections, exCuts.split_into_sections = Except.ok S ∧
      S.length = exCuts.stop ∧ (exCuts.cut_map = [] → S.sections = []) :=
  C1_sections_sum_to_end exCuts (by decide) (by decide)

/-- Claim C2: on a well-formed collection whose cuts all have
position ≥ 0, `split_into_sections` never raises — in particular the
`"Cut overlaps start"` / `"Cut overlaps end"` branches of
`extract_playlist_section` are unreachable; the proof goes through the
completeness of the bucket-pruned pair enumeration behind
`get_regions_with_overlap` (`Cuts.overlap_raw_complete`). -/
theorem C2_no_playlist_overlap_error (cuts : Cuts) (hWF : cuts.WF)
    (hpos : ∀ p ∈ cuts.cut_map, 0 ≤ p.2.position) :
    ∀ e : String, cuts.split_into_sections ≠ Except.error e := by
  intro e h
  obtain ⟨S, hok, _⟩ := cuts.split_into_sections_spec hWF hpos
  rw [hok] at h
  cases h

theorem C2_witness : exCuts.split_into_sections ≠ Except.error "Cut overlaps start" :=
  C2_no_playlist_overlap_error exCuts (by decide) (by decide) "Cut overlaps start"

/-- Claim C6 (code bug): on a collection where no remaining cut starts
after the deleted cut — here a collection holding the single cut `"a"` —
`ripple_delete` does not return the collection without the deleted cut: its
`min(diffs)` runs on an empty sequence, so Python raises
`ValueError: min() arg is an empty sequence`. -/
theorem C6_ripple_delete_crashes_on_last_cut :
    (Pydict.lookup c6cuts.cut_map (some "a")).isSome ∧
    c6cuts.ripple_delete (some "a") =
      Except.error "min() arg is an empty sequence" := by
  exact ⟨rfl, rfl⟩

/-- `applyTransOps` never touches `current_transaction`. -/
theorem applyTransOps_current (ops : List TransOp) : ∀ p : Project,
    (applyTransOps p ops).current_transaction = p.current_transaction := by
  induction ops with
  | nil => intro p; rfl
  | cons op rest ih =>
    intro p
    show (applyTransOps (applyTransOp p op) rest).current_transaction = _
    rw [ih]
    rfl

/-- Claim C7: opening a transaction on a fresh project captures the
current `ProjectData`; after any sequence of mutating operations, `reset`
(and `rollback`) restores exactly the captured value, and `rollback`
additionally releases the transaction so that a new one can be opened. -/
theorem C7_reset_rollback_restore (pd : ProjectData) (ops : List TransOp) :
    (Project.new pd).new_transaction = Except.ok ⟨pd, some pd⟩ ∧
    (applyTransOps ⟨pd, some pd⟩ ops).reset.project_data = pd ∧
    (applyTransOps ⟨pd, some pd⟩ ops).rollback.project_data = pd ∧
    (applyTransOps ⟨pd, some pd⟩ ops).rollback.current_transaction = none ∧
    (applyTransOps ⟨pd, some pd⟩ ops).rollback.new_transaction =
      Except.ok ⟨pd, some pd⟩ := by
  have hc := applyTransOps_current ops ⟨pd, some pd⟩
  have hreset : (applyTransOps ⟨pd, some pd⟩ ops).reset.project_data = pd := by
    unfold Project.reset
    rw [hc]
  have hroll : (applyTransOps ⟨pd, some pd⟩ ops).rollback = ⟨pd, none⟩ := by
    unfold Project.rollback
    rw [Project.mk.injEq]
    exact ⟨hreset, rfl⟩
  refine ⟨rfl, hreset, ?_, ?_, ?_⟩
  · rw [hroll]
  · rw [hroll]
  · rw [hroll]
    rfl

/-- Claim C8 (corrected): `Region`'s validating constructor does enforce
`start < end` (equivalently `0 < length`), but the invariant is NOT
maintained by every derived region: `resize_to`, `shorten_left` and
`move_end` go through namedtuple `_replace`, which bypasses `__init__`, so
they can produce regions with `start ≥ end` without any error. -/
theorem C8_region_invariant :
    (∀ r : Region, r.valid ↔ 0 < r.length) ∧
    (∀ s e : Int, s < e → Region.mk? s e = Except.ok ⟨s, e⟩ ∧ (⟨s, e⟩ : Region).valid) ∧
    (∀ s e : Int, ¬s < e →
      Region.mk? s e = Except.error "Invalid region: start >= end.") ∧
    (∃ r : Region, ∃ a : Int, ¬(r.move_end a).valid) ∧
    (∃ r : Region, ∃ n : Int, ¬(r.resize_to n).valid) ∧
    (∃ r : Region, ∃ a : Int, ¬(r.shorten_left a).valid) := by
  refine ⟨?_, ?_, ?_, ⟨⟨0, 1⟩, -1, by decide⟩, ⟨⟨0, 1⟩, 0, by decide⟩,
    ⟨⟨0, 1⟩, 1, by decide⟩⟩
  · intro r
    exact (Region.length_pos_iff r).symm
  · intro s e h
    refine ⟨?_, h⟩
    unfold Region.mk?
    rw [if_neg (by omega)]
  · intro s e h
    unfold Region.mk?
    rw [if_pos (by omega)]

/-- Claim C8's counterexample: `Region(0, 1).move_end(-1)` is the region
`(0, 0)` — `_replace` raises no error — and it violates the `start < end`
invariant. -/
theorem C8_counterexample_move_end :
    (⟨0, 1⟩ : Region).move_end (-1) = ⟨0, 0⟩ ∧ ¬((⟨0, 0⟩ : Region).valid) := by
  exact ⟨rfl, by decide⟩

/-- Claim C10: `Cut.move_right` and `Cut.resize_left` are unimplemented
identities, so a right-edge drag without Ctrl
(`ResizeRightAction.modify_cut_on_drag`) and a left-edge drag with Ctrl held
(`ResizeLeftAction.modify_cut_on_drag`) leave the dragged cut unchanged. -/
theorem C10_drag_identities :
    ∀ (c : Cut) (delta : Int),
      c.move_right delta = c ∧ c.resize_left delta = c ∧
      ResizeRightAction.modify_cut_on_drag false delta c = c ∧
      ResizeLeftAction.modify_cut_on_drag true delta c = c :=
  fun _ _ => ⟨rfl, rfl, rfl, rfl⟩

/-- The two `BEq CutId` instances in scope (`Option.instBEq` and the one
derived from decidable equality) erase the same elements. -/
theorem cutId_erase_eq (a : CutId) : ∀ l : List CutId,
    @List.erase CutId Option.instBEq l a = @List.erase CutId instBEqOfDecidableEq l a := by
  intro l
  induction l with
  | nil => rfl
  | cons x xs ih =>
    rw [@List.erase_cons CutId Option.instBEq, @List.erase_cons CutId instBEqOfDecidableEq,
      ih]
    by_cases hx : x = a
    · have h1 : (@BEq.beq _ Option.instBEq x a) = true := beq_iff_eq.mpr hx
      have h2 : (@BEq.beq _ instBEqOfDecidableEq x a) = true := decide_eq_true hx
      rw [h1, h2]
    · have h1 : (@BEq.beq _ Option.instBEq x a) = false := beq_eq_false_iff_ne.mpr hx
      have h2 : (@BEq.beq _ instBEqOfDecidableEq x a) = false := decide_eq_false hx
      rw [h1, h2]

/-- Claim C5 (corrected): `modify(id, identity)` does keep the id-to-cut map
unchanged, but it is NOT the identity on the whole collection: the index
update removes the id from each of its buckets and re-appends it at the
back, so a bucket holding other ids after this one changes order.  What
holds is that each bucket keeps the same ids up to permutation. -/
theorem C5_modify_identity (cuts : Cuts) (hWF : cuts.WF) (k : CutId) (c : Cut)
    (hk : Pydict.lookup cuts.cut_map k = some c) :
    ∃ cuts', cuts.modify k (fun x => x) = Except.ok cuts' ∧
      cuts'.cut_map = cuts.cut_map ∧
      cuts'.region_group_size = cuts.region_group_size ∧
      ∀ b : Int, (cuts'.region_to_cuts.get_cuts_in_region b).Perm
        (cuts.region_to_cuts.get_cuts_in_region b) := by
  have hv : c.region.valid := Cuts.WF.valid_of_lookup hWF _ _ hk
  have hv' : ¬(c.region.stop ≤ c.region.start) := by
    have : c.region.start < c.region.stop := hv
    omega
  have hid : c.id = k := Cuts.WF.hid hWF _ _ hk
  refine ⟨{ cuts with
      cut_map := Pydict.set cuts.cut_map k c,
      region_to_cuts := (cuts.region_to_cuts.remove_cut_from_regions c.id
        (c.get_region_groups cuts.region_group_size)).add_cut_to_regions c.id
        (c.get_region_groups cuts.region_group_size) }, ?_, ?_, rfl, ?_⟩
  · unfold Cuts.modify
    rw [hk]
    show (if c.region.stop ≤ c.region.start then _
      else if c.region.stop ≤ c.region.start then _ else _) = _
    rw [if_neg hv', if_neg hv']
  · exact Pydict.set_eq_of_lookup _ _ _ hk
  · intro b
    have hnd : (c.get_region_groups cuts.region_group_size).Nodup :=
      Region.get_groups_nodup c.region (cuts.region_group_size)
    show ((cuts.region_to_cuts.remove_cut_from_regions c.id
        (c.get_region_groups cuts.region_group_size)).add_cut_to_regions c.id
        (c.get_region_groups cuts.region_group_size)).get_cuts_in_region b |>.Perm _
    rw [RegionToCuts.get_add_cut_to_regions,
      RegionToCuts.get_remove_cut_from_regions _ _ _ hnd]
    by_cases hb : b ∈ c.get_region_groups cuts.region_group_size
    · have hmem : k ∈ cuts.region_to_cuts.get_cuts_in_region b :=
        (hWF.2.2.1 (k, c) (Pydict.lookup_mem hk)).2.2.2.2 b hb
      have hbnd := (Cuts.WF.bucket hWF b).1
      have hnotin : c.id ∉ (cuts.region_to_cuts.get_cuts_in_region b).erase c.id := by
        rw [hid]
        exact hbnd.not_mem_erase
      rw [if_pos hb]
      rw [if_pos ⟨hb, hnotin⟩]
      refine (List.perm_append_singleton _ _).trans ?_
      rw [hid, cutId_erase_eq]
      exact (List.perm_cons_erase hmem).symm
    · rw [if_neg hb]
      rw [if_neg (by rintro ⟨h1, _⟩; exact hb h1)]

/-- Claim C5's counterexample: on the two-cut collection `exCuts` (ids
`"a"`, `"b"` share bucket 0 in that order), `modify("a", identity)` moves
`"a"` behind `"b"` in the bucket list, so the result is not equal to the
original collection. -/
theorem C5_counterexample_bucket_order :
    exCuts.modify (some "a") (fun c => c) ≠ Except.ok exCuts := by
  intro h
  have h2 : exCuts.modify (some "a") (fun c => c) = Except.ok
      { cut_map := exCuts.cut_map,
        region_to_cuts := ⟨[(0, [some "b", some "a"])]⟩,
        region_group_size := 100 } := rfl
  rw [h2] at h
  have h3 := Except.ok.inj h
  have h5 : ([(0, [some "b", some "a"])] : List (Int × List (Option String))) =
      [(0, [some "a", some "b"])] :=
    congrArg (fun c => c.region_to_cuts.region_number_to_cut_ids) h3
  exact absurd h5 (by decide)

theorem C5_witness :
    ∃ cuts', exCuts.modify (some "a") (fun x => x) = Except.ok cuts' ∧
      cuts'.cut_map = exCuts.cut_map ∧
      cuts'.region_group_size = exCuts.region_group_size ∧
      ∀ b : Int, (cuts'.region_to_cuts.get_cuts_in_region b).Perm
        (exCuts.region_to_cuts.get_cuts_in_region b) :=
  C5_modify_identity exCuts (by decide) (some "a")
    (Cut.mk (.src (some "s")) ⟨0, 6⟩ 0 (some "a") "over" 0 1) (by decide)

/-- Claim C9: `Transaction.add_clip` / `add_text_clip` boil down to
`add_source(source, length)`, which places the new cut at
`project_data.cuts_end` — the maximal existing cut end, `0` for an empty
project — and only appends: the sources map gains the new source at the
back, the cut map gains the new cut at the back, and no existing entry of
either map changes.  (Hypotheses: the `uuid4` source and cut ids are fresh,
the clip length is positive and within a file source's frame count, and the
existing timeline does not end at a negative frame.) -/
theorem C9_add_clip_appended_at_end (pd : ProjectData) (source : Source)
    (length : Int) (cid : CutId)
    (hfresh : Pydict.lookup pd.sources.id_to_source source.id = none)
    (hlen : 0 < length)
    (hfile : ∀ i p l, source = Source.file i p l → length ≤ l)
    (hcid : Pydict.lookup pd.cuts.cut_map cid = none)
    (hend : 0 ≤ pd.cuts.stop) :
    ∃ cut : Cut,
      (pd.transaction_add_source source length cid).sources.id_to_source =
        pd.sources.id_to_source ++ [(source.id, source)] ∧
      (pd.transaction_add_source source length cid).cuts.cut_map =
        pd.cuts.cut_map ++ [(cid, cut)] ∧
      cut.position = pd.cuts_end ∧ cut.id = cid ∧ cut.in_out = ⟨0, length⟩ := by
  have hadd : pd.add_source source = Except.ok
      { pd with sources := ⟨Pydict.set pd.sources.id_to_source source.id source⟩ } := by
    unfold ProjectData.add_source Sources.add
    rw [hfresh]
    rfl
  have hcc : source.create_cut 0 length cid =
      Except.ok (Cut.mk (.src source.id) ⟨0, length⟩ 0 cid "under" 0 1) := by
    cases source with
    | file i p l =>
      have hl := hfile i p l rfl
      show (if (0 : Int) < 0 ∨ length > l then _ else _) = _
      rw [if_neg (by omega)]
      show (Region.mk? 0 length >>= fun io =>
        Except.ok (Cut.mk (.src i) io 0 cid "under" 0 1)) = _
      unfold Region.mk?
      rw [if_neg (by omega)]
      rfl
    | text i t =>
      show (Region.mk? 0 length >>= fun io =>
        Except.ok (Cut.mk (.src i) io 0 cid "under" 0 1)) = _
      unfold Region.mk?
      rw [if_neg (by omega)]
      rfl
  have hmax : max 0 (0 + pd.cuts.stop) = pd.cuts.stop := by omega
  have hmv : (Cut.mk (.src source.id) ⟨0, length⟩ 0 cid "under" 0 1).move pd.cuts.stop =
      Cut.mk (.src source.id) ⟨0, length⟩ pd.cuts.stop cid "under" 0 1 := by
    show Cut.mk (.src source.id) ⟨0, length⟩ (max 0 (0 + pd.cuts.stop)) cid "under" 0 1 = _
    rw [hmax]
  have hlimit : source.limit_in_out
      (Cut.mk (.src source.id) ⟨0, length⟩ pd.cuts.stop cid "under" 0 1) =
      Cut.mk (.src source.id) ⟨0, length⟩ pd.cuts.stop cid "under" 0 1 := by
    cases source with
    | file i p l =>
      show Cut.mk (.src (Source.file i p l).id) ⟨0, min length l⟩ pd.cuts.stop cid
        "under" 0 1 = _
      rw [min_eq_left (hfile i p l rfl)]
    | text i t => rfl
  have hadj : ProjectData.adjust_cut_in_out
      { pd with sources := ⟨Pydict.set pd.sources.id_to_source source.id source⟩ }
      (Cut.mk (.src source.id) ⟨0, length⟩ pd.cuts.stop cid "under" 0 1) =
      Except.ok (Cut.mk (.src source.id) ⟨0, length⟩ pd.cuts.stop cid "under" 0 1) := by
    show (match Pydict.lookup (Pydict.set pd.sources.id_to_source source.id source)
        source.id with
      | some s => Except.ok (s.limit_in_out
          (Cut.mk (.src source.id) ⟨0, length⟩ pd.cuts.stop cid "under" 0 1))
      | none => Except.error "KeyError") = _
    rw [Pydict.lookup_set_self]
    show Except.ok (source.limit_in_out
      (Cut.mk (.src source.id) ⟨0, length⟩ pd.cuts.stop cid "under" 0 1)) = _
    rw [hlimit]
  have hvalid : ¬((Cut.mk (.src source.id) ⟨0, length⟩ pd.cuts.stop cid
      "under" 0 1).region.stop ≤
      (Cut.mk (.src source.id) ⟨0, length⟩ pd.cuts.stop cid "under" 0 1).region.start) := by
    show ¬(pd.cuts.stop + (length - 0) ≤ pd.cuts.stop)
    omega
  have hadd1 : pd.cuts.add1
      (Cut.mk (.src source.id) ⟨0, length⟩ pd.cuts.stop cid "under" 0 1) = Except.ok
      { pd.cuts with
        cut_map := Pydict.set pd.cuts.cut_map cid
          (Cut.mk (.src source.id) ⟨0, length⟩ pd.cuts.stop cid "under" 0 1),
        region_to_cuts := pd.cuts.region_to_cuts.add_cut_to_regions cid
          ((Cut.mk (.src source.id) ⟨0, length⟩ pd.cuts.stop cid
            "under" 0 1).get_region_groups pd.cuts.region_group_size) } := by
    unfold Cuts.add1
    rw [show (Cut.mk (.src source.id) ⟨0, length⟩ pd.cuts.stop cid "under" 0 1).id = cid
      from rfl]
    rw [hcid]
    rw [if_neg (by simp), if_neg hvalid]
  have htas : pd.transaction_add_source source length cid =
      { sources := ⟨Pydict.set pd.sources.id_to_source source.id source⟩,
        cuts :=
          { pd.cuts with
            cut_map := Pydict.set pd.cuts.cut_map cid
              (Cut.mk (.src source.id) ⟨0, length⟩ pd.cuts.stop cid "under" 0 1),
            region_to_cuts := pd.cuts.region_to_cuts.add_cut_to_regions cid
              ((Cut.mk (.src source.id) ⟨0, length⟩ pd.cuts.stop cid
                "under" 0 1).get_region_groups pd.cuts.region_group_size) } } := by
    unfold ProjectData.transaction_add_source
    rw [hadd]
    show (match source.create_cut 0 length cid with
      | .error _ =>
        { pd with sources := ⟨Pydict.set pd.sources.id_to_source source.id source⟩ }
      | .ok cut0 =>
        match ProjectData.add_cut
          { pd with sources := ⟨Pydict.set pd.sources.id_to_source source.id source⟩ }
          (cut0.move pd.cuts.stop) with
        | .error _ =>
          { pd with sources := ⟨Pydict.set pd.sources.id_to_source source.id source⟩ }
        | .ok d2 => d2) = _
    rw [hcc]
    show (match ProjectData.add_cut
        { pd with sources := ⟨Pydict.set pd.sources.id_to_source source.id source⟩ }
        ((Cut.mk (.src source.id) ⟨0, length⟩ 0 cid "under" 0 1).move pd.cuts.stop) with
      | .error _ =>
        { pd with sources := ⟨Pydict.set pd.sources.id_to_source source.id source⟩ }
      | .ok d2 => d2) = _
    rw [hmv]
    unfold ProjectData.add_cut
    rw [hadj]
    show (match pd.cuts.add1
        (Cut.mk (.src source.id) ⟨0, length⟩ pd.cuts.stop cid "under" 0 1) >>=
      (fun cuts => Except.ok
        ({ sources := ⟨Pydict.set pd.sources.id_to_source source.id source⟩,
           cuts := cuts } : ProjectData)) with
      | .error _ =>
        { pd with sources := ⟨Pydict.set pd.sources.id_to_source source.id source⟩ }
      | .ok d2 => d2) = _
    rw [hadd1]
    rfl
  refine ⟨Cut.mk (.src source.id) ⟨0, length⟩ pd.cuts.stop cid "under" 0 1,
    ?_, ?_, rfl, rfl, rfl⟩
  · rw [htas]
    exact Pydict.set_fresh _ _ _ hfresh
  · rw [htas]
    exact Pydict.set_fresh _ _ _ hcid

theorem C9_witness :
    ∃ cut : Cut,
      (ProjectData.empty.transaction_add_source (Source.text (some "s") "hello")
        10 (some "c")).sources.id_to_source =
        ProjectData.empty.sources.id_to_source ++
          [((Source.text (some "s") "hello").id, Source.text (some "s") "hello")] ∧
      (ProjectData.empty.transaction_add_source (Source.text (some "s") "hello")
        10 (some "c")).cuts.cut_map =
        ProjectData.empty.cuts.cut_map ++ [(some "c", cut)] ∧
      cut.position = ProjectData.empty.cuts_end ∧ cut.id = some "c" ∧
      cut.in_out = ⟨0, 10⟩ :=
  C9_add_clip_appended_at_end ProjectData.empty (Source.text (some "s") "hello") 10
    (some "c") (by decide) (by decide) (by intro i p l h; cases h) (by decide) (by decide)

/-! ### The in/out-within-source-limit invariant (claim C3) -/

/-- An entry of `Pydict.set` is the written pair or an entry of the
original dict. -/
theorem Pydict.mem_set [DecidableEq κ] {d : List (κ × ν)} {k : κ} {v : ν}
    {p : κ × ν} (h : p ∈ Pydict.set d k v) : p = (k, v) ∨ p ∈ d := by
  induction d with
  | nil =>
    simp only [Pydict.set] at h
    rw [List.mem_singleton] at h
    exact Or.inl h
  | cons q rest ih =>
    obtain ⟨a, b⟩ := q
    by_cases ha : a = k
    · subst ha
      simp only [Pydict.set, if_pos] at h
      rcases List.mem_cons.mp h with h | h
      · exact Or.inl h
      · exact Or.inr (List.mem_cons_of_mem _ h)
    · simp only [Pydict.set, ha, if_false] at h
      rcases List.mem_cons.mp h with h | h
      · exact Or.inr (h ▸ List.mem_cons_self _ _)
      · rcases ih h with h' | h'
        · exact Or.inl h'
        · exact Or.inr (List.mem_cons_of_mem _ h')

/-- An entry surviving `Pydict.del` was an entry of the original dict. -/
theorem Pydict.mem_del [DecidableEq κ] {d : List (κ × ν)} {k : κ}
    {p : κ × ν} (h : p ∈ Pydict.del d k) : p ∈ d := by
  induction d with
  | nil => cases h
  | cons q rest ih =>
    obtain ⟨a, b⟩ := q
    by_cases ha : a = k
    · subst ha
      simp only [Pydict.del, if_pos] at h
      exact List.mem_cons_of_mem _ h
    · simp only [Pydict.del, ha, if_false] at h
      rcases List.mem_cons.mp h with h | h
      · exact h ▸ List.mem_cons_self _ _
      · exact List.mem_cons_of_mem _ (ih h)

/-- The property claim C3 tracks for one cut: its source id is registered,
and a file source bounds `in_out.end` by its length (text sources impose
nothing). -/
def Sources.cutOK (sources : Sources) (c : Cut) : Prop :=
  ∀ sid, c.source = Cut.src sid →
    (∃ s, Pydict.lookup sources.id_to_source sid = some s) ∧
    (∀ i path len,
      Pydict.lookup sources.id_to_source sid = some (Source.file i path len) →
      c.in_out.stop ≤ len)

/-- Claim C3's project-wide invariant: no stored cut's `in_out` exceeds its
source's limit. -/
def ProjectData.InOutOK (pd : ProjectData) : Prop :=
  ∀ p ∈ pd.cuts.cut_map, pd.sources.cutOK p.2

/-- `cutOK` only reads the cut's source and `in_out`. -/
theorem Sources.cutOK_congr {sources : Sources} {c c' : Cut}
    (hs : c'.source = c.source) (hio : c'.in_out = c.in_out)
    (h : sources.cutOK c) : sources.cutOK c' := by
  intro sid hsid
  obtain ⟨h1, h2⟩ := h sid (by rw [← hs]; exact hsid)
  refine ⟨h1, fun i path len hl => ?_⟩
  rw [hio]
  exact h2 i path len hl

theorem Cut.move_source (c : Cut) (d : Int) : (c.move d).source = c.source := by
  cases c <;> rfl

theorem Cut.move_in_out (c : Cut) (d : Int) : (c.move d).in_out = c.in_out := by
  cases c <;> rfl

/-- A successfully adjusted cut with a valid region satisfies `cutOK`:
`limit_in_out` clamps a file source's out point and leaves text sources
alone. -/
theorem ProjectData.adjust_cutOK (pd : ProjectData) (cut c' : Cut)
    (h : pd.adjust_cut_in_out cut = Except.ok c') (hv : c'.region.valid) :
    pd.sources.cutOK c' := by
  cases cut with
  | src x =>
    have h' : (match Pydict.lookup pd.sources.id_to_source x with
        | some s => Except.ok (s.limit_in_out (Cut.src x))
        | none => Except.error "KeyError") = Except.ok c' := h
    cases hl : Pydict.lookup pd.sources.id_to_source x with
    | none => rw [hl] at h'; cases h'
    | some s =>
      rw [hl] at h'
      have h'' : Except.ok (s.limit_in_out (Cut.src x)) = Except.ok c' := h'
      have hlim : s.limit_in_out (Cut.src x) = Cut.src x := by
        cases s <;> rfl
      rw [hlim] at h''
      have hc' : c' = Cut.src x := (Except.ok.inj h'').symm
      subst hc'
      exact absurd hv (by simp [Cut.region, Cut.position, Cut.length, Cut.in_out,
        Region.length, Region.valid])
  | mk cs io p i m v sp =>
    cases cs with
    | mk s2 io2 p2 i2 m2 v2 sp2 => cases h
    | src sid0 =>
      have h' : (match Pydict.lookup pd.sources.id_to_source sid0 with
          | some s => Except.ok (s.limit_in_out (Cut.mk (.src sid0) io p i m v sp))
          | none => Except.error "KeyError") = Except.ok c' := h
      cases hl : Pydict.lookup pd.sources.id_to_source sid0 with
      | none => rw [hl] at h'; cases h'
      | some s =>
        rw [hl] at h'
        cases s with
        | text ti tt =>
          have hc' : c' = Cut.mk (.src sid0) io p i m v sp := (Except.ok.inj h').symm
          subst hc'
          intro sid hsid
          have hsid' : sid0 = sid := by
            simpa [Cut.source] using hsid
          subst hsid'
          refine ⟨⟨_, hl⟩, fun i' path' len' hl' => ?_⟩
          rw [hl] at hl'
          cases hl'
        | file fi fp fl =>
          have hc' : c' = Cut.mk (.src sid0) ⟨io.start, min io.stop fl⟩ p i m v sp :=
            (Except.ok.inj h').symm
          subst hc'
          intro sid hsid
          have hsid' : sid0 = sid := by
            simpa [Cut.source] using hsid
          subst hsid'
          refine ⟨⟨_, hl⟩, fun i' path' len' hl' => ?_⟩
          rw [hl] at hl'
          have hfl : fl = len' := by
            cases hl'
            rfl
          rw [← hfl]
          show min io.stop fl ≤ fl
          omega

/-- Inversion of a successful `Cuts.modify`. -/
theorem Cuts.modify_ok_inv {cuts : Cuts} {cut_id : CutId} {fn : Cut → Cut}
    {cuts' : Cuts} (h : cuts.modify cut_id fn = Except.ok cuts') :
    ∃ old, Pydict.lookup cuts.cut_map cut_id = some old ∧
      (fn old).region.valid ∧
      cuts'.cut_map = Pydict.set cuts.cut_map cut_id (fn old) := by
  unfold Cuts.modify at h
  cases hl : Pydict.lookup cuts.cut_map cut_id with
  | none => rw [hl] at h; cases h
  | some old =>
    rw [hl] at h
    have h' : (if old.region.stop ≤ old.region.start then
        (Except.error "Invalid region: start >= end." : Except String Cuts)
      else if (fn old).region.stop ≤ (fn old).region.start then
        Except.error "Invalid region: start >= end."
      else Except.ok
        { cuts with
          cut_map := Pydict.set cuts.cut_map cut_id (fn old),
          region_to_cuts :=
            (cuts.region_to_cuts.remove_cut_from_regions old.id
              (old.get_region_groups cuts.region_group_size)).add_cut_to_regions
              (fn old).id ((fn old).get_region_groups cuts.region_group_size) }) =
      Except.ok cuts' := h
    by_cases h1 : old.region.stop ≤ old.region.start
    · rw [if_pos h1] at h'; cases h'
    · rw [if_neg h1] at h'
      by_cases h2 : (fn old).region.stop ≤ (fn old).region.start
      · rw [if_pos h2] at h'; cases h'
      · rw [if_neg h2] at h'
        have := Except.ok.inj h'
        refine ⟨old, rfl, by show _ < _; omega, ?_⟩
        rw [← this]

/-- Inversion of a successful `Cuts.remove`. -/
theorem Cuts.remove_ok_inv {cuts : Cuts} {cut_id : CutId} {cuts' : Cuts}
    (h : cuts.remove cut_id = Except.ok cuts') :
    cuts'.cut_map = Pydict.del cuts.cut_map cut_id := by
  unfold Cuts.remove at h
  cases hl : Pydict.lookup cuts.cut_map cut_id with
  | none => rw [hl] at h; cases h
  | some old =>
    rw [hl] at h
    have h' : (if old.region.stop ≤ old.region.start then
        (Except.error "Invalid region: start >= end." : Except String Cuts)
      else Except.ok
        { cuts with
          cut_map := Pydict.del cuts.cut_map cut_id,
          region_to_cuts := cuts.region_to_cuts.remove_cut_from_regions cut_id
            (old.get_region_groups cuts.region_group_size) }) = Except.ok cuts' := h
    by_cases h1 : old.region.stop ≤ old.region.start
    · rw [if_pos h1] at h'; cases h'
    · rw [if_neg h1] at h'
      have := Except.ok.inj h'
      rw [← this]

/-- Entries after folding `modify (move delta)` over a list of ids keep the
source and `in_out` of some original entry. -/
theorem foldlM_move_entries (delta : Int) : ∀ (ids : List CutId) (cs cs' : Cuts),
    ids.foldlM (fun cs id => cs.modify id (fun cut => cut.move delta)) cs =
      Except.ok cs' →
    ∀ p ∈ cs'.cut_map, ∃ q ∈ cs.cut_map,
      p.2.source = q.2.source ∧ p.2.in_out = q.2.in_out := by
  intro ids
  induction ids with
  | nil =>
    intro cs cs' h p hp
    have h' : cs = cs' := Except.ok.inj h
    exact ⟨p, h' ▸ hp, rfl, rfl⟩
  | cons a rest ih =>
    intro cs cs' h p hp
    have h' : (cs.modify a (fun cut => cut.move delta) >>= fun cs1 =>
        rest.foldlM (fun cs id => cs.modify id (fun cut => cut.move delta)) cs1) =
        Except.ok cs' := h
    cases hm : cs.modify a (fun cut => cut.move delta) with
    | error e => rw [hm] at h'; cases h'
    | ok cs1 =>
      rw [hm] at h'
      have h'' : rest.foldlM (fun cs id => cs.modify id (fun cut => cut.move delta))
          cs1 = Except.ok cs' := h'
      obtain ⟨q1, hq1, hqs, hqio⟩ := ih cs1 cs' h'' p hp
      obtain ⟨old, hold, _, hmap⟩ := Cuts.modify_ok_inv hm
      rw [hmap] at hq1
      rcases Pydict.mem_set hq1 with hq | hq
      · refine ⟨(a, old), Pydict.lookup_mem hold, ?_, ?_⟩
        · rw [hqs, hq]
          exact Cut.move_source old delta
        · rw [hqio, hq]
          exact Cut.move_in_out old delta
      · exact ⟨q1, hq, hqs, hqio⟩

/-- `Cuts.ripple_delete` only deletes and moves: every surviving entry keeps
the source and `in_out` of some original entry. -/
theorem Cuts.ripple_delete_entries {cuts : Cuts} {cut_id : CutId} {cuts' : Cuts}
    (h : cuts.ripple_delete cut_id = Except.ok cuts') :
    ∀ p ∈ cuts'.cut_map, ∃ q ∈ cuts.cut_map,
      p.2.source = q.2.source ∧ p.2.in_out = q.2.in_out := by
  unfold Cuts.ripple_delete at h
  cases hg : cuts.get cut_id with
  | error e => rw [hg] at h; cases h
  | ok cut_to_delete =>
    rw [hg] at h
    have h1 : (cuts.remove cut_id >>= fun cuts2 =>
        match ((Pydict.values cuts2.cut_map).filter
            (fun cut => cut_to_delete.start < cut.start)).map
            (fun cut => cut.start - cut_to_delete.start) with
        | [] => Except.error "min() arg is an empty sequence"
        | d :: ds =>
          (((Pydict.values cuts2.cut_map).filter
            (fun cut => cut_to_delete.start < cut.start)).map Cut.id).foldlM
            (fun cs id => cs.modify id (fun cut => cut.move (-(ds.foldl min d))))
            cuts2) = Except.ok cuts' := h
    cases hr : cuts.remove cut_id with
    | error e => rw [hr] at h1; cases h1
    | ok cuts2 =>
      rw [hr] at h1
      have hmap := Cuts.remove_ok_inv hr
      intro p hp
      have h2 : (match ((Pydict.values cuts2.cut_map).filter
            (fun cut => cut_to_delete.start < cut.start)).map
            (fun cut => cut.start - cut_to_delete.start) with
        | [] => (Except.error "min() arg is an empty sequence" : Except String Cuts)
        | d :: ds =>
          (((Pydict.values cuts2.cut_map).filter
            (fun cut => cut_to_delete.start < cut.start)).map Cut.id).foldlM
            (fun cs id => cs.modify id (fun cut => cut.move (-(ds.foldl min d))))
            cuts2) = Except.ok cuts' := h1
      cases hd : ((Pydict.values cuts2.cut_map).filter
          (fun cut => cut_to_delete.start < cut.start)).map
          (fun cut => cut.start - cut_to_delete.start) with
      | nil => rw [hd] at h2; cases h2
      | cons d ds =>
        rw [hd] at h2
        obtain ⟨q, hq, hqs, hqio⟩ := foldlM_move_entries _ _ _ _ h2 p hp
        rw [hmap] at hq
        exact ⟨q, Pydict.mem_del hq, hqs, hqio⟩

/-- Inversion of a successful `Cuts.get`. -/
theorem Cuts.get_ok_inv {cuts : Cuts} {cut_id : CutId} {c : Cut}
    (h : cuts.get cut_id = Except.ok c) :
    Pydict.lookup cuts.cut_map cut_id = some c := by
  unfold Cuts.get at h
  cases hl : Pydict.lookup cuts.cut_map cut_id with
  | none => rw [hl] at h; cases h
  | some c0 =>
    rw [hl] at h
    rw [Except.ok.inj h]

/-- After a successful fold of `add1`, every added cut had a valid region
and every entry is an added cut or an original entry. -/
theorem foldlM_add1_entries : ∀ (new : List Cut) (cs cs' : Cuts),
    new.foldlM Cuts.add1 cs = Except.ok cs' →
    (∀ c ∈ new, c.region.valid) ∧
    (∀ p ∈ cs'.cut_map, p.2 ∈ new ∨ p ∈ cs.cut_map) := by
  intro new
  induction new with
  | nil =>
    intro cs cs' h
    have h' : cs = cs' := Except.ok.inj h
    exact ⟨fun c hc => absurd hc (List.not_mem_nil c),
      fun p hp => Or.inr (h' ▸ hp)⟩
  | cons c rest ih =>
    intro cs cs' h
    have h' : (cs.add1 c >>= fun cs1 => rest.foldlM Cuts.add1 cs1) =
        Except.ok cs' := h
    cases ha : cs.add1 c with
    | error e => rw [ha] at h'; cases h'
    | ok cs1 =>
      rw [ha] at h'
      have h'' : rest.foldlM Cuts.add1 cs1 = Except.ok cs' := h'
      obtain ⟨hfresh, hvalid, hmap⟩ := Cuts.add1_ok_inv ha
      obtain ⟨ihv, ihm⟩ := ih cs1 cs' h''
      refine ⟨fun x hx => ?_, fun p hp => ?_⟩
      · rcases List.mem_cons.mp hx with rfl | hx'
        · exact hvalid
        · exact ihv x hx'
      · rcases ihm p hp with hm | hm
        · exact Or.inl (List.mem_cons_of_mem _ hm)
        · rw [hmap] at hm
          rw [List.mem_append] at hm
          rcases hm with hm | hm
          · exact Or.inr hm
          · rw [List.mem_singleton] at hm
            rw [hm]
            exact Or.inl (List.mem_cons_self _ _)

/-- `modify_cut` keeps the invariant: the stored cut went through
`adjust_cut_in_out`. -/
theorem ProjectData.InOutOK_modify_cut {pd : ProjectData} {cut_id : CutId}
    {fn : Cut → Cut} {pd' : ProjectData} (h : pd.InOutOK)
    (hm : pd.modify_cut cut_id fn = Except.ok pd') : pd'.InOutOK := by
  unfold ProjectData.modify_cut at hm
  cases hl : Pydict.lookup pd.cuts.cut_map cut_id with
  | none => rw [hl] at hm; cases hm
  | some old =>
    rw [hl] at hm
    have hm' : (pd.adjust_cut_in_out (fn old) >>= fun adjusted =>
        pd.cuts.modify cut_id (fun _ => adjusted) >>= fun cuts =>
        Except.ok { pd with cuts := cuts }) = Except.ok pd' := hm
    cases hadj : pd.adjust_cut_in_out (fn old) with
    | error e => rw [hadj] at hm'; cases hm'
    | ok adjusted =>
      rw [hadj] at hm'
      have hm'' : (pd.cuts.modify cut_id (fun _ => adjusted) >>= fun cuts =>
          Except.ok { pd with cuts := cuts }) = Except.ok pd' := hm'
      cases hmod : pd.cuts.modify cut_id (fun _ => adjusted) with
      | error e => rw [hmod] at hm''; cases hm''
      | ok cuts2 =>
        rw [hmod] at hm''
        have hpd' : pd' = { pd with cuts := cuts2 } := (Except.ok.inj hm'').symm
        subst hpd'
        obtain ⟨old2, _, hvalid, hmap⟩ := Cuts.modify_ok_inv hmod
        intro p hp
        rw [show ({ pd with cuts := cuts2 } : ProjectData).cuts.cut_map =
          cuts2.cut_map from rfl, hmap] at hp
        rcases Pydict.mem_set hp with hpp | hpp
        · rw [hpp]
          exact pd.adjust_cutOK (fn old) adjusted hadj hvalid
        · exact h p hpp

/-- `add_cut` keeps the invariant. -/
theorem ProjectData.InOutOK_add_cut {pd : ProjectData} {cut : Cut}
    {pd' : ProjectData} (h : pd.InOutOK)
    (ha : pd.add_cut cut = Except.ok pd') : pd'.InOutOK := by
  unfold ProjectData.add_cut at ha
  cases hadj : pd.adjust_cut_in_out cut with
  | error e => rw [hadj] at ha; cases ha
  | ok adjusted =>
    rw [hadj] at ha
    have ha' : (pd.cuts.add1 adjusted >>= fun cuts =>
        Except.ok { pd with cuts := cuts }) = Except.ok pd' := ha
    cases ha1 : pd.cuts.add1 adjusted with
    | error e => rw [ha1] at ha'; cases ha'
    | ok cuts2 =>
      rw [ha1] at ha'
      have hpd' : pd' = { pd with cuts := cuts2 } := (Except.ok.inj ha').symm
      subst hpd'
      obtain ⟨hfresh, hvalid, hmap⟩ := Cuts.add1_ok_inv ha1
      intro p hp
      rw [show ({ pd with cuts := cuts2 } : ProjectData).cuts.cut_map =
        cuts2.cut_map from rfl, hmap, List.mem_append] at hp
      rcases hp with hp | hp
      · exact h p hp
      · rw [List.mem_singleton] at hp
        rw [hp]
        exact pd.adjust_cutOK cut adjusted hadj hvalid

/-- `add_source` keeps the invariant: the new id is fresh, so no existing
cut references it. -/
theorem ProjectData.InOutOK_add_source {pd : ProjectData} {source : Source}
    {pd' : ProjectData} (h : pd.InOutOK)
    (ha : pd.add_source source = Except.ok pd') : pd'.InOutOK := by
  unfold ProjectData.add_source Sources.add at ha
  by_cases hfresh : (Pydict.lookup pd.sources.id_to_source source.id).isSome
  · rw [if_pos hfresh] at ha
    cases ha
  · rw [if_neg hfresh] at ha
    have hnone : Pydict.lookup pd.sources.id_to_source source.id = none := by
      cases hl : Pydict.lookup pd.sources.id_to_source source.id with
      | none => rfl
      | some s => rw [hl] at hfresh; simp at hfresh
    have hpd' : pd' =
        { pd with sources := ⟨Pydict.set pd.sources.id_to_source source.id source⟩ } :=
      (Except.ok.inj ha).symm
    subst hpd'
    intro p hp
    intro sid hsid
    obtain ⟨⟨s0, hs0⟩, hfl⟩ := h p hp sid hsid
    have hne : sid ≠ source.id := by
      intro he
      rw [he, hnone] at hs0
      cases hs0
    have hlk : Pydict.lookup (Pydict.set pd.sources.id_to_source source.id source)
        sid = Pydict.lookup pd.sources.id_to_source sid :=
      Pydict.lookup_set_ne _ _ _ _ hne
    refine ⟨⟨s0, show Pydict.lookup
        (Pydict.set pd.sources.id_to_source source.id source) sid = some s0 from by
      rw [hlk]; exact hs0⟩, fun i path len hl => ?_⟩
    have hl' : Pydict.lookup (Pydict.set pd.sources.id_to_source source.id source)
        sid = some (Source.file i path len) := hl
    rw [hlk] at hl'
    exact hfl i path len hl'

/-- `ripple_delete` keeps the invariant: it only deletes and moves cuts. -/
theorem ProjectData.InOutOK_ripple_delete {pd : ProjectData} {cut_id : CutId}
    {pd' : ProjectData} (h : pd.InOutOK)
    (hr : pd.ripple_delete cut_id = Except.ok pd') : pd'.InOutOK := by
  unfold ProjectData.ripple_delete at hr
  cases hc : pd.cuts.ripple_delete cut_id with
  | error e => rw [hc] at hr; cases hr
  | ok cuts2 =>
    rw [hc] at hr
    have hpd' : pd' = { pd with cuts := cuts2 } := (Except.ok.inj hr).symm
    subst hpd'
    intro p hp
    obtain ⟨q, hq, hqs, hqio⟩ := Cuts.ripple_delete_entries hc p hp
    exact Sources.cutOK_congr hqs hqio (h q hq)

/-- `split` keeps the invariant: each half's `in_out` stays inside the
original cut's `in_out` whenever the split succeeds. -/
theorem ProjectData.InOutOK_split {pd : ProjectData} {cut_id : CutId}
    {position : Int} {id1 id2 : CutId} {pd' : ProjectData} (h : pd.InOutOK)
    (hs : pd.split cut_id position id1 id2 = Except.ok pd') : pd'.InOutOK := by
  unfold ProjectData.split at hs
  cases hc : pd.cuts.split cut_id position id1 id2 with
  | error e => rw [hc] at hs; cases hs
  | ok cuts3 =>
    rw [hc] at hs
    have hpd' : pd' = { pd with cuts := cuts3 } := (Except.ok.inj hs).symm
    subst hpd'
    unfold Cuts.split at hc
    cases hg : pd.cuts.get cut_id with
    | error e => rw [hg] at hc; cases hc
    | ok orig =>
      rw [hg] at hc
      have hc' : (pd.cuts.remove orig.id >>= fun cuts2 =>
          (orig.split position id1 id2).foldlM Cuts.add1 cuts2) = Except.ok cuts3 := hc
      cases hr : pd.cuts.remove orig.id with
      | error e => rw [hr] at hc'; cases hc'
      | ok cuts2 =>
        rw [hr] at hc'
        have hfold : (orig.split position id1 id2).foldlM Cuts.add1 cuts2 =
            Except.ok cuts3 := hc'
        obtain ⟨hall, hentries⟩ := foldlM_add1_entries _ _ _ hfold
        have hdel := Cuts.remove_ok_inv hr
        have horigOK : pd.sources.cutOK orig :=
          h _ (Pydict.lookup_mem (Cuts.get_ok_inv hg))
        intro p hp
        rcases hentries p hp with hm | hm
        · cases orig with
          | src s =>
            exfalso
            have hval : ((Cut.src s).with_id id1).region.valid := by
              refine hall _ ?_
              show _ ∈ [(Cut.src s).with_id id1, (Cut.src s).with_id id2]
              exact List.mem_cons_self _ _
            exact absurd hval (by simp [Cut.with_id, Cut.region, Cut.position,
              Cut.length, Cut.in_out, Region.length, Region.valid])
          | mk cs io p0 i0 m0 v0 sp0 =>
            have hm' : p.2 ∈
                [Cut.mk cs (io.resize_to (position - p0)) p0 id1 m0 v0 sp0,
                 Cut.mk cs (io.shorten_left (position - p0)) (p0 + (position - p0))
                   id2 m0 v0 sp0] := hm
            have hv2 : io.start + (position - p0) < io.stop := by
              have hval : (Cut.mk cs (io.shorten_left (position - p0))
                  (p0 + (position - p0)) id2 m0 v0 sp0).region.valid := by
                refine hall _ ?_
                exact List.mem_cons_of_mem _ (List.mem_cons_self _ _)
              exact (Cut.region_valid_iff _).mp hval
            rcases List.mem_cons.mp hm' with h1 | hm''
            · rw [h1]
              intro sid hsid
              obtain ⟨hex, hfl⟩ := horigOK sid hsid
              refine ⟨hex, fun i path len hl => ?_⟩
              have hlen : io.stop ≤ len := hfl i path len hl
              show io.start + (position - p0) ≤ len
              omega
            · rcases List.mem_cons.mp hm'' with h2 | h0
              · rw [h2]
                intro sid hsid
                obtain ⟨hex, hfl⟩ := horigOK sid hsid
                refine ⟨hex, fun i path len hl => ?_⟩
                exact hfl i path len hl
              · cases h0
        · rw [hdel] at hm
          exact h p (Pydict.mem_del hm)

/-- `Transaction.add_source` keeps the invariant at every partial stage. -/
theorem ProjectData.InOutOK_transaction_add_source {pd : ProjectData}
    (source : Source) (length : Int) (cid : CutId) (h : pd.InOutOK) :
    (pd.transaction_add_source source length cid).InOutOK := by
  unfold ProjectData.transaction_add_source
  cases ha : pd.add_source source with
  | error e => exact h
  | ok d1 =>
    have h1 : d1.InOutOK := ProjectData.InOutOK_add_source h ha
    cases hc : source.create_cut 0 length cid with
    | error e => exact h1
    | ok cut0 =>
      show (match d1.add_cut (cut0.move d1.cuts_end) with
        | .error _ => d1 | .ok d2 => d2).InOutOK
      cases hac : d1.add_cut (cut0.move d1.cuts_end) with
      | error e => exact h1
      | ok d2 => exact ProjectData.InOutOK_add_cut h1 hac

/-- Every transaction operation keeps the invariant (a raising operation
leaves the last stored data). -/
theorem ProjectData.InOutOK_applyTransOpData {pd : ProjectData} (op : TransOp)
    (h : pd.InOutOK) : (applyTransOpData pd op).InOutOK := by
  cases op with
  | modifyOp cut_id fn =>
    show (match pd.modify_cut cut_id fn with
      | .ok d => d | .error _ => pd).InOutOK
    cases hm : pd.modify_cut cut_id fn with
    | error e => exact h
    | ok d => exact ProjectData.InOutOK_modify_cut h hm
  | addSourceOp source length cid =>
    exact ProjectData.InOutOK_transaction_add_source source length cid h
  | rippleDeleteOp cut_id =>
    show (match pd.ripple_delete cut_id with
      | .ok d => d | .error _ => pd).InOutOK
    cases hm : pd.ripple_delete cut_id with
    | error e => exact h
    | ok d => exact ProjectData.InOutOK_ripple_delete h hm
  | splitOp cut_id position id1 id2 =>
    show (match pd.split cut_id position id1 id2 with
      | .ok d => d | .error _ => pd).InOutOK
    cases hm : pd.split cut_id position id1 id2 with
    | error e => exact h
    | ok d => exact ProjectData.InOutOK_split h hm

/-- `applyTransOps` acts on the data as a fold of `applyTransOpData`. -/
theorem applyTransOps_data (ops : List TransOp) : ∀ p : Project,
    (applyTransOps p ops).project_data =
      ops.foldl applyTransOpData p.project_data := by
  induction ops with
  | nil => intro p; rfl
  | cons op rest ih =>
    intro p
    show (applyTransOps (applyTransOp p op) rest).project_data = _
    rw [ih]
    rfl

theorem InOutOK_foldl (ops : List TransOp) : ∀ pd : ProjectData, pd.InOutOK →
    (ops.foldl applyTransOpData pd).InOutOK := by
  induction ops with
  | nil => intro pd h; exact h
  | cons op rest ih =>
    intro pd h
    exact ih _ (ProjectData.InOutOK_applyTransOpData op h)

/-- Claim C3: starting from project data whose cuts are within their
sources' limits, every sequence of transaction operations — each of which
routes new or changed cuts through `adjust_cut_in_out`, the clamp to the
source's available range — keeps them within the limits, so after `commit`
(which itself only releases the transaction) no cut's `in_out` exceeds its
source's limit. -/
theorem C3_commit_in_out_within_limit (pd : ProjectData) (ops : List TransOp)
    (h : pd.InOutOK) :
    ((applyTransOps ⟨pd, some pd⟩ ops).commit).project_data.InOutOK := by
  show (applyTransOps ⟨pd, some pd⟩ ops).project_data.InOutOK
  rw [applyTransOps_data]
  exact InOutOK_foldl ops pd h

theorem C3_witness :
    (Project.commit (applyTransOps ⟨ProjectData.empty, some ProjectData.empty⟩
      [TransOp.addSourceOp (Source.file (some "s") "a.mp4" 5) 5
        (some "c")])).project_data.InOutOK :=
  C3_commit_in_out_within_limit ProjectData.empty
    [TransOp.addSourceOp (Source.file (some "s") "a.mp4" 5) 5 (some "c")]
    (fun p hp => absurd hp (List.not_mem_nil p))

/-! ### Save/load roundtrip (claim C4) -/

/-- A valid region survives the JSON roundtrip (the validating constructor
accepts it back). -/
theorem region_from_to_json (r : Region) (hv : r.valid) :
    Region.from_json r.to_json = Except.ok r := by
  show Region.mk? r.start r.stop = Except.ok r
  unfold Region.mk?
  rw [if_neg (by simp only [Region.valid] at hv; omega)]

/-- A source rebuilt from its JSON document differs only in the id, which
the loader takes from the enclosing dict key. -/
theorem source_from_to_json (s : Source) (id : CutId) :
    Source.from_json id s.to_json = Except.ok (match s with
      | .file _ path len => .file id path len
      | .text _ txt => .text id txt) := by
  cases s <;> rfl

/-- A base cut (a `CutSource` leaf source, valid `in_out`) survives the
JSON roundtrip with the id replaced by the loader's key. -/
theorem cut_from_to_json (sid : CutId) (io : Region) (p : Int) (i id : CutId)
    (m : String) (v : Int) (sp : Rat) (hv : io.valid) :
    Cut.to_json (Cut.mk (.src sid) io p i m v sp) = Except.ok (.obj
      [("source", match sid with | some s => .str s | none => .null),
       ("in_out", io.to_json),
       ("position", .int p),
       ("mix_strategy", .str m),
       ("volume", .int v),
       ("speed", .num sp)]) ∧
    Cut.from_json id (.obj
      [("source", match sid with | some s => .str s | none => .null),
       ("in_out", io.to_json),
       ("position", .int p),
       ("mix_strategy", .str m),
       ("volume", .int v),
       ("speed", .num sp)]) = Except.ok (Cut.mk (.src sid) io p id m v sp) := by
  refine ⟨rfl, ?_⟩
  cases sid with
  | some s =>
    show (Region.from_json io.to_json >>= fun io' =>
      Except.ok (Cut.mk (.src (some s)) io' p id m v sp)) = _
    rw [region_from_to_json io hv]
    rfl
  | none =>
    show (Region.from_json io.to_json >>= fun io' =>
      Except.ok (Cut.mk (.src none) io' p id m v sp)) = _
    rw [region_from_to_json io hv]
    rfl

/-- Reduction of a bind on an `ok` value (the monad instance unfolding, as
a rewrite). -/
theorem exceptOk_bind {α β : Type} (a : α) (f : α → Except String β) :
    (Except.ok a >>= f) = f a := rfl

/-- Folding the loader over the serialized sources list rebuilds it behind
any already-loaded prefix (string keys, ids matching keys, no duplicates). -/
theorem sources_from_json_fold (l : List (CutId × Source)) : ∀ acc : Sources,
    (∀ p ∈ l, (∃ s, p.1 = some s) ∧ p.2.id = p.1 ∧
      Pydict.lookup acc.id_to_source p.1 = none) →
    (l.map Prod.fst).Nodup →
    (l.map (fun p => (jsonKey p.1, p.2.to_json))).foldlM (fun sources q => do
        let s ← Source.from_json (some q.1) q.2
        sources.add s) acc = Except.ok ⟨acc.id_to_source ++ l⟩ := by
  induction l with
  | nil =>
    intro acc _ _
    show Except.ok acc = Except.ok ⟨acc.id_to_source ++ []⟩
    rw [List.append_nil]
  | cons p rest ih =>
    intro acc hp hnd
    obtain ⟨⟨s, hs⟩, hid, hfresh⟩ := hp p (List.mem_cons_self _ _)
    have hkey : some (jsonKey p.1) = p.1 := by rw [hs]; rfl
    have hfrom : Source.from_json (some (jsonKey p.1)) (p.2.to_json) =
        Except.ok p.2 := by
      rw [source_from_to_json]
      cases hsrc : p.2 with
      | file fi fp fl =>
        have hid' : fi = p.1 := by rw [← hid, hsrc]; rfl
        rw [hkey, hid']
      | text ti tt =>
        have hid' : ti = p.1 := by rw [← hid, hsrc]; rfl
        rw [hkey, hid']
    have hfresh2 : Pydict.lookup acc.id_to_source p.2.id = none := by
      rw [hid]
      exact hfresh
    have hadd : acc.add p.2 = Except.ok ⟨acc.id_to_source ++ [(p.1, p.2)]⟩ := by
      unfold Sources.add
      rw [hfresh2]
      rw [if_neg (by simp)]
      rw [Pydict.set_fresh _ _ _ hfresh2, hid]
    show ((Source.from_json (some (jsonKey p.1)) (p.2.to_json) >>= fun s =>
        acc.add s) >>= fun acc1 =>
      (rest.map (fun p => (jsonKey p.1, p.2.to_json))).foldlM (fun sources q => do
        let s ← Source.from_json (some q.1) q.2
        sources.add s) acc1) = _
    rw [hfrom]
    show (acc.add p.2 >>= fun acc1 =>
      (rest.map (fun p => (jsonKey p.1, p.2.to_json))).foldlM (fun sources q => do
        let s ← Source.from_json (some q.1) q.2
        sources.add s) acc1) = _
    rw [hadd]
    rw [exceptOk_bind]
    rw [ih ⟨acc.id_to_source ++ [(p.1, p.2)]⟩ ?_ (List.nodup_cons.mp hnd).2]
    · rw [List.append_assoc]
      rfl
    · intro q hq
      obtain ⟨hq1, hq2, hq3⟩ := hp q (List.mem_cons_of_mem _ hq)
      refine ⟨hq1, hq2, ?_⟩
      show Pydict.lookup (acc.id_to_source ++ [(p.1, p.2)]) q.1 = none
      rw [Pydict.lookup_append, hq3]
      have hne : q.1 ≠ p.1 := by
        intro he
        have : p.1 ∈ rest.map Prod.fst := he ▸ List.mem_map.mpr ⟨q, hq, rfl⟩
        exact (List.nodup_cons.mp hnd).1 this
      show Pydict.lookup [(p.1, p.2)] q.1 = none
      unfold Pydict.lookup
      rw [if_neg (fun h => hne h.symm)]
      rfl

/-- Existential packaging of `cut_from_to_json`. -/
theorem Cut.roundtrip (sid : CutId) (io : Region) (p : Int) (i id : CutId)
    (m : String) (v : Int) (sp : Rat) (hv : io.valid) :
    ∃ j, Cut.to_json (Cut.mk (.src sid) io p i m v sp) = Except.ok j ∧
      Cut.from_json id j = Except.ok (Cut.mk (.src sid) io p id m v sp) :=
  ⟨_, (cut_from_to_json sid io p i id m v sp hv).1,
    (cut_from_to_json sid io p i id m v sp hv).2⟩

/-- Serializing a cut map and folding the loader over the document is the
same as folding plain `add1` over the original entries (for string keys,
ids matching keys, base sources and valid in/outs). -/
theorem cuts_from_json_fold (l : List (CutId × Cut))
    (hcut : ∀ p ∈ l, (∃ s, p.1 = some s) ∧
      ∃ sid io pos m v sp, p.2 = Cut.mk (.src sid) io pos p.1 m v sp ∧ io.valid) :
    ∃ fields, l.mapM (fun q => do
        let cj ← q.2.to_json
        Except.ok (jsonKey q.1, cj)) = Except.ok fields ∧
      ∀ acc : Cuts, fields.foldlM (fun cuts q => do
          let cut ← Cut.from_json (some q.1) q.2
          cuts.add1 cut) acc =
        l.foldlM (fun cuts q => cuts.add1 q.2) acc := by
  induction l with
  | nil => exact ⟨[], rfl, fun acc => rfl⟩
  | cons p rest ih =>
    obtain ⟨⟨s, hs⟩, sid, io, pos, m, v, sp, hp2, hv⟩ :=
      hcut p (List.mem_cons_self _ _)
    obtain ⟨fields, hmap, hfold⟩ := ih (fun q hq => hcut q (List.mem_cons_of_mem _ hq))
    have hkey : some (jsonKey p.1) = p.1 := by rw [hs]; rfl
    obtain ⟨J, hto, hfrom⟩ :=
      Cut.roundtrip sid io pos p.1 (some (jsonKey p.1)) m v sp hv
    have hfrom' : Cut.from_json (some (jsonKey p.1)) J = Except.ok p.2 := by
      rw [hfrom, hkey, ← hp2]
    refine ⟨(jsonKey p.1, J) :: fields, ?_, ?_⟩
    · rw [List.mapM_cons]
      rw [show p.2.to_json = Except.ok J from hp2 ▸ hto]
      rw [exceptOk_bind, exceptOk_bind, hmap, exceptOk_bind]
      rfl
    · intro acc
      simp only [List.foldlM_cons]
      rw [hfrom', exceptOk_bind]
      cases hadd : acc.add1 p.2 with
      | error e => rfl
      | ok c1 =>
        rw [exceptOk_bind, exceptOk_bind]
        exact hfold c1

/-- Claim C4 (corrected): the save/load roundtrip is NOT the identity on
every `ProjectData` — JSON object keys are strings, so a `None` dict key
returns as `"null"`, and the loader rebuilds the bucket index from scratch —
but it is the identity on well-formed project data: string keys matching the
stored ids, base cuts with valid `in_out` regions, and a bucket index equal
to the canonical rebuild (`Cuts.empty().add(...)` in document order), which
is exactly what the constructors produce. -/
theorem C4_save_load_roundtrip (pd : ProjectData)
    (hsrc : ∀ p ∈ pd.sources.id_to_source, (∃ s, p.1 = some s) ∧ p.2.id = p.1)
    (hsnd : (pd.sources.id_to_source.map Prod.fst).Nodup)
    (hcut : ∀ p ∈ pd.cuts.cut_map, (∃ s, p.1 = some s) ∧
      ∃ sid io pos m v sp, p.2 = Cut.mk (.src sid) io pos p.1 m v sp ∧ io.valid)
    (hcanon : pd.cuts.cut_map.foldlM (fun cuts q => cuts.add1 q.2) Cuts.empty =
      Except.ok pd.cuts) :
    pd.save_load = Except.ok pd := by
  obtain ⟨fields, hmap, hfold⟩ := cuts_from_json_fold pd.cuts.cut_map hcut
  have hcj : pd.cuts.to_json = Except.ok (Json.obj fields) := by
    show (pd.cuts.cut_map.mapM (fun q => do
        let cj ← q.2.to_json
        Except.ok (jsonKey q.1, cj)) >>= fun fs => Except.ok (Json.obj fs)) = _
    rw [hmap, exceptOk_bind]
  have hpj : pd.to_json = Except.ok (Json.obj
      [("sources", pd.sources.to_json), ("cuts", Json.obj fields)]) := by
    show (pd.cuts.to_json >>= fun cj => Except.ok (Json.obj
      [("sources", pd.sources.to_json), ("cuts", cj)])) = _
    rw [hcj, exceptOk_bind]
  have hsources : Sources.from_json pd.sources.to_json = Except.ok pd.sources := by
    show (pd.sources.id_to_source.map (fun p => (jsonKey p.1, p.2.to_json))).foldlM
      (fun (sources : Sources) (q : String × Json) =>
        (do let s ← Source.from_json (some q.1) q.2
            sources.add s : Except String Sources)) Sources.empty = _
    rw [sources_from_json_fold pd.sources.id_to_source Sources.empty
      (fun p hp => ⟨(hsrc p hp).1, (hsrc p hp).2, rfl⟩) hsnd]
    rfl
  have hcuts : Cuts.from_json (Json.obj fields) = Except.ok pd.cuts := by
    show fields.foldlM (fun (cuts : Cuts) (q : String × Json) =>
        (do let cut ← Cut.from_json (some q.1) q.2
            cuts.add1 cut : Except String Cuts)) Cuts.empty = _
    rw [hfold Cuts.empty]
    exact hcanon
  show (pd.to_json >>= fun j => ProjectData.from_json j) = _
  rw [hpj, exceptOk_bind]
  show (Sources.from_json pd.sources.to_json >>= fun sources =>
    Cuts.from_json (Json.obj fields) >>= fun cuts =>
    Except.ok (⟨sources, cuts⟩ : ProjectData)) = _
  rw [hsources, exceptOk_bind, hcuts, exceptOk_bind]

/-- A project whose only cut sits under the dict key `None` (as every
`Cut.test_instance` and freshly split half does before an id is assigned). -/
def c4pd : ProjectData :=
  { sources := ⟨[(some "s", Source.text (some "s") "hi")]⟩,
    cuts :=
      { cut_map := [(none, Cut.mk (.src (some "s")) ⟨0, 5⟩ 0 none "under" 0 1)],
        region_to_cuts := ⟨[(0, [none])]⟩,
        region_group_size := 100 } }

/-- Claim C4's counterexample: `json.dump` writes the `None` cut key as the
string `"null"`, so the loaded project stores the cut under `"null"` and is
not structurally equal to the saved one. -/
theorem C4_counterexample_none_key : c4pd.save_load ≠ Except.ok c4pd := by
  intro h
  have h2 : c4pd.save_load = Except.ok
      { sources := ⟨[(some "s", Source.text (some "s") "hi")]⟩,
        cuts :=
          { cut_map := [(some "null",
              Cut.mk (.src (some "s")) ⟨0, 5⟩ 0 (some "null") "under" 0 1)],
            region_to_cuts := ⟨[(0, [some "null"])]⟩,
            region_group_size := 100 } } := rfl
  rw [h2] at h
  have h3 := Except.ok.inj h
  have h4 : ([(some "null",
      Cut.mk (.src (some "s")) ⟨0, 5⟩ 0 (some "null") "under" 0 1)] :
      List (CutId × Cut)) =
      [(none, Cut.mk (.src (some "s")) ⟨0, 5⟩ 0 none "under" 0 1)] :=
    congrArg (fun d => d.cuts.cut_map) h3
  exact absurd h4 (by decide)

/-- A canonical one-source one-cut project (string keys, canonical index). -/
def c4good : ProjectData :=
  { sources := ⟨[(some "s", Source.text (some "s") "hi")]⟩,
    cuts :=
      { cut_map := [(some "c",
          Cut.mk (.src (some "s")) ⟨0, 5⟩ 0 (some "c") "under" 0 1)],
        region_to_cuts := ⟨[(0, [some "c"])]⟩,
        region_group_size := 100 } }

theorem C4_witness : c4good.save_load = Except.ok c4good :=
  C4_save_load_roundtrip c4good
    (fun p hp => by
      have hp' : p = (some "s", Source.text (some "s") "hi") :=
        List.mem_singleton.mp hp
      subst hp'
      exact ⟨⟨"s", rfl⟩, rfl⟩)
    (by decide)
    (fun p hp => by
      have hp' : p = (some "c",
          Cut.mk (.src (some "s")) ⟨0, 5⟩ 0 (some "c") "under" 0 1) :=
        List.mem_singleton.mp hp
      subst hp'
      exact ⟨⟨"c", rfl⟩, some "s", ⟨0, 5⟩, 0, "under", 0, 1, rfl, by decide⟩)
    rfl
